import Mathlib

/-!
# de-crypto: the staged block-processing pipeline

A shallow embedding of the Go sources of `jmsilvadev/de-crypto`
(`pkg/utils`, `pkg/checkpoint`, `pkg/address`, `pkg/jsonrpc`,
`internal/dto.go`, `internal/filter.go`, `internal/sink.go`,
`internal/head.go`, `internal/block.go`, `internal/server.go`) together with
theorems about them.

Conventions.

* Go `string` values are Lean `String`s, handled through their list of
  characters so that every definition reduces structurally.
* `uint64` and `int64` values are `Nat` and `Int`; a wrap-around is written
  as an explicit `% 2 ^ 64` where the Go code can overflow.
* Functions of the Go standard library that the sources call but do not
  define (`strings.ToLower`, `json.Marshal` of an `Event`, the operating
  system calls behind `os.WriteFile` and `os.Rename`) are parameters or
  explicit environment choices.
* Finite `float64` values are rational numbers; the rounding of a `float64`
  operation and the value of `rand.Float64()` are parameters.
* `json.Unmarshal` into a `Checkpoint` is the scanner of `encoding/json`,
  one step per byte, with the decoding of the top-level object into the
  struct layered on it; a syntax error and a type error both make the call
  return an error.
* Channels, tickers and the cancellation context are made explicit: a stage
  is a function from the sequence of things it observes to the sequence of
  things it does.
-/

namespace DeCrypto

/-! ## `pkg/utils/util.go` -/

/-- The two errors of `strconv.ParseUint`: `ErrSyntax` and `ErrRange`. -/
inductive NumError where
  | syntaxErr
  | rangeErr
  deriving DecidableEq, Repr

deriving instance DecidableEq for Except

/-- The digit scan of `strconv.ParseUint`: `'0'..'9'` give 0..9, and a byte
whose lower-cased form (`c | 0x20`) lies in `'a'..'z'` gives 10..35.  Every
other byte, in particular every byte of a multi-byte rune, is no digit. -/
def digitVal (c : Char) : Option Nat :=
  let v := c.toNat
  if 48 ≤ v ∧ v ≤ 57 then some (v - 48)
  else if 97 ≤ v ∧ v ≤ 122 then some (v - 97 + 10)
  else if 65 ≤ v ∧ v ≤ 90 then some (v - 65 + 10)
  else none

/-- The loop of `strconv.ParseUint(s, base, 64)` over the bytes of `s`, with
accumulator `n`; `cutoff = maxUint64 / base + 1`. -/
def parseUintLoop (base : Nat) : List Char → Nat → Except NumError Nat
  | [], n => .ok n
  | c :: cs, n =>
    match digitVal c with
    | none => .error .syntaxErr
    | some d =>
      if d ≥ base then .error .syntaxErr
      else if n ≥ (2 ^ 64 - 1) / base + 1 then .error .rangeErr
      else
        let m := (n * base) % 2 ^ 64
        let n1 := (m + d) % 2 ^ 64
        if n1 < m ∨ n1 > 2 ^ 64 - 1 then .error .rangeErr
        else parseUintLoop base cs n1

/-- `strconv.ParseUint(s, base, 64)` for an explicit base in 2..36 (no base
prefix, no underscores, no sign). -/
def ParseUint (s : List Char) (base : Nat) : Except NumError Nat :=
  if s = [] then .error .syntaxErr else parseUintLoop base s 0

/-- `strings.TrimPrefix` on character lists. -/
def trimPrefixChars (s p : List Char) : List Char :=
  if p.isPrefixOf s then s.drop p.length else s

/-- `utils.ParseHexUint64`: lower-case, drop one leading `0x`, parse base 16.
`ToLower` is `strings.ToLower`. -/
def ParseHexUint64 (ToLower : String → String) (s : String) : Except NumError Nat :=
  ParseUint (trimPrefixChars (ToLower s).data ['0', 'x']) 16

/-- The ASCII part of `strings.ToLower`, used to run the definitions on
concrete inputs. -/
def asciiToLower (s : String) : String :=
  String.mk (s.data.map Char.toLower)

/-! ## `pkg/checkpoint/checkpoint.go` -/

/-- The bytes `json.Marshal(&Checkpoint{Confirmed: confirmed})` produces: the
object with the single member `confirmed` in decimal.  Marshalling this
struct cannot fail. -/
def jsonMarshalCheckpoint (confirmed : Nat) : String :=
  String.mk ("\x7b\"confirmed\":".data ++ Nat.toDigits 10 confirmed ++ ['\x7d'])

/-- JSON insignificant white space. -/
def isJSONSpace (c : Char) : Bool :=
  c = ' ' || c = '\t' || c = '\n' || c = '\r'

/-- A decimal digit. -/
def isDecDigit (c : Char) : Bool :=
  48 ≤ c.toNat && c.toNat ≤ 57

/-- The step functions of the scanner of `encoding/json` (`scanner.go`), by
name. -/
inductive ScanStep where
  | stateBeginValueOrEmpty
  | stateBeginValue
  | stateBeginStringOrEmpty
  | stateBeginString
  | stateEndValue
  | stateEndTop
  | stateInString
  | stateInStringEsc
  | stateInStringEscU
  | stateInStringEscU1
  | stateInStringEscU12
  | stateInStringEscU123
  | stateNeg
  | state1
  | state0
  | stateDot
  | stateDot0
  | stateE
  | stateESign
  | stateE0
  | stateT
  | stateTr
  | stateTru
  | stateF
  | stateFa
  | stateFal
  | stateFals
  | stateN
  | stateNu
  | stateNul
  deriving DecidableEq, Repr

/-- What the scanner is in the middle of: an object key, an object value or
an array value. -/
inductive ParseState where
  | parseObjectKey
  | parseObjectValue
  | parseArrayValue
  deriving DecidableEq, Repr

/-- The scanner of `encoding/json`: the step function to run on the next
byte, the stack of enclosing composite values (innermost first), and whether
the top-level value is complete.  A scanner in the error state is `none`. -/
structure Scanner where
  step : ScanStep
  parseState : List ParseState
  endTop : Bool
  deriving DecidableEq, Repr

/-- The nesting limit of the scanner. -/
def maxNestingDepth : Nat := 10000

/-- A hexadecimal digit of a `\u` escape. -/
def isHexEscapeDigit (c : Char) : Bool :=
  (48 ≤ c.toNat && c.toNat ≤ 57) || (97 ≤ c.toNat && c.toNat ≤ 102) ||
  (65 ≤ c.toNat && c.toNat ≤ 70)

/-- The method `pushParseState`: enter a composite value, unless that
exceeds the nesting limit. -/
def Scanner.pushParseState (s : Scanner) (newParseState : ParseState) (next : ScanStep) :
    Option Scanner :=
  if s.parseState.length + 1 ≤ maxNestingDepth then
    some { s with parseState := newParseState :: s.parseState, step := next }
  else none

/-- The method `popParseState`: leave a composite value. -/
def Scanner.popParseState (s : Scanner) : Scanner :=
  match s.parseState.tail with
  | [] => { step := .stateEndTop, parseState := [], endTop := true }
  | rest => { s with step := .stateEndValue, parseState := rest }

/-- The step `stateEndTop`: after the top-level value only white space may
follow. -/
def stateEndTop (s : Scanner) (c : Char) : Option Scanner :=
  if isJSONSpace c then some s else none

/-- The step `stateEndValue`: after a value (or an object key). -/
def stateEndValue (s : Scanner) (c : Char) : Option Scanner :=
  match s.parseState with
  | [] => stateEndTop { s with step := .stateEndTop, endTop := true } c
  | ps :: rest =>
    if isJSONSpace c then some { s with step := .stateEndValue }
    else
      match ps with
      | .parseObjectKey =>
        if c = ':' then
          some { s with parseState := .parseObjectValue :: rest, step := .stateBeginValue }
        else none
      | .parseObjectValue =>
        if c = ',' then
          some { s with parseState := .parseObjectKey :: rest, step := .stateBeginString }
        else if c = '\x7d' then some s.popParseState
        else none
      | .parseArrayValue =>
        if c = ',' then some { s with step := .stateBeginValue }
        else if c = ']' then some s.popParseState
        else none

/-- The step `stateBeginValue`: the beginning of a value. -/
def stateBeginValue (s : Scanner) (c : Char) : Option Scanner :=
  if isJSONSpace c then some s
  else if c = '\x7b' then s.pushParseState .parseObjectKey .stateBeginStringOrEmpty
  else if c = '[' then s.pushParseState .parseArrayValue .stateBeginValueOrEmpty
  else if c = '"' then some { s with step := .stateInString }
  else if c = '-' then some { s with step := .stateNeg }
  else if c = '0' then some { s with step := .state0 }
  else if c = 't' then some { s with step := .stateT }
  else if c = 'f' then some { s with step := .stateF }
  else if c = 'n' then some { s with step := .stateN }
  else if 49 ≤ c.toNat && c.toNat ≤ 57 then some { s with step := .state1 }
  else none

/-- The step `stateBeginValueOrEmpty`: after `[`. -/
def stateBeginValueOrEmpty (s : Scanner) (c : Char) : Option Scanner :=
  if isJSONSpace c then some s
  else if c = ']' then stateEndValue s c
  else stateBeginValue s c

/-- The step `stateBeginString`: after `,` in an object. -/
def stateBeginString (s : Scanner) (c : Char) : Option Scanner :=
  if isJSONSpace c then some s
  else if c = '"' then some { s with step := .stateInString }
  else none

/-- The step `stateBeginStringOrEmpty`: after `\x7b`. -/
def stateBeginStringOrEmpty (s : Scanner) (c : Char) : Option Scanner :=
  if isJSONSpace c then some s
  else if c = '\x7d' then
    stateEndValue { s with parseState := .parseObjectValue :: s.parseState.tail } c
  else stateBeginString s c

/-- The step `stateInString`. -/
def stateInString (s : Scanner) (c : Char) : Option Scanner :=
  if c = '"' then some { s with step := .stateEndValue }
  else if c = '\\' then some { s with step := .stateInStringEsc }
  else if c.toNat < 32 then none
  else some s

/-- The step `stateInStringEsc`: after a backslash in a string. -/
def stateInStringEsc (s : Scanner) (c : Char) : Option Scanner :=
  if c = 'b' ∨ c = 'f' ∨ c = 'n' ∨ c = 'r' ∨ c = 't' ∨ c = '\\' ∨ c = '/' ∨ c = '"' then
    some { s with step := .stateInString }
  else if c = 'u' then some { s with step := .stateInStringEscU }
  else none

/-- The steps `stateInStringEscU`, `…U1`, `…U12`, `…U123`: a hexadecimal
digit of a `\u` escape, leading to `next`. -/
def stateInStringEscHex (next : ScanStep) (s : Scanner) (c : Char) : Option Scanner :=
  if isHexEscapeDigit c then some { s with step := next } else none

/-- The step `state0`: after a leading `0`, or after the integer part. -/
def state0 (s : Scanner) (c : Char) : Option Scanner :=
  if c = '.' then some { s with step := .stateDot }
  else if c = 'e' ∨ c = 'E' then some { s with step := .stateE }
  else stateEndValue s c

/-- The step `state1`: in the digits of the integer part. -/
def state1 (s : Scanner) (c : Char) : Option Scanner :=
  if isDecDigit c then some { s with step := .state1 } else state0 s c

/-- The step `stateNeg`: after `-`. -/
def stateNeg (s : Scanner) (c : Char) : Option Scanner :=
  if c = '0' then some { s with step := .state0 }
  else if 49 ≤ c.toNat && c.toNat ≤ 57 then some { s with step := .state1 }
  else none

/-- The step `stateDot`: after the decimal point. -/
def stateDot (s : Scanner) (c : Char) : Option Scanner :=
  if isDecDigit c then some { s with step := .stateDot0 } else none

/-- The step `stateDot0`: in the digits of the fraction. -/
def stateDot0 (s : Scanner) (c : Char) : Option Scanner :=
  if isDecDigit c then some s
  else if c = 'e' ∨ c = 'E' then some { s with step := .stateE }
  else stateEndValue s c

/-- The step `stateESign`: after `e` and an optional sign. -/
def stateESign (s : Scanner) (c : Char) : Option Scanner :=
  if isDecDigit c then some { s with step := .stateE0 } else none

/-- The step `stateE`: after `e`. -/
def stateE (s : Scanner) (c : Char) : Option Scanner :=
  if c = '+' ∨ c = '-' then some { s with step := .stateESign } else stateESign s c

/-- The step `stateE0`: in the digits of the exponent. -/
def stateE0 (s : Scanner) (c : Char) : Option Scanner :=
  if isDecDigit c then some s else stateEndValue s c

/-- The steps inside `true`, `false` and `null` that expect the letter
`want` and lead to `next`. -/
def stateLetter (want : Char) (next : ScanStep) (s : Scanner) (c : Char) : Option Scanner :=
  if c = want then some { s with step := next } else none

/-- Run the scanner's current step function on one byte. -/
def Scanner.next (s : Scanner) (c : Char) : Option Scanner :=
  match s.step with
  | .stateBeginValueOrEmpty => stateBeginValueOrEmpty s c
  | .stateBeginValue => stateBeginValue s c
  | .stateBeginStringOrEmpty => stateBeginStringOrEmpty s c
  | .stateBeginString => stateBeginString s c
  | .stateEndValue => stateEndValue s c
  | .stateEndTop => stateEndTop s c
  | .stateInString => stateInString s c
  | .stateInStringEsc => stateInStringEsc s c
  | .stateInStringEscU => stateInStringEscHex .stateInStringEscU1 s c
  | .stateInStringEscU1 => stateInStringEscHex .stateInStringEscU12 s c
  | .stateInStringEscU12 => stateInStringEscHex .stateInStringEscU123 s c
  | .stateInStringEscU123 => stateInStringEscHex .stateInString s c
  | .stateNeg => stateNeg s c
  | .state1 => state1 s c
  | .state0 => state0 s c
  | .stateDot => stateDot s c
  | .stateDot0 => stateDot0 s c
  | .stateE => stateE s c
  | .stateESign => stateESign s c
  | .stateE0 => stateE0 s c
  | .stateT => stateLetter 'r' .stateTr s c
  | .stateTr => stateLetter 'u' .stateTru s c
  | .stateTru => stateLetter 'e' .stateEndValue s c
  | .stateF => stateLetter 'a' .stateFa s c
  | .stateFa => stateLetter 'l' .stateFal s c
  | .stateFal => stateLetter 's' .stateFals s c
  | .stateFals => stateLetter 'e' .stateEndValue s c
  | .stateN => stateLetter 'u' .stateNu s c
  | .stateNu => stateLetter 'l' .stateNul s c
  | .stateNul => stateLetter 'l' .stateEndValue s c

/-- The method `reset`: the scanner before the first byte. -/
def Scanner.reset : Scanner :=
  { step := .stateBeginValue, parseState := [], endTop := false }

/-- The method `eof`: whether the input may end here.  A number at the top
level ends with the input, which the scanner learns from a space. -/
def Scanner.eof (s : Scanner) : Bool :=
  s.endTop ||
  match s.next ' ' with
  | some s1 => s1.endTop
  | none => false

/-- Whether the scanner is inside a number literal. -/
def ScanStep.inNumber : ScanStep → Bool
  | .stateNeg | .state1 | .state0 | .stateDot | .stateDot0 | .stateE | .stateESign
  | .stateE0 => true
  | _ => false

/-- The value of the four hexadecimal digits of a `\u` escape (`getu4`). -/
def getu4 (a b c d : Char) : Nat :=
  [a, b, c, d].foldl (fun r x => r * 16 + (digitVal x).getD 0) 0

/-- The loop of `unquote` on the bytes between the quotes of a valid string
literal, with `skip` bytes of an escape still to pass over: escapes are
replaced by what they stand for; a `\u` escape of a surrogate half is combined
with a following escape of the other half, and stands for U+FFFD
otherwise. -/
def unquoteFrom : Nat → List Char → List Char
  | _, [] => []
  | skip + 1, _ :: rest => unquoteFrom skip rest
  | 0, '\\' :: rest =>
    match rest with
    | 'u' :: a :: b :: c :: d :: rest1 =>
      let rr := getu4 a b c d
      if 0xD800 ≤ rr ∧ rr < 0xE000 then
        match rest1 with
        | '\\' :: 'u' :: a1 :: b1 :: c1 :: d1 :: _ =>
          let rr1 := getu4 a1 b1 c1 d1
          if rr < 0xDC00 ∧ 0xDC00 ≤ rr1 ∧ rr1 < 0xE000 then
            Char.ofNat ((rr - 0xD800) * 1024 + (rr1 - 0xDC00) + 0x10000) :: unquoteFrom 11 rest
          else Char.ofNat 0xFFFD :: unquoteFrom 5 rest
        | _ => Char.ofNat 0xFFFD :: unquoteFrom 5 rest
      else Char.ofNat rr :: unquoteFrom 5 rest
    | x :: _ =>
      (if x = 'b' then Char.ofNat 8
       else if x = 'f' then Char.ofNat 12
       else if x = 'n' then '\n'
       else if x = 'r' then '\r'
       else if x = 't' then '\t'
       else x) :: unquoteFrom 1 rest
    | [] => []
  | 0, x :: rest => x :: unquoteFrom 0 rest

/-- The function `unquote` on the bytes between the quotes of a valid string
literal. -/
def unquote (s : List Char) : List Char := unquoteFrom 0 s

/-- The case folding under which `encoding/json` compares an object key with
a field name when no field has exactly that name, on the runes that can fold
to an ASCII letter: ASCII letters go to upper case, U+017F (long s) to `S`
and U+212A (Kelvin sign) to `K`. -/
def foldRune (c : Char) : Char :=
  if c.toNat = 0x17F then 'S' else if c.toNat = 0x212A then 'K' else c.toUpper

/-- Whether an object key selects the field `Confirmed`, whose JSON name is
`confirmed`. -/
def selectsConfirmed (key : List Char) : Bool :=
  key.map foldRune = "CONFIRMED".data

/-- The decoder of `json.Unmarshal(data, &cp)` for `cp` of type `Checkpoint`:
the scanner, the bytes of the member name being read in the top-level object
and whether it selects `Confirmed`, the bytes of the number being read as a
member's value, the field `cp.Confirmed`, and whether a type error has been
recorded (`savedError`). -/
structure Decoder where
  scan : Scanner
  key : List Char
  selected : Bool
  num : List Char
  Confirmed : Nat
  savedError : Bool
  deriving DecidableEq, Repr

/-- The top-level value begins with `c`: an object is decoded into the
struct, `null` leaves it alone, and any other value is a type error. -/
def Decoder.beginTop (d : Decoder) (c : Char) : Decoder :=
  if c = '\x7b' ∨ c = 'n' then d else { d with savedError := true }

/-- A byte in key position of the top-level object: the opening quote starts
a new name, the closing quote ends it and the field is looked up, every other
byte belongs to the name. -/
def Decoder.inKey (d : Decoder) (c : Char) : Decoder :=
  match d.scan.step with
  | .stateBeginStringOrEmpty => { d with key := [] }
  | .stateBeginString => { d with key := [] }
  | .stateInString =>
    if c = '"' then { d with selected := selectsConfirmed (unquote d.key) }
    else { d with key := d.key ++ [c] }
  | .stateInStringEsc => { d with key := d.key ++ [c] }
  | .stateInStringEscU => { d with key := d.key ++ [c] }
  | .stateInStringEscU1 => { d with key := d.key ++ [c] }
  | .stateInStringEscU12 => { d with key := d.key ++ [c] }
  | .stateInStringEscU123 => { d with key := d.key ++ [c] }
  | _ => d

/-- The number literal `d.num` is complete: stored into a selected field with
`strconv.ParseUint(s, 10, 64)`, whose failure is a type error. -/
def Decoder.storeNumber (d : Decoder) : Decoder :=
  if d.selected then
    match ParseUint d.num 10 with
    | .ok n => { d with Confirmed := n }
    | .error _ => { d with savedError := true }
  else d

/-- A byte in value position of the top-level object, where `after` is the
scanner's step after the byte.  A number is collected and stored when it
ends; `null` leaves the field alone; a string, a boolean, an array or an
object is a type error when the field is selected. -/
def Decoder.inValue (d : Decoder) (c : Char) (after : ScanStep) : Decoder :=
  if d.scan.step = ScanStep.stateBeginValue then
    if isJSONSpace c then d
    else if c = '-' ∨ isDecDigit c then { d with num := [c] }
    else if c = 'n' then d
    else if d.selected then { d with savedError := true }
    else d
  else if d.scan.step.inNumber then
    if after.inNumber then { d with num := d.num ++ [c] } else d.storeNumber
  else d

/-- What the decoder does with one byte, given the scanner after it. -/
def Decoder.observe (d : Decoder) (c : Char) (s1 : Scanner) : Decoder :=
  let d1 :=
    match d.scan.parseState with
    | [] =>
      if d.scan.step = ScanStep.stateBeginValue ∧ isJSONSpace c = false then d.beginTop c else d
    | [.parseObjectKey] => d.inKey c
    | [.parseObjectValue] => d.inValue c s1.step
    | _ => d
  { d1 with scan := s1 }

/-- One byte of the input: a syntax error ends the decoding. -/
def Decoder.next (d : Decoder) (c : Char) : Option Decoder :=
  match d.scan.next c with
  | none => none
  | some s1 => some (d.observe c s1)

/-- Run the decoder over the input. -/
def Decoder.run : Decoder → List Char → Option Decoder
  | d, [] => some d
  | d, c :: cs =>
    match d.next c with
    | none => none
    | some d1 => d1.run cs

/-- The decoder before the first byte, with `cp` the zero `Checkpoint`. -/
def Decoder.init : Decoder :=
  { scan := Scanner.reset, key := [], selected := false, num := [], Confirmed := 0,
    savedError := false }

/-- The call `json.Unmarshal(data, &cp)` on a zero `Checkpoint`: `cp.Confirmed`
when the call returns no error, `none` when it returns one (a syntax error
or a type error). -/
def jsonUnmarshalCheckpoint (data : String) : Option Nat :=
  match Decoder.init.run data.data with
  | none => none
  | some d => if d.scan.eof && !d.savedError then some d.Confirmed else none

/-- What a path of the file system holds: nothing, a directory (reading it
fails with an error other than not-exist), or a regular file. -/
inductive Node where
  | missing
  | dir
  | file (data : String)
  deriving DecidableEq, Repr

/-- The two paths of a `CheckpointStore`: `s.path` and `s.path + ".tmp"`. -/
structure FS where
  primary : Node
  tmp : Node
  deriving DecidableEq, Repr

/-- Errors of the store. -/
inductive StoreError where
  | notExist
  | read
  | decode
  | write
  | rename
  deriving DecidableEq, Repr

/-- The call `os.ReadFile`. -/
def readFile : Node → Except StoreError String
  | .missing => .error .notExist
  | .dir => .error .read
  | .file data => .ok data

/-- Decode the bytes read by `Load` into its two results. -/
def decodeCheckpoint (data : String) : Nat × Option StoreError :=
  match jsonUnmarshalCheckpoint data with
  | none => (0, some .decode)
  | some v => (v, none)

/-- The method `CheckpointStore.Load`, with Go's two results: the value and
the error (`none` for `nil`). -/
def CheckpointStore.Load (fs : FS) : Nat × Option StoreError :=
  match readFile fs.primary with
  | .error .notExist => (0, none)
  | .error _ =>
    match readFile fs.tmp with
    | .error e => (0, some e)
    | .ok data => decodeCheckpoint data
  | .ok data => decodeCheckpoint data

/-- How the operating system can make `os.WriteFile` fail: not at all, when
opening the file, or after `written` bytes went out. -/
inductive WriteFault where
  | none
  | atOpen
  | atWrite (written : Nat)
  deriving DecidableEq, Repr

/-- The environment's choices for one call of `Save`. -/
structure SaveFault where
  write : WriteFault
  rename : Bool
  deriving DecidableEq, Repr

/-- No fault: both system calls succeed if the file system allows them. -/
def SaveFault.ok : SaveFault := ⟨.none, false⟩

/-- The call `os.WriteFile(path, data, 0644)`: open with create and truncate,
write, close.  Returns the node afterwards and whether an error came back. -/
def writeFile (fault : WriteFault) (node : Node) (data : String) : Node × Bool :=
  match node, fault with
  | .dir, _ => (.dir, true)
  | n, .atOpen => (n, true)
  | _, .atWrite k => (.file (String.mk (data.data.take k)), true)
  | _, .none => (.file data, false)

/-- The method `CheckpointStore.Save`: marshal, write the temporary sibling,
rename it over the primary path.  Calls are serialised by the store's mutex,
so one call is one step. -/
def CheckpointStore.Save (fault : SaveFault) (fs : FS) (confirmed : Nat) :
    FS × Option StoreError :=
  let data := jsonMarshalCheckpoint confirmed
  match writeFile fault.write fs.tmp data with
  | (tmp1, true) => ({ fs with tmp := tmp1 }, some .write)
  | (tmp1, false) =>
    if fault.rename || fs.primary = .dir then
      ({ fs with tmp := tmp1 }, some .rename)
    else
      ({ primary := tmp1, tmp := .missing }, none)

/-- The states of the temporary file while `os.WriteFile` runs on it: opened
and truncated, then growing by the bytes written, up to the point where the
fault (if any) stops the write.  Nothing happens when the open fails. -/
def writeFileSteps (fault : WriteFault) (node : Node) (data : String) : List Node :=
  match node, fault with
  | .dir, _ => []
  | _, .atOpen => []
  | _, .atWrite k =>
    (List.range (min k data.data.length + 1)).map (fun i => .file (String.mk (data.data.take i)))
  | _, .none =>
    (List.range (data.data.length + 1)).map (fun i => .file (String.mk (data.data.take i)))

/-- The file-system states a call of `Save` passes through, in order: the
state before the call, the states while the temporary sibling is written, and
the state after `os.Rename` when the call gets that far. -/
def CheckpointStore.SaveSteps (fault : SaveFault) (fs : FS) (confirmed : Nat) : List FS :=
  let data := jsonMarshalCheckpoint confirmed
  let writing := (writeFileSteps fault.write fs.tmp data).map (fun t => { fs with tmp := t })
  match writeFile fault.write fs.tmp data with
  | (_, true) => fs :: writing
  | (tmp1, false) =>
    if fault.rename || fs.primary = .dir then fs :: writing ++ [{ fs with tmp := tmp1 }]
    else fs :: writing ++ [{ primary := tmp1, tmp := .missing }]

/-- A file system on which the store has never written. -/
def FS.empty : FS := ⟨.missing, .missing⟩

/-- The files a successful `Save(12345)` on a fresh store leaves behind. -/
def savedFS : FS := (CheckpointStore.Save .ok .empty 12345).1

/-- A sequence of `Save` calls on one store, each with the faults that hit it
and its argument.  Returns the file system afterwards and the arguments of
the calls that returned `nil`, oldest first. -/
def saveMany : FS → List (SaveFault × Nat) → FS × List Nat
  | fs, [] => (fs, [])
  | fs, (fault, v) :: rest =>
    match CheckpointStore.Save fault fs v with
    | (fs1, none) => ((saveMany fs1 rest).1, v :: (saveMany fs1 rest).2)
    | (fs1, some _) => saveMany fs1 rest

/-! ## `pkg/jsonrpc/dto.go`, `internal/dto.go` -/

/-- The fields of `jsonrpc.Transaction` the pipeline reads; `To` is a nil-able
pointer in Go. -/
structure Transaction where
  Hash : String
  From : String
  To : Option String
  Value : String
  deriving DecidableEq, Repr

/-- The fields of `jsonrpc.Block` the pipeline reads. -/
structure Block where
  Number : String
  Hash : String
  Transactions : List Transaction
  deriving DecidableEq, Repr

/-- The record `internal.Event`. -/
structure Event where
  UserID : String
  From : String
  To : String
  AmountWei : String
  TxHash : String
  BlockNumber : Nat
  deriving DecidableEq, Repr

/-- The interface `address.AddressIndex`: its single method
`Lookup(addr) (string, bool)`. -/
structure AddressIndex where
  Lookup : String → String × Bool

/-! ## `pkg/address/address.go` -/

/-- The record `addrRecord` of the address file. -/
structure addrRecord where
  UserID : String
  Address : String
  deriving DecidableEq, Repr

/-- The predicate `unicode.IsSpace`: the white-space characters of Latin-1
and the code points with the Unicode White Space property. -/
def isSpace (c : Char) : Bool :=
  let v := c.toNat
  v = 0x09 || v = 0x0A || v = 0x0B || v = 0x0C || v = 0x0D || v = 0x20 ||
  v = 0x85 || v = 0xA0 || v = 0x1680 || (0x2000 ≤ v && v ≤ 0x200A) ||
  v = 0x2028 || v = 0x2029 || v = 0x202F || v = 0x205F || v = 0x3000

/-- The function `strings.TrimSpace`. -/
def TrimSpace (s : String) : String :=
  String.mk ((s.data.dropWhile isSpace).reverse.dropWhile isSpace).reverse

/-- The Go map `map[string]string` held by the index. -/
abbrev AddrMap := String → Option String

/-- The struct `MemoryAddressIndex`. -/
structure MemoryAddressIndex where
  data : AddrMap

/-- What opening and decoding the address file gives: an error from
`os.Open`, an error from the JSON decoder, or the decoded records. -/
inductive AddressFile where
  | openError
  | decodeError
  | records (recs : List addrRecord)

/-- The errors of `NewMemoryAddressIndexFromJSON`; the last two carry the
index (and the original address) that the message names. -/
inductive AddressError where
  | open
  | decode
  | emptyAddress (index : Nat)
  | invalidAddress (index : Nat) (address : String)
  deriving DecidableEq, Repr

/-- The loop `for i, r := range recs` of `NewMemoryAddressIndexFromJSON`,
from index `i` on, with the map built so far.  `len(a)` is the length of `a`
in bytes. -/
def loadRecords (ToLower : String → String) :
    List addrRecord → Nat → AddrMap → Except AddressError AddrMap
  | [], _, data => .ok data
  | r :: rest, i, data =>
    let a := ToLower (TrimSpace r.Address)
    if a = "" then .error (.emptyAddress i)
    else if a.utf8ByteSize ≠ 42 ∨ ¬ (['0', 'x'].isPrefixOf a.data = true) then
      .error (.invalidAddress i r.Address)
    else loadRecords ToLower rest (i + 1) (fun k => if k = a then some r.UserID else data k)

/-- The function `NewMemoryAddressIndexFromJSON`. -/
def NewMemoryAddressIndexFromJSON (ToLower : String → String) (file : AddressFile) :
    Except AddressError MemoryAddressIndex :=
  match file with
  | .openError => .error .open
  | .decodeError => .error .decode
  | .records recs =>
    match loadRecords ToLower recs 0 (fun _ => none) with
    | .error e => .error e
    | .ok data => .ok ⟨data⟩

/-- The method `MemoryAddressIndex.Lookup`. -/
def MemoryAddressIndex.Lookup (ToLower : String → String) (m : MemoryAddressIndex)
    (addr : String) : String × Bool :=
  match m.data (ToLower addr) with
  | some uid => (uid, true)
  | none => ("", false)

/-- The index as a value of the interface `address.AddressIndex`. -/
def MemoryAddressIndex.toIndex (ToLower : String → String) (m : MemoryAddressIndex) :
    AddressIndex :=
  ⟨m.Lookup ToLower⟩

/-- The validation the loader applies to a record: its address, trimmed and
lower-cased, is 42 bytes long and begins with `0x`. -/
def addressAccepted (ToLower : String → String) (r : addrRecord) : Prop :=
  (ToLower (TrimSpace r.Address)).utf8ByteSize = 42 ∧
  ['0', 'x'].isPrefixOf (ToLower (TrimSpace r.Address)).data = true

instance (ToLower : String → String) (r : addrRecord) : Decidable (addressAccepted ToLower r) := by
  unfold addressAccepted
  infer_instance

/-- The error a load ended with, if any. -/
def loadError (res : Except AddressError MemoryAddressIndex) : Option AddressError :=
  match res with
  | .error e => some e
  | .ok _ => none

/-- An address of 22 characters that is 42 bytes long: `0x` and twenty times
a two-byte letter. -/
def shortWideAddress : String := "0xéééééééééééééééééééé"

/-- An address of 42 characters that is 82 bytes long: `0x` and forty times a
two-byte letter. -/
def longWideAddress : String := "0xéééééééééééééééééééééééééééééééééééééééé"

/-! ## `internal/filter.go` -/

/-- The filter worker's view of the events channel: what it has sent so far
and how many `select` statements it has executed on it. -/
structure EventsChan where
  sent : List Event
  selects : Nat

/-- A cancellation context as seen by one goroutine: `ctx k` tells whether the
`k`-th `select` it executes takes the `<-ctx.Done()` branch. -/
abbrev Ctx := Nat → Bool

/-- A context that is never cancelled. -/
def Ctx.background : Ctx := fun _ => false

/-- The function `emitEvent`: a send that is selectable against
cancellation. -/
def emitEvent (ctx : Ctx) (eventsCh : EventsChan) (ev : Event) : EventsChan :=
  if ctx eventsCh.selects then
    { eventsCh with selects := eventsCh.selects + 1 }
  else
    { sent := eventsCh.sent ++ [ev], selects := eventsCh.selects + 1 }

/-- One iteration of the loop of `processBlock` over `b.Transactions`. -/
def processTx (ToLower : String → String) (ctx : Ctx) (b : Block) (addrIdx : AddressIndex)
    (eventsCh : EventsChan) (tx : Transaction) : EventsChan :=
  let from_ := ToLower tx.From
  let to_ := match tx.To with
    | some t => ToLower t
    | none => ""
  match ParseHexUint64 ToLower b.Number with
  | .error _ => eventsCh
  | .ok n =>
    let ch1 :=
      if (addrIdx.Lookup from_).2 then
        emitEvent ctx eventsCh
          { UserID := (addrIdx.Lookup from_).1, From := tx.From, To := to_,
            AmountWei := tx.Value, TxHash := tx.Hash, BlockNumber := n }
      else eventsCh
    if (addrIdx.Lookup to_).2 then
      emitEvent ctx ch1
        { UserID := (addrIdx.Lookup to_).1, From := tx.From, To := to_,
          AmountWei := tx.Value, TxHash := tx.Hash, BlockNumber := n }
    else ch1

/-- The function `processBlock`. -/
def processBlock (ToLower : String → String) (ctx : Ctx) (b : Block) (addrIdx : AddressIndex)
    (eventsCh : EventsChan) : EventsChan :=
  b.Transactions.foldl (processTx ToLower ctx b addrIdx) eventsCh

/-- The events the specification asks for one transaction of a block with
decoded number `n`: the `from` side first, then the `to` side. -/
def sideEvents (ToLower : String → String) (addrIdx : AddressIndex) (n : Nat)
    (t : Transaction) : List Event :=
  let to_ := (t.To.map ToLower).getD ""
  let hitFrom := addrIdx.Lookup (ToLower t.From)
  let hitTo := addrIdx.Lookup to_
  (if hitFrom.2 then
      [{ UserID := hitFrom.1, From := t.From, To := to_, AmountWei := t.Value,
         TxHash := t.Hash, BlockNumber := n }]
    else []) ++
  (if hitTo.2 then
      [{ UserID := hitTo.1, From := t.From, To := to_, AmountWei := t.Value,
         TxHash := t.Hash, BlockNumber := n }]
    else [])

/-! ## `internal/sink.go` -/

/-- The record `config.SinkConfig`; the interval is in nanoseconds. -/
structure SinkConfig where
  FlushInterval : Int
  BatchSize : Int
  deriving DecidableEq, Repr

/-- The collaborators of the sink and the environment's choices: `marshal` is
`json.Marshal` on an `Event` (`none` for an error), `publishFails k msg` tells
whether the publisher returns an error on its `k`-th call, made with `msg`,
and `saveFault k` gives the faults hitting the `k`-th call of `store.Save`. -/
structure SinkEnv where
  marshal : Event → Option String
  publishFails : Nat → String → Bool
  saveFault : Nat → SaveFault

/-- The local variables of `sinkProcessor` (`batch`, `lastSaved`,
`pendingCheckpoint`, `maxSeen`), the store's files, and what the sink has done
so far: the payloads handed to the publisher, the arguments passed to
`store.Save`, and the number of lines logged. -/
structure SinkState where
  batch : List String
  lastSaved : Nat
  pendingCheckpoint : Option Nat
  maxSeen : Nat
  fs : FS
  published : List String
  saveCalls : List Nat
  logged : Nat
  deriving DecidableEq, Repr

/-- One iteration of the loop of `sendEvents`: call the publisher, log its
error if any. -/
def publishOne (env : SinkEnv) (s : SinkState) (msg : String) : SinkState :=
  { s with
    published := s.published ++ [msg]
    logged := if env.publishFails s.published.length msg then s.logged + 1 else s.logged }

/-- The closure `sendEvents`. -/
def sendEvents (env : SinkEnv) (s : SinkState) : SinkState :=
  if s.batch.length = 0 then s
  else { s.batch.foldl (publishOne env) s with batch := [] }

/-- The closure `saveCheckpointIfNeeded`; `store` tells whether the store
pointer is non-nil. -/
def saveCheckpointIfNeeded (env : SinkEnv) (store : Bool) (s : SinkState) : SinkState :=
  match store, s.pendingCheckpoint with
  | false, _ => s
  | true, none => s
  | true, some confirmed =>
    let s1 :=
      if confirmed > s.lastSaved then
        match CheckpointStore.Save (env.saveFault s.saveCalls.length) s.fs confirmed with
        | (fs1, some _) =>
          { s with fs := fs1, saveCalls := s.saveCalls ++ [confirmed], logged := s.logged + 1 }
        | (fs1, none) =>
          { s with fs := fs1, saveCalls := s.saveCalls ++ [confirmed], lastSaved := confirmed }
      else s
    { s1 with pendingCheckpoint := none }

/-- The block-number bookkeeping of `writeEvent`: a block number above
`maxSeen` becomes the new `maxSeen` and, if above `lastSaved`, the pending
checkpoint. -/
def advanceMaxSeen (s : SinkState) (blockNumber : Nat) : SinkState :=
  if blockNumber > s.maxSeen then
    let s1 := { s with maxSeen := blockNumber }
    if s1.maxSeen > s1.lastSaved then { s1 with pendingCheckpoint := some s1.maxSeen }
    else s1
  else s

/-- The closure `writeEvent`. -/
def writeEvent (env : SinkEnv) (cfg : SinkConfig) (s : SinkState) (ev : Event) : SinkState :=
  match env.marshal ev with
  | none => { s with logged := s.logged + 1 }
  | some b =>
    let s1 := advanceMaxSeen { s with batch := s.batch ++ [b] } ev.BlockNumber
    if (s1.batch.length : Int) ≥ cfg.BatchSize then sendEvents env s1 else s1

/-- The defaults `sinkProcessor` puts in place of non-positive settings. -/
def SinkConfig.withDefaults (cfg : SinkConfig) : SinkConfig :=
  { FlushInterval := if cfg.FlushInterval ≤ 0 then 250000000 else cfg.FlushInterval
    BatchSize := if cfg.BatchSize ≤ 0 then 256 else cfg.BatchSize }

/-- The state of `sinkProcessor` when it enters its loop: `lastSaved` and
`maxSeen` come from `store.Load()`, or stay 0 when the store is nil or the
load fails (the error is logged). -/
def sinkInit (store : Bool) (fs : FS) : SinkState :=
  let z : SinkState :=
    { batch := [], lastSaved := 0, pendingCheckpoint := none, maxSeen := 0, fs := fs,
      published := [], saveCalls := [], logged := 0 }
  if store then
    match CheckpointStore.Load fs with
    | (_, some _) => { z with logged := 1 }
    | (n, none) => { z with lastSaved := n, maxSeen := n }
  else z

/-- What one round of the sink's `select` can observe. -/
inductive SinkMsg where
  | ctxDone
  | event (ev : Event)
  | chanClosed
  | flushTick
  | checkpointTick
  deriving DecidableEq, Repr

/-- The `for { select { ... } }` loop of `sinkProcessor` over the sequence of
things its `select` observes.  The second component tells whether the
function has returned. -/
def sinkLoop (env : SinkEnv) (cfg : SinkConfig) (store : Bool) :
    SinkState → List SinkMsg → SinkState × Bool
  | s, [] => (s, false)
  | s, .ctxDone :: _ => (saveCheckpointIfNeeded env store (sendEvents env s), true)
  | s, .chanClosed :: _ => (saveCheckpointIfNeeded env store (sendEvents env s), true)
  | s, .event ev :: rest => sinkLoop env cfg store (writeEvent env cfg s ev) rest
  | s, .flushTick :: rest => sinkLoop env cfg store (sendEvents env s) rest
  | s, .checkpointTick :: rest => sinkLoop env cfg store (saveCheckpointIfNeeded env store s) rest

/-- The function `sinkProcessor`. -/
def sinkProcessor (env : SinkEnv) (cfg : SinkConfig) (store : Bool) (fs : FS)
    (msgs : List SinkMsg) : SinkState × Bool :=
  sinkLoop env cfg.withDefaults store (sinkInit store fs) msgs

/-- The events the sink takes from its channel before it returns. -/
def receivedEvents : List SinkMsg → List Event
  | [] => []
  | .ctxDone :: _ => []
  | .chanClosed :: _ => []
  | .event ev :: rest => ev :: receivedEvents rest
  | .flushTick :: rest => receivedEvents rest
  | .checkpointTick :: rest => receivedEvents rest

/-- A block travelling from the filter to the sink: the events `processBlock`
sends on the events channel are handled by `writeEvent` in the order sent. -/
def pipelineBlock (ToLower : String → String) (env : SinkEnv) (cfg : SinkConfig)
    (addrIdx : AddressIndex) (b : Block) (s : SinkState) : SinkState :=
  (processBlock ToLower Ctx.background b addrIdx ⟨[], 0⟩).sent.foldl (writeEvent env cfg) s

/-- An environment for running the sink on concrete inputs: a short payload
(user and block number) stands in for the JSON form of an event, every
publish and every save succeeds. -/
def exampleEnv : SinkEnv where
  marshal := fun ev => some (ev.UserID ++ "@" ++ String.mk (Nat.toDigits 10 ev.BlockNumber))
  publishFails := fun _ _ => false
  saveFault := fun _ => .ok

/-- An environment in which the publisher fails on every second call and
every save fails at the rename. -/
def faultyEnv : SinkEnv where
  marshal := fun ev => some (ev.UserID ++ "@" ++ String.mk (Nat.toDigits 10 ev.BlockNumber))
  publishFails := fun k _ => k % 2 = 0
  saveFault := fun _ => ⟨.none, true⟩

/-- A block without transactions, numbered 5. -/
def emptyBlock : Block where
  Number := "0x5"
  Hash := "0xabc123"
  Transactions := []

/-- An event of block `n`. -/
def exampleEvent (n : Nat) : Event :=
  { UserID := "vitalik", From := "0x1234567890123456789012345678901234567890",
    To := "0xd8da6bf26964af9d7eed9e03e53415d37aa96045", AmountWei := "0xde0b6b3a7640000",
    TxHash := "0xtx123", BlockNumber := n }

/-! ## `internal/head.go`, `internal/server.go` -/

/-- The record `config.HeadMonitorConfig`; `PollInterval` in nanoseconds,
`StartFrom` a `uint64`, `MaxEnqueuePerTick` an `int`. -/
structure HeadMonitorConfig where
  PollInterval : Int
  StartFrom : Nat
  Jitter : ℚ
  MaxEnqueuePerTick : Int

/-- Which branch the `select` inside the enqueue loop takes: the context is
done, the send on `headsCh` goes through, or the queue is full and the
`default` branch runs. -/
inductive SendOutcome where
  | ctxDone
  | sent
  | full
  deriving DecidableEq, Repr

/-- The variable `nextHeight` of `headMonitor` and the heights sent on
`headsCh` so far. -/
structure HeadState where
  nextHeight : Nat
  enqueued : List Nat
  deriving DecidableEq, Repr

/-- The loop `for nextHeight <= head && sent < cfg.MaxEnqueuePerTick` of one
tick.  `budget` is `cfg.MaxEnqueuePerTick - sent`: a send lowers it by one and
the `default` branch, which sets `sent = cfg.MaxEnqueuePerTick`, ends the
loop.  `sel i` is the outcome of the `i`-th `select` of the tick;
`nextHeight++` is a `uint64` increment.  The second component tells whether
`headMonitor` returned. -/
def enqueueLoop (head : Nat) (sel : Nat → SendOutcome) :
    Nat → Nat → HeadState → HeadState × Bool
  | 0, _, st => (st, false)
  | budget + 1, i, st =>
    if st.nextHeight ≤ head then
      match sel i with
      | .ctxDone => (st, true)
      | .sent =>
        enqueueLoop head sel budget (i + 1)
          { nextHeight := (st.nextHeight + 1) % 2 ^ 64, enqueued := st.enqueued ++ [st.nextHeight] }
      | .full => (st, false)
    else (st, false)

/-- What one round of the outer `select` of `headMonitor` observes: the
context is done, or the timer fired; then `head` is the result of
`rpc.GetCurrentBlockNumber` (`none` for an error) and `sel` the outcomes of the
sends. -/
inductive HeadMsg where
  | ctxDone
  | timer (head : Option Nat) (sel : Nat → SendOutcome)

/-- The body of the `case <-timer.C` branch, up to the timer reset. -/
def headTick (cfg : HeadMonitorConfig) (head : Option Nat) (sel : Nat → SendOutcome)
    (st : HeadState) : HeadState × Bool :=
  match head with
  | none => (st, false)
  | some h => enqueueLoop h sel cfg.MaxEnqueuePerTick.toNat 0 st

/-- The `for { select { ... } }` loop of `headMonitor`. -/
def headLoop (cfg : HeadMonitorConfig) : HeadState → List HeadMsg → HeadState × Bool
  | st, [] => (st, false)
  | st, .ctxDone :: _ => (st, true)
  | st, .timer head sel :: rest =>
    match headTick cfg head sel st with
    | (st1, true) => (st1, true)
    | (st1, false) => headLoop cfg st1 rest

/-- The function `headMonitor`: `nextHeight := cfg.StartFrom`, then the
loop. -/
def headMonitor (cfg : HeadMonitorConfig) (msgs : List HeadMsg) : HeadState × Bool :=
  headLoop cfg ⟨cfg.StartFrom, []⟩ msgs

/-- The head monitor's configuration as `Start` builds it: `StartFrom` is the
value `store.Load()` returned (0 together with an error that is only
logged), the rest are the defaults of `pkg/config`. -/
def startHeadConfig (fs : FS) : HeadMonitorConfig :=
  { PollInterval := 1000000000
    StartFrom := (CheckpointStore.Load fs).1
    Jitter := 1 / 5
    MaxEnqueuePerTick := 64 }

/-- A queue that always has room. -/
def alwaysSent : Nat → SendOutcome := fun _ => .sent

/-! ## `internal/block.go`: the back-off -/

/-- The `float64` values that `backoffWithJitter` can compute before the
jitter: integers that are exactly representable, the infinities, and NaN. -/
inductive F64 where
  | fin (v : Int)
  | posInf
  | negInf
  | nan
  deriving DecidableEq, Repr

/-- How many low bits a natural number below `2 ^ 64` loses when it is
rounded to the 53-bit significand of a `float64`. -/
def excessBits (n : Nat) : Nat :=
  ((List.range 12).find? (fun s => decide (n < 2 ^ (53 + s)))).getD 11

/-- Round a natural number to the nearest `float64`, ties to even. -/
def roundNat53 (n : Nat) : Nat :=
  let s := excessBits n
  if s = 0 then n
  else
    let q := n / 2 ^ s
    let r := n % 2 ^ s
    let half := 2 ^ (s - 1)
    (if r > half ∨ (r = half ∧ q % 2 = 1) then q + 1 else q) * 2 ^ s

/-- The conversion `float64(x)` of an `int64`. -/
def float64OfInt64 (x : Int) : Int :=
  if x < 0 then -(roundNat53 x.natAbs : Int) else (roundNat53 x.natAbs : Int)

/-- The product `x * math.Pow(2, float64(attempt))` for a `float64` integer
`x` and `attempt ≥ 0`: the power is exact up to `2 ^ 1023` and `+Inf` beyond,
and scaling by a power of two is exact unless it overflows. -/
def scaleByPow2 (x : Int) (attempt : Nat) : F64 :=
  if attempt < 1024 then
    if x.natAbs * 2 ^ attempt < 2 ^ 1024 then .fin (x * 2 ^ attempt)
    else if x > 0 then .posInf else .negInf
  else if x = 0 then .nan
  else if x > 0 then .posInf else .negInf

/-- The conversion `time.Duration(f)` of a `float64` to `int64`.  When the
value is out of range the Go specification leaves the result to the
implementation: `ovf` gives it. -/
def int64OfFloat64 (ovf : F64 → Int) : F64 → Int
  | .fin v => if -(2 ^ 63) ≤ v ∧ v < 2 ^ 63 then v else ovf (.fin v)
  | f => ovf f

/-- The out-of-range conversion on amd64: the instruction `CVTTSD2SQ` yields
the smallest `int64`. -/
def amd64Overflow : F64 → Int := fun _ => -(2 ^ 63)

/-- The record `config.BlockFetcherConfig`; durations in nanoseconds. -/
structure BlockFetcherConfig where
  Workers : Int
  ReqTimeout : Int
  RetryBaseDelay : Int
  RetryMaxDelay : Int
  Jitter : ℚ

/-- The function `backoffWithJitter` for `attempt ≥ 0`.  `randomScale base`
stands for `time.Duration(float64(base) * f)` with the random factor `f`,
which is computed only when `cfg.Jitter > 0`. -/
def backoffWithJitter (ovf : F64 → Int) (randomScale : Int → Int)
    (cfg : BlockFetcherConfig) (attempt : Nat) : Int :=
  let exp := scaleByPow2 (float64OfInt64 cfg.RetryBaseDelay) attempt
  let base := int64OfFloat64 ovf exp
  let base := if base > cfg.RetryMaxDelay then cfg.RetryMaxDelay else base
  if cfg.Jitter ≤ 0 then base else randomScale base

/-- The address book of the repository's filter tests, as an index whose
`Lookup` lower-cases its argument (ASCII) before comparing. -/
def exampleIndex : AddressIndex where
  Lookup := fun a =>
    if asciiToLower a = "0xd8da6bf26964af9d7eed9e03e53415d37aa96045" then ("vitalik", true)
    else if asciiToLower a = "0x742d35cc6634c0532925a3b8d0c0c2c0c0c0c0c0" then ("binance", true)
    else ("", false)

/-- The block of the test `filter_matcher_processes_blocks`. -/
def exampleBlock : Block where
  Number := "0x3039"
  Hash := "0xabc123"
  Transactions :=
    [{ Hash := "0xtx123", From := "0x1234567890123456789012345678901234567890",
       To := some "0xd8dA6BF26964aF9D7eEd9e03E53415D37aA96045",
       Value := "0xde0b6b3a7640000" }]

/-- An index that, besides one address, has the empty string as a key. -/
def emptyKeyIndex : AddressIndex where
  Lookup := fun a =>
    if asciiToLower a = "0xd8da6bf26964af9d7eed9e03e53415d37aa96045" then ("vitalik", true)
    else if asciiToLower a = "" then ("nobody", true)
    else ("", false)

/-- The block of the test `process_block_with_nil_to_address`: one
transaction without `to` whose `from` is in the address book. -/
def nilToBlock : Block where
  Number := "0x3039"
  Hash := "0xabc123"
  Transactions :=
    [{ Hash := "0xtx123", From := "0xd8dA6BF26964aF9D7eEd9e03E53415D37aA96045",
       To := none, Value := "0xde0b6b3a7640000" }]

/-- The block of the test `process_block_with_invalid_block_number`. -/
def invalidNumberBlock : Block where
  Number := "invalid"
  Hash := "0xabc123"
  Transactions :=
    [{ Hash := "0xtx123", From := "0x1234567890123456789012345678901234567890",
       To := some "0xd8dA6BF26964aF9D7eEd9e03E53415D37aA96045",
       Value := "0xde0b6b3a7640000" }]

/-- A block with a transfer between two addresses of the address book,
between two transfers that touch no known address. -/
def bothSidesBlock : Block where
  Number := "0x3039"
  Hash := "0xabc123"
  Transactions :=
    [{ Hash := "0xtx1", From := "0x1111111111111111111111111111111111111111",
       To := none, Value := "0x1" },
     { Hash := "0xtx2", From := "0x742D35Cc6634C0532925a3b8D0C0C2C0c0C0c0C0",
       To := some "0xd8dA6BF26964aF9D7eEd9e03E53415D37aA96045", Value := "0x2" },
     { Hash := "0xtx3", From := "0x2222222222222222222222222222222222222222",
       To := some "0x3333333333333333333333333333333333333333", Value := "0x3" }]

/-! ## `internal/block.go`: the retry loop -/

/-- What one call of `rpc.GetBlockByNumber` returns: an error, or a block
pointer, which the interface allows to be nil. -/
inductive RpcResponse where
  | err
  | block (blk : Option Block)
  deriving DecidableEq, Repr

/-- The errors `fetchWithRetry` returns: the one of the RPC, `ctx.Err()`, or
the one of `ParseHexUint64`. -/
inductive FetchError where
  | rpc
  | ctx
  | parse (e : NumError)
  deriving DecidableEq, Repr

/-- How a call of `fetchWithRetry` ends: it returns a block, it returns an
error, or it dereferences a nil block in `blk.Number` and panics. -/
inductive FetchOutcome where
  | block (blk : Block)
  | error (e : FetchError)
  | nilDeref
  deriving DecidableEq, Repr

/-- A run of `fetchWithRetry`: how it ended (`none` while it is still in its
loop), the number of RPC calls it made and the delays it slept, oldest
first. -/
structure FetchRun where
  outcome : Option FetchOutcome
  calls : Nat
  sleeps : List Int
  deriving DecidableEq, Repr

/-- The loop of `fetchWithRetry`, run for at most `fuel` iterations.  `rpc k`
is the answer to the `k`-th call, `delay attempt` is
`backoffWithJitter(cfg, attempt)`, `ctx` is consulted once for the
`ctx.Err()` test and once for the `select` around the sleep. -/
def fetchLoop (ToLower : String → String) (delay : Nat → Int) (rpc : Nat → RpcResponse)
    (ctx : Ctx) (blockNumber : Nat) : Nat → Nat → Nat → Nat → List Int → FetchRun
  | 0, _, calls, _, sleeps => ⟨none, calls, sleeps⟩
  | fuel + 1, attempt, calls, obs, sleeps =>
    match rpc calls with
    | .err => ⟨some (.error .rpc), calls + 1, sleeps⟩
    | .block blk =>
      if ctx obs then ⟨some (.error .ctx), calls + 1, sleeps⟩
      else
        match blk with
        | none => ⟨some .nilDeref, calls + 1, sleeps⟩
        | some b =>
          match ParseHexUint64 ToLower b.Number with
          | .error e => ⟨some (.error (.parse e)), calls + 1, sleeps⟩
          | .ok blkNumber =>
            if blkNumber = blockNumber then ⟨some (.block b), calls + 1, sleeps⟩
            else if ctx (obs + 1) then ⟨some (.error .ctx), calls + 1, sleeps⟩
            else
              fetchLoop ToLower delay rpc ctx blockNumber fuel (attempt + 1) (calls + 1)
                (obs + 2) (sleeps ++ [delay attempt])

/-- The function `fetchWithRetry`, observed for at most `fuel` iterations of
its loop.  `rand attempt` is the random scaling drawn by the `attempt`-th
call of `backoffWithJitter`. -/
def fetchWithRetry (ToLower : String → String) (ovf : F64 → Int) (rand : Nat → Int → Int)
    (cfg : BlockFetcherConfig) (rpc : Nat → RpcResponse) (ctx : Ctx) (blockNumber : Nat)
    (fuel : Nat) : FetchRun :=
  fetchLoop ToLower (fun attempt => backoffWithJitter ovf (rand attempt) cfg attempt) rpc ctx
    blockNumber fuel 0 0 0 []

/-- What the specification makes of one RPC response for the requested height
`h`: stop with an outcome, or sleep and retry. -/
inductive Verdict where
  | stop (o : FetchOutcome)
  | retry
  deriving DecidableEq, Repr

/-- The verdict on a response: an RPC error and an undecodable block number
end the fetch with an error, a block whose number decodes to `h` is returned,
a block with another number is retried (a nil block makes the code panic). -/
def classify (ToLower : String → String) (h : Nat) : RpcResponse → Verdict
  | .err => .stop (.error .rpc)
  | .block none => .stop .nilDeref
  | .block (some b) =>
    match ParseHexUint64 ToLower b.Number with
    | .error e => .stop (.error (.parse e))
    | .ok n => if n = h then .stop (.block b) else .retry

/-- A block one height behind `exampleBlock`. -/
def staleBlock : Block where
  Number := "0x3038"
  Hash := "0xabc122"
  Transactions := []

/-- A node that answers the first two requests with the stale block and the
third with the block asked for. -/
def catchingUpRpc : Nat → RpcResponse :=
  fun k => if k < 2 then .block (some staleBlock) else .block (some exampleBlock)

/-! ## `pkg/jsonrpc/ethereum.go`: the block parameter; hexadecimal digits -/

/-- The block parameter `GetBlockByNumber` puts in its request:
`fmt.Sprintf("0x%x", blockNumber)`. -/
def hexBlockParam (blockNumber : Nat) : String :=
  String.mk ('0' :: 'x' :: Nat.toDigits 16 blockNumber)

/-- A hexadecimal digit, as the words of the specification have it: one of
`0-9`, `a-f`, `A-F`. -/
def isHexDigit (c : Char) : Bool :=
  c ∈ ['0', '1', '2', '3', '4', '5', '6', '7', '8', '9',
       'a', 'b', 'c', 'd', 'e', 'f', 'A', 'B', 'C', 'D', 'E', 'F']

/-- The value of a hexadecimal digit. -/
def hexDigitValue (c : Char) : Nat :=
  (['0', '1', '2', '3', '4', '5', '6', '7', '8', '9',
    'a', 'b', 'c', 'd', 'e', 'f'].indexOf c.toLower)

/-- The value of a string of hexadecimal digits, most significant first,
on top of the value `n` of the digits before it. -/
def hexValueFrom (n : Nat) (cs : List Char) : Nat :=
  cs.foldl (fun a c => a * 16 + hexDigitValue c) n

/-- The value of a string of hexadecimal digits. -/
def hexValue (cs : List Char) : Nat := hexValueFrom 0 cs

/-! ## `pkg/address/address.go`: loading, then looking up -/

/-- What a caller sees who loads the records and then calls `Lookup addr`:
the pair `Lookup` returns, or nothing when the load failed. -/
def lookupAfterLoad (ToLower : String → String) (recs : List addrRecord) (addr : String) :
    Option (String × Bool) :=
  match NewMemoryAddressIndexFromJSON ToLower (.records recs) with
  | .ok m => some (m.Lookup ToLower addr)
  | .error _ => none

/-- The entry `data[k]` of the map after loading the records; nothing when
the load failed or the map has no key `k`. -/
def storedAfterLoad (ToLower : String → String) (recs : List addrRecord) (k : String) :
    Option String :=
  match NewMemoryAddressIndexFromJSON ToLower (.records recs) with
  | .ok m => m.data k
  | .error _ => none

/-- An Address in the sense of the specification: `0x` followed by 40
characters from `0-9a-f`. -/
def isAddress (s : String) : Bool :=
  s.data.length = 42 && ['0', 'x'].isPrefixOf s.data &&
  (s.data.drop 2).all (fun c => c ∈ ['0', '1', '2', '3', '4', '5', '6', '7', '8', '9',
    'a', 'b', 'c', 'd', 'e', 'f'])

/-- The ASCII part of `strings.ToUpper`. -/
def asciiToUpper (s : String) : String :=
  String.mk (s.data.map Char.toUpper)

/-- The part of `strings.ToUpper` on ASCII and on two letters of Latin
Extended-A, used to run examples: `unicode.ToUpper` sends U+0131 (dotless i)
to `I` and U+017F (long s) to `S` (table `CaseRanges`, deltas -232 and -300).
Both letters are their own lower case. -/
def latinToUpper (s : String) : String :=
  String.mk (s.data.map fun c =>
    if c.toNat = 0x131 then 'I' else if c.toNat = 0x17F then 'S' else c.toUpper)

/-- An address in mixed case. -/
def mixedCaseAddress : String := "0xAbCdEf0123456789aBcDeF0123456789AbCdEf01"

/-- The same address in lower case. -/
def lowerCaseAddress : String := "0xabcdef0123456789abcdef0123456789abcdef01"

/-- A string of 42 bytes that begins with `0x` and has no hexadecimal digit
after it. -/
def nonHexAddress : String := "0xzzzzzzzzzzzzzzzzzzzzzzzzzzzzzzzzzzzzzzzz"

/-- A string of 42 bytes that begins with `0xi`. -/
def dottedAddress : String := "0xi000000000000000000000000000000000000000"

/-- The string `dottedAddress` with U+0131 (dotless i) in place of `i`. -/
def dotlessAddress : String := "0xı000000000000000000000000000000000000000"

/-! ## `internal/head.go`: a queue with a given number of free slots -/

/-- The outcomes of the sends of one tick when the heights queue has `f` free
slots and nothing is taken from it meanwhile: the first `f` sends go through
and the next one finds the queue full.  The context is not cancelled. -/
def freeSlots (f : Nat) : Nat → SendOutcome :=
  fun i => if i < f then .sent else .full

/-! ## `internal/dto.go`: the JSON form of an `Event` -/

/-- The bytes `json.Marshal(ev)` produces for an `Event`: one object whose
members follow the struct's fields in declaration order, named by the `json`
tags, without white space.  `quote` is the encoder's rendering of a Go string
as a JSON string (quotes and escapes); `BlockNumber`, a `uint64`, is written
in decimal.  Marshalling this struct cannot fail. -/
def jsonMarshalEvent (quote : String → String) (ev : Event) : String :=
  "\x7b\"userId\":" ++ quote ev.UserID ++
  ",\"from\":" ++ quote ev.From ++
  ",\"to\":" ++ quote ev.To ++
  ",\"amountWei\":" ++ quote ev.AmountWei ++
  ",\"hash\":" ++ quote ev.TxHash ++
  ",\"blockNumber\":" ++ String.mk (Nat.toDigits 10 ev.BlockNumber) ++ "\x7d"

/-- The sink's collaborators with `json.Marshal` as it acts on events; the
publisher's and the store's failures remain choices of the environment. -/
def jsonEnv (quote : String → String) (publishFails : Nat → String → Bool)
    (saveFault : Nat → SaveFault) : SinkEnv where
  marshal := fun ev => some (jsonMarshalEvent quote ev)
  publishFails := publishFails
  saveFault := saveFault

/-- The value of a member of a flat JSON object: a string or an unsigned
integer. -/
inductive JsonScalar where
  | str (s : String)
  | num (n : Nat)
  deriving DecidableEq, Repr

/-- The JSON text of a scalar: a quoted string, or the decimal digits of a
number. -/
def JsonScalar.render (quote : String → String) : JsonScalar → String
  | .str s => quote s
  | .num n => String.mk (Nat.toDigits 10 n)

/-- The compact JSON text of the object with the given members, in order:
each member is its name in quotes, a colon and its value, and members are
separated by commas. -/
def renderObject (quote : String → String) (members : List (String × JsonScalar)) : String :=
  "\x7b" ++ ",".intercalate (members.map fun m => "\"" ++ m.1 ++ "\":" ++ m.2.render quote)
    ++ "\x7d"

/-- The six members the specification gives the payload of an event. -/
def eventMembers (ev : Event) : List (String × JsonScalar) :=
  [("userId", .str ev.UserID), ("from", .str ev.From), ("to", .str ev.To),
   ("amountWei", .str ev.AmountWei), ("hash", .str ev.TxHash),
   ("blockNumber", .num ev.BlockNumber)]

/-- The JSON encoding of a string that needs no escape: the string between
quotes. -/
def plainQuote (s : String) : String := "\"" ++ s ++ "\""

/-! ## `internal/server.go`: the end of `Start` -/

/-- The statements the main goroutine runs in `Start` once the four stages
are launched: a receive from `sigCh`, `cancel()`, `os.Exit(code)`, and
`wg.Wait()`. -/
inductive StartStmt where
  | recvSignal
  | cancel
  | exit (code : Nat)
  | wgWait
  deriving DecidableEq, Repr

/-- The last statements of `Start`, in source order:
`<-sigCh; cancel(); <-sigCh; os.Exit(1); wg.Wait()`. -/
def StartStmts : List StartStmt :=
  [.recvSignal, .cancel, .recvSignal, .exit 1, .wgWait]

/-- Where the main goroutine ends up: blocked on `sigCh` with no signal
left to receive, blocked in `wg.Wait()` on stages that were never cancelled,
the process ended by `os.Exit`, or `Start` returned to its caller. -/
inductive StartOutcome where
  | blockedOnSignal
  | blockedOnStages
  | exited (code : Nat)
  | returned
  deriving DecidableEq, Repr

/-- The main goroutine's view: the signals delivered and not yet received,
whether the context has been cancelled, and whether `wg.Wait()` has
returned. -/
structure StartState where
  signals : Nat
  cancelled : Bool
  waited : Bool
  deriving DecidableEq, Repr

/-- Run the main goroutine's statements.  A receive takes one delivered
signal or blocks for good when none is left; `os.Exit` ends the process at
once, so nothing after it runs; `wg.Wait()` returns once the stages have
finished, which they do after the context is cancelled; falling off the end
returns from `Start`. -/
def runStart : List StartStmt → StartState → StartState × StartOutcome
  | [], st => (st, .returned)
  | .recvSignal :: rest, st =>
    if st.signals = 0 then (st, .blockedOnSignal)
    else runStart rest { st with signals := st.signals - 1 }
  | .cancel :: rest, st => runStart rest { st with cancelled := true }
  | .exit code :: _, st => (st, .exited code)
  | .wgWait :: rest, st =>
    if st.cancelled then runStart rest { st with waited := true }
    else (st, .blockedOnStages)

/-- The function `Start` from the point where its stages run, given the
number of SIGINT/SIGTERM signals the process receives. -/
def Start (signals : Nat) : StartState × StartOutcome :=
  runStart StartStmts ⟨signals, false, false⟩

/-! ## `internal/head.go`, `internal/block.go`: the jitter -/

/-- The factor `f := fmin + rand.Float64()*(fmax-fmin)` with
`fmin, fmax := 1.0-jitter, 1.0+jitter`.  Finite `float64` values are rational
numbers; `fl` rounds the exact result of an operation to a `float64`, and `r`
is the value `rand.Float64()` returned. -/
def jitterFactor (fl : ℚ → ℚ) (r jitter : ℚ) : ℚ :=
  let fmin := fl (1 - jitter)
  let fmax := fl (1 + jitter)
  fl (fmin + fl (r * fl (fmax - fmin)))

/-- The conversion `time.Duration(x)` of a finite `float64`: the fraction is
discarded (truncation towards zero); out of the `int64` range the result is
the implementation's, given by `ovf`. -/
def durationOfFloat (ovf : F64 → Int) (x : ℚ) : Int :=
  let t : Int := if 0 ≤ x then ⌊x⌋ else ⌈x⌉
  if -(2 ^ 63) ≤ t ∧ t < 2 ^ 63 then t else ovf (.fin t)

/-- The last statement of `withJitter` and of `backoffWithJitter`:
`time.Duration(float64(base) * f)`. -/
def scaleByFactor (fl : ℚ → ℚ) (ovf : F64 → Int) (r jitter : ℚ) (base : Int) : Int :=
  durationOfFloat ovf (fl ((float64OfInt64 base : ℚ) * jitterFactor fl r jitter))

/-- The function `withJitter` of `head.go`. -/
def withJitter (fl : ℚ → ℚ) (ovf : F64 → Int) (r : ℚ) (base : Int) (jitter : ℚ) : Int :=
  if jitter ≤ 0 then base else scaleByFactor fl ovf r jitter base

/-- What the bounds use of `float64` rounding (to nearest, in the range of
finite values): it is monotone, it leaves a `float64` unchanged, and every
integer up to `2 ^ 53` in absolute value is a `float64`. -/
structure Float64Rounding (fl : ℚ → ℚ) : Prop where
  mono : ∀ x y : ℚ, x ≤ y → fl x ≤ fl y
  idem : ∀ x : ℚ, fl (fl x) = fl x
  exact_int : ∀ n : Int, n.natAbs ≤ 2 ^ 53 → fl (n : ℚ) = (n : ℚ)

/-- Arithmetic in which no operation rounds: what `float64` arithmetic does
on operands whose exact result is a `float64`. -/
def exactArith : ℚ → ℚ := fun x => x

/-! ## Invariants used in the proofs -/

/-- The facts about the sink's variables that every step preserves; `L` is
the value loaded at start-up. -/
structure SinkInv (L : Nat) (s : SinkState) : Prop where
  loaded_le : L ≤ s.lastSaved
  saved_le : s.lastSaved ≤ s.maxSeen
  calls_bound : ∀ v ∈ s.saveCalls, L < v ∧ v ≤ s.maxSeen
  calls_sorted : s.saveCalls.Pairwise (fun a b => a < b)
  pending_eq : ∀ p, s.pendingCheckpoint = some p → p = s.maxSeen ∧ ∀ v ∈ s.saveCalls, v < p

/-- Every pending checkpoint and every value passed to `Save` is the block
number of an event in `seen`. -/
def FromSeen (seen : List Event) (s : SinkState) : Prop :=
  (∀ p, s.pendingCheckpoint = some p → ∃ ev ∈ seen, ev.BlockNumber = p) ∧
  (∀ v ∈ s.saveCalls, ∃ ev ∈ seen, ev.BlockNumber = v)

/-- The heights sent so far are `S, S + 1, ...` modulo `2 ^ 64` and
`nextHeight` is the one after them. -/
def HeadInv (S : Nat) (st : HeadState) : Prop :=
  st.nextHeight = (S + st.enqueued.length) % 2 ^ 64 ∧
  st.enqueued = (List.range st.enqueued.length).map (fun k => (S + k) % 2 ^ 64)

/-- The largest block number among a start value and a list of events. -/
def maxBlock (c : Nat) (evs : List Event) : Nat :=
  evs.foldl (fun m ev => max m ev.BlockNumber) c

/-- The facts about the sink's variables that every step preserves when the
store is present and all its saves succeed: neither path of the store is a
directory, `lastSaved` is not ahead of `maxSeen`, a pending checkpoint is
`maxSeen`, and without a pending checkpoint `lastSaved` has caught up. -/
structure SinkSynced (s : SinkState) : Prop where
  primary_ok : s.fs.primary ≠ .dir
  tmp_ok : s.fs.tmp ≠ .dir
  saved_le : s.lastSaved ≤ s.maxSeen
  caught_up : s.pendingCheckpoint = none → s.lastSaved = s.maxSeen
  pending_eq : ∀ p, s.pendingCheckpoint = some p → p = s.maxSeen

/-- The facts about the sink's variables that hold whenever the sink is at
its `select`: `lastSaved` is not ahead of `maxSeen`, a pending checkpoint is
`maxSeen` and above `lastSaved`, and the batch is shorter than `batchSize`. -/
structure SinkGuardInv (batchSize : Int) (s : SinkState) : Prop where
  saved_le : s.lastSaved ≤ s.maxSeen
  pending_gt : ∀ p, s.pendingCheckpoint = some p → p = s.maxSeen ∧ s.lastSaved < p
  batch_lt : (s.batch.length : Int) < batchSize

/-! ## Theorems -/

theorem emitEvent_background (ch : EventsChan) (ev : Event) :
    emitEvent Ctx.background ch ev = { sent := ch.sent ++ [ev], selects := ch.selects + 1 } := by
  simp [emitEvent, Ctx.background]

theorem processTx_background_sent (ToLower : String → String) (b : Block) (idx : AddressIndex)
    (n : Nat) (hn : ParseHexUint64 ToLower b.Number = .ok n) (ch : EventsChan)
    (t : Transaction) :
    (processTx ToLower Ctx.background b idx ch t).sent
      = ch.sent ++ sideEvents ToLower idx n t := by
  cases hto : t.To <;>
    by_cases h1 : (idx.Lookup (ToLower t.From)).2 = true <;>
    simp only [processTx, sideEvents, hn, hto, h1, emitEvent_background] <;>
    split <;> simp_all

theorem foldl_processTx_sent (ToLower : String → String) (b : Block) (idx : AddressIndex)
    (n : Nat) (hn : ParseHexUint64 ToLower b.Number = .ok n) (txs : List Transaction) :
    ∀ ch : EventsChan,
      (txs.foldl (processTx ToLower Ctx.background b idx) ch).sent
        = ch.sent ++ txs.flatMap (sideEvents ToLower idx n) := by
  induction txs with
  | nil => intro ch; simp
  | cons t ts ih =>
    intro ch
    rw [List.foldl_cons, ih, processTx_background_sent ToLower b idx n hn]
    simp [List.append_assoc]

/-- C1. For a block whose number decodes to `n`, any address index and a
context that is never cancelled, `processBlock` sends exactly the events of
its transactions in order, for each transaction the `from`-side event (if the
lookup of the lower-cased `from` hits) and then the `to`-side event (if the
lookup of the lower-cased `to`, or of the empty string, hits), each with
`From` unchanged, `To` lower-cased or empty, `AmountWei = value`,
`TxHash = hash` and `BlockNumber = n`. -/
theorem processBlock_emits_side_events (ToLower : String → String) (idx : AddressIndex)
    (b : Block) (n : Nat) (hn : ParseHexUint64 ToLower b.Number = .ok n) :
    (processBlock ToLower Ctx.background b idx ⟨[], 0⟩).sent
      = b.Transactions.flatMap (fun t =>
          (if (idx.Lookup (ToLower t.From)).2 then
              [{ UserID := (idx.Lookup (ToLower t.From)).1, From := t.From,
                 To := (t.To.map ToLower).getD "", AmountWei := t.Value,
                 TxHash := t.Hash, BlockNumber := n }]
            else []) ++
          (if (idx.Lookup ((t.To.map ToLower).getD "")).2 then
              [{ UserID := (idx.Lookup ((t.To.map ToLower).getD "")).1, From := t.From,
                 To := (t.To.map ToLower).getD "", AmountWei := t.Value,
                 TxHash := t.Hash, BlockNumber := n }]
            else [])) := by
  have h := foldl_processTx_sent ToLower b idx n hn b.Transactions ⟨[], 0⟩
  simpa only [processBlock, sideEvents, List.nil_append] using h

theorem processBlock_emits_side_events_witness :
    (processBlock asciiToLower Ctx.background exampleBlock exampleIndex ⟨[], 0⟩).sent
      = [{ UserID := "vitalik", From := "0x1234567890123456789012345678901234567890",
           To := "0xd8da6bf26964af9d7eed9e03e53415d37aa96045",
           AmountWei := "0xde0b6b3a7640000", TxHash := "0xtx123", BlockNumber := 12345 }] := by
  rw [processBlock_emits_side_events asciiToLower exampleIndex exampleBlock 12345 (by decide)]
  decide

/-! ### Decimal and hexadecimal rendering against `strconv.ParseUint` -/

theorem toDigitsCore_eq_append (b : Nat) (hb : 2 ≤ b) :
    ∀ n fuel ds, n < fuel → Nat.toDigitsCore b fuel n ds = Nat.toDigits b n ++ ds := by
  intro n
  induction n using Nat.strong_induction_on with
  | _ n ih =>
    intro fuel ds hfuel
    obtain ⟨f, rfl⟩ : ∃ f, fuel = f + 1 := ⟨fuel - 1, by omega⟩
    by_cases hq : n / b = 0
    · simp [Nat.toDigits, Nat.toDigitsCore, hq]
    · have hpos : 0 < n := by
        rcases Nat.eq_zero_or_pos n with h | h
        · subst h; simp at hq
        · exact h
      have hlt : n / b < n := Nat.div_lt_self hpos hb
      have h1 : Nat.toDigitsCore b (f + 1) n ds
          = Nat.toDigits b (n / b) ++ Nat.digitChar (n % b) :: ds := by
        simp only [Nat.toDigitsCore, hq, if_false]
        exact ih (n / b) hlt f _ (by omega)
      have h2 : Nat.toDigits b n = Nat.toDigits b (n / b) ++ [Nat.digitChar (n % b)] := by
        show Nat.toDigitsCore b (n + 1) n [] = _
        simp only [Nat.toDigitsCore, hq, if_false]
        exact ih (n / b) hlt n _ hlt
      rw [h1, h2]
      simp

theorem toDigits_small (b n : Nat) (h : n / b = 0) :
    Nat.toDigits b n = [Nat.digitChar (n % b)] := by
  simp [Nat.toDigits, Nat.toDigitsCore, h]

theorem toDigits_step (b : Nat) (hb : 2 ≤ b) (n : Nat) (h : n / b ≠ 0) :
    Nat.toDigits b n = Nat.toDigits b (n / b) ++ [Nat.digitChar (n % b)] := by
  have hpos : 0 < n := by
    rcases Nat.eq_zero_or_pos n with h0 | h0
    · subst h0; simp at h
    · exact h0
  show Nat.toDigitsCore b (n + 1) n [] = _
  simp only [Nat.toDigitsCore, h, if_false]
  exact toDigitsCore_eq_append b hb (n / b) n _ (Nat.div_lt_self hpos hb)

theorem digitVal_digitChar (d : Nat) (hd : d < 16) : digitVal (Nat.digitChar d) = some d := by
  interval_cases d <;> decide

theorem parseUintLoop_append (b : Nat) (xs ys : List Char) :
    ∀ n, parseUintLoop b (xs ++ ys) n
      = match parseUintLoop b xs n with
        | .ok m => parseUintLoop b ys m
        | .error e => .error e := by
  induction xs with
  | nil => intro n; simp [parseUintLoop]
  | cons c cs ih =>
    intro n
    simp only [List.cons_append, parseUintLoop]
    cases digitVal c with
    | none => simp
    | some d =>
      simp only []
      split
      · rfl
      · split
        · rfl
        · split
          · rfl
          · exact ih _

theorem parseUintLoop_digit (b : Nat) (hb : 2 ≤ b) (hb16 : b ≤ 16) (q d : Nat)
    (hd : d < b) (hv : q * b + d < 2 ^ 64) :
    parseUintLoop b [Nat.digitChar d] q = .ok (q * b + d) := by
  have hcut : ¬ q ≥ (2 ^ 64 - 1) / b + 1 := by
    have h1 : q * b ≤ 2 ^ 64 - 1 := by omega
    have h2 : q ≤ (2 ^ 64 - 1) / b := (Nat.le_div_iff_mul_le (by omega)).mpr h1
    omega
  have hm : (q * b) % 2 ^ 64 = q * b := Nat.mod_eq_of_lt (by omega)
  have hn1 : (q * b + d) % 2 ^ 64 = q * b + d := Nat.mod_eq_of_lt hv
  have hdb : ¬ d ≥ b := by omega
  simp only [parseUintLoop, digitVal_digitChar d (by omega), hdb, hcut, if_false, hm, hn1]
  have : ¬ (q * b + d < q * b ∨ q * b + d > 2 ^ 64 - 1) := by omega
  rw [if_neg this]

theorem parseUintLoop_toDigits (b : Nat) (hb : 2 ≤ b) (hb16 : b ≤ 16) :
    ∀ v, v < 2 ^ 64 → parseUintLoop b (Nat.toDigits b v) 0 = .ok v := by
  intro v
  induction v using Nat.strong_induction_on with
  | _ v ih =>
    intro hv
    by_cases hq : v / b = 0
    · have hlt : v < b := by
        rcases Nat.lt_or_ge v b with h | h
        · exact h
        · have := Nat.div_pos h (by omega : 0 < b); omega
      rw [toDigits_small b v hq, Nat.mod_eq_of_lt hlt]
      simpa using parseUintLoop_digit b hb hb16 0 v hlt (by simpa using hv)
    · have hpos : 0 < v := by
        rcases Nat.eq_zero_or_pos v with h0 | h0
        · subst h0; simp at hq
        · exact h0
      have hlt : v / b < v := Nat.div_lt_self hpos hb
      rw [toDigits_step b hb v hq, parseUintLoop_append, ih (v / b) hlt (by omega)]
      have hdm : v / b * b + v % b = v := by
        rw [Nat.mul_comm]; exact Nat.div_add_mod v b
      have := parseUintLoop_digit b hb hb16 (v / b) (v % b) (Nat.mod_lt _ (by omega))
        (by rw [hdm]; exact hv)
      rw [hdm] at this
      exact this

theorem toDigits_ne_nil (b : Nat) (hb : 2 ≤ b) (v : Nat) : Nat.toDigits b v ≠ [] := by
  by_cases hq : v / b = 0
  · rw [toDigits_small b v hq]; simp
  · rw [toDigits_step b hb v hq]; simp

theorem ParseUint_toDigits (b : Nat) (hb : 2 ≤ b) (hb16 : b ≤ 16) (v : Nat) (hv : v < 2 ^ 64) :
    ParseUint (Nat.toDigits b v) b = .ok v := by
  simp [ParseUint, toDigits_ne_nil b hb v, parseUintLoop_toDigits b hb hb16 v hv]

theorem isDecDigit_digitChar (d : Nat) (hd : d < 10) : isDecDigit (Nat.digitChar d) = true := by
  interval_cases d <;> decide

theorem toDigits_all_dec (v : Nat) : ∀ c ∈ Nat.toDigits 10 v, isDecDigit c = true := by
  induction v using Nat.strong_induction_on with
  | _ v ih =>
    by_cases hq : v / 10 = 0
    · rw [toDigits_small 10 v hq]
      intro c hc
      simp only [List.mem_singleton] at hc
      subst hc
      exact isDecDigit_digitChar _ (Nat.mod_lt _ (by omega))
    · rw [toDigits_step 10 (by omega) v hq]
      intro c hc
      rcases List.mem_append.mp hc with h | h
      · exact ih (v / 10) (by omega) c h
      · simp only [List.mem_singleton] at h
        subst h
        exact isDecDigit_digitChar _ (Nat.mod_lt _ (by omega))

theorem toDigits_head (v : Nat) (hv : 0 < v) :
    ∃ c rest, Nat.toDigits 10 v = c :: rest ∧ c ≠ '0' := by
  induction v using Nat.strong_induction_on with
  | _ v ih =>
    by_cases hq : v / 10 = 0
    · refine ⟨Nat.digitChar (v % 10), [], toDigits_small 10 v hq, ?_⟩
      have hlt : v < 10 := by omega
      rw [Nat.mod_eq_of_lt hlt]
      interval_cases v <;> decide
    · obtain ⟨c, rest, hc, hne⟩ := ih (v / 10) (by omega) (by omega)
      exact ⟨c, rest ++ [Nat.digitChar (v % 10)],
        by rw [toDigits_step 10 (by omega) v hq, hc]; rfl, hne⟩

theorem Decoder.run_append (xs ys : List Char) :
    ∀ d : Decoder, d.run (xs ++ ys) = (d.run xs).bind (fun d1 => d1.run ys) := by
  induction xs with
  | nil => intro d; rfl
  | cons c cs ih =>
    intro d
    simp only [List.cons_append, Decoder.run]
    cases d.next c with
    | none => rfl
    | some d1 => exact ih d1

theorem isDecDigit_not_special (c : Char) (hc : isDecDigit c = true) :
    isJSONSpace c = false ∧ c ≠ '.' ∧ c ≠ 'e' ∧ c ≠ 'E' ∧ c ≠ '\x7b' ∧ c ≠ '[' ∧ c ≠ '"' ∧
    c ≠ '-' ∧ c ≠ 't' ∧ c ≠ 'f' ∧ c ≠ 'n' := by
  refine ⟨?_, ?_, ?_, ?_, ?_, ?_, ?_, ?_, ?_, ?_, ?_⟩
  · cases h : isJSONSpace c with
    | false => rfl
    | true =>
      simp only [isJSONSpace, Bool.or_eq_true, decide_eq_true_eq] at h
      rcases h with ((h | h) | h) | h <;> (subst h; revert hc; decide)
  all_goals (intro h; subst h; revert hc; decide)

theorem Decoder.next_digit (c : Char) (hc : isDecDigit c = true) (e : Bool) (k : List Char)
    (sel : Bool) (num : List Char) (cf : Nat) (se : Bool) :
    Decoder.next ⟨⟨.state1, [.parseObjectValue], e⟩, k, sel, num, cf, se⟩ c
      = some ⟨⟨.state1, [.parseObjectValue], e⟩, k, sel, num ++ [c], cf, se⟩ := by
  simp [Decoder.next, Scanner.next, state1, hc, Decoder.observe, Decoder.inValue,
    ScanStep.inNumber]

theorem Decoder.run_digits (ds : List Char) (hds : ∀ c ∈ ds, isDecDigit c = true) (e : Bool)
    (k : List Char) (sel : Bool) (cf : Nat) (se : Bool) :
    ∀ num : List Char,
      Decoder.run ⟨⟨.state1, [.parseObjectValue], e⟩, k, sel, num, cf, se⟩ ds
        = some ⟨⟨.state1, [.parseObjectValue], e⟩, k, sel, num ++ ds, cf, se⟩ := by
  induction ds with
  | nil => intro num; simp [Decoder.run]
  | cons c cs ih =>
    intro num
    simp only [Decoder.run, Decoder.next_digit c (hds c (List.mem_cons_self _ _))]
    rw [ih (fun x hx => hds x (List.mem_cons_of_mem _ hx))]
    simp

theorem Decoder.next_first_digit (c : Char) (hc : isDecDigit c = true) (h0 : c ≠ '0')
    (k : List Char) (sel : Bool) (num : List Char) (cf : Nat) (se : Bool) :
    Decoder.next ⟨⟨.stateBeginValue, [.parseObjectValue], false⟩, k, sel, num, cf, se⟩ c
      = some ⟨⟨.state1, [.parseObjectValue], false⟩, k, sel, [c], cf, se⟩ := by
  obtain ⟨h1, -, -, -, h5, h6, h7, h8, h9, h10, h11⟩ := isDecDigit_not_special c hc
  have hnz : (49 ≤ c.toNat && c.toNat ≤ 57) = true := by
    have hne : c.toNat ≠ 48 := by
      intro h
      apply h0
      have : c = Char.ofNat c.toNat := (Char.ofNat_toNat c).symm
      rw [this, h]
    simp only [isDecDigit, Bool.and_eq_true, decide_eq_true_eq] at hc
    simp only [Bool.and_eq_true, decide_eq_true_eq]
    omega
  simp [Decoder.next, Scanner.next, stateBeginValue, h1, h5, h6, h7, h8, h0, h9, h10, h11, hnz,
    Decoder.observe, Decoder.inValue, hc]

/-- The decoder after the bytes `\x7b"confirmed":` of a document. -/
theorem Decoder.run_member_name :
    Decoder.init.run "\x7b\"confirmed\":".data
      = some ⟨⟨.stateBeginValue, [.parseObjectValue], false⟩, "confirmed".data, true, [], 0,
          false⟩ := by
  decide

theorem Decoder.run_nonzero_digits (c : Char) (rest : List Char) (hc : isDecDigit c = true)
    (h0 : c ≠ '0') (hrest : ∀ x ∈ rest, isDecDigit x = true) :
    Decoder.run ⟨⟨.stateBeginValue, [.parseObjectValue], false⟩, "confirmed".data, true, [], 0,
        false⟩ (c :: rest)
      = some ⟨⟨.state1, [.parseObjectValue], false⟩, "confirmed".data, true, c :: rest, 0,
          false⟩ := by
  simp only [Decoder.run, Decoder.next_first_digit c hc h0]
  rw [Decoder.run_digits rest hrest]
  rfl

theorem Decoder.run_number (v : Nat) :
    ∃ st : ScanStep, (st = .state1 ∨ st = .state0) ∧
    Decoder.run ⟨⟨.stateBeginValue, [.parseObjectValue], false⟩, "confirmed".data, true, [], 0,
        false⟩ (Nat.toDigits 10 v)
      = some ⟨⟨st, [.parseObjectValue], false⟩, "confirmed".data, true, Nat.toDigits 10 v, 0,
          false⟩ := by
  rcases Nat.eq_zero_or_pos v with h0 | hpos
  · subst h0
    exact ⟨.state0, Or.inr rfl, by decide⟩
  · obtain ⟨c, rest, hc, hne⟩ := toDigits_head v hpos
    have hall := toDigits_all_dec v
    rw [hc] at hall ⊢
    exact ⟨.state1, Or.inl rfl, Decoder.run_nonzero_digits c rest
      (hall c (List.mem_cons_self _ _)) hne (fun x hx => hall x (List.mem_cons_of_mem _ hx))⟩

theorem jsonUnmarshal_jsonMarshal (v : Nat) (hv : v < 2 ^ 64) :
    jsonUnmarshalCheckpoint (jsonMarshalCheckpoint v) = some v := by
  have hdata : (jsonMarshalCheckpoint v).data
      = "\x7b\"confirmed\":".data ++ (Nat.toDigits 10 v ++ ['\x7d']) := by
    simp [jsonMarshalCheckpoint]
  obtain ⟨st, hst, hrun⟩ := Decoder.run_number v
  have hp := ParseUint_toDigits 10 (by omega) (by omega) v hv
  unfold jsonUnmarshalCheckpoint
  rw [hdata, Decoder.run_append, Decoder.run_member_name]
  simp only [Option.bind]
  rw [Decoder.run_append, hrun]
  simp only [Option.bind]
  rcases hst with rfl | rfl
  · simp [Decoder.run, Decoder.next, Scanner.next, state1, state0, stateEndValue, isDecDigit,
      isJSONSpace, Scanner.popParseState, Decoder.observe, Decoder.inValue, ScanStep.inNumber,
      Decoder.storeNumber, hp, Scanner.eof]
  · simp [Decoder.run, Decoder.next, Scanner.next, state0, stateEndValue,
      isJSONSpace, Scanner.popParseState, Decoder.observe, Decoder.inValue, ScanStep.inNumber,
      Decoder.storeNumber, hp, Scanner.eof]

/-- A document cut off inside or right after its number cannot end there. -/
theorem Scanner.eof_in_member (st : ScanStep) (hst : st = .state1 ∨ st = .state0) :
    Scanner.eof ⟨st, [.parseObjectValue], false⟩ = false := by
  rcases hst with rfl | rfl <;> decide

theorem jsonUnmarshal_truncated (v k : Nat)
    (hk : k < (jsonMarshalCheckpoint v).data.length) :
    jsonUnmarshalCheckpoint (String.mk ((jsonMarshalCheckpoint v).data.take k)) = none := by
  have hdata : (jsonMarshalCheckpoint v).data
      = "\x7b\"confirmed\":".data ++ (Nat.toDigits 10 v ++ ['\x7d']) := by
    simp [jsonMarshalCheckpoint]
  have hlen : ("\x7b\"confirmed\":".data).length = 13 := by decide
  rw [hdata] at hk ⊢
  simp only [List.length_append, hlen, List.length_singleton] at hk
  by_cases hsmall : k ≤ 13
  · have ht : ("\x7b\"confirmed\":".data ++ (Nat.toDigits 10 v ++ ['\x7d'])).take k
        = ("\x7b\"confirmed\":".data).take k :=
      List.take_append_of_le_length (by rw [hlen]; exact hsmall)
    rw [ht]
    interval_cases k <;> decide
  · obtain ⟨j, hj⟩ : ∃ j, k = 13 + (j + 1) := ⟨k - 14, by omega⟩
    subst hj
    have ht : ("\x7b\"confirmed\":".data ++ (Nat.toDigits 10 v ++ ['\x7d'])).take (13 + (j + 1))
        = "\x7b\"confirmed\":".data ++ (Nat.toDigits 10 v).take (j + 1) := by
      rw [← hlen, List.take_append, List.take_append_of_le_length (by omega)]
    rw [ht]
    have hfinal : ∃ st : ScanStep, (st = .state1 ∨ st = .state0) ∧ ∃ num,
        Decoder.run ⟨⟨.stateBeginValue, [.parseObjectValue], false⟩, "confirmed".data, true, [],
          0, false⟩ ((Nat.toDigits 10 v).take (j + 1))
        = some ⟨⟨st, [.parseObjectValue], false⟩, "confirmed".data, true, num, 0, false⟩ := by
      rcases Nat.eq_zero_or_pos v with h0 | hpos
      · subst h0
        refine ⟨.state0, Or.inr rfl, ['0'], ?_⟩
        have : (Nat.toDigits 10 0).take (j + 1) = ['0'] := by
          have e : Nat.toDigits 10 0 = ['0'] := by decide
          rw [e]
          simp
        rw [this]
        decide
      · obtain ⟨c, rest, hc, hne⟩ := toDigits_head v hpos
        have hall := toDigits_all_dec v
        rw [hc] at hall ⊢
        refine ⟨.state1, Or.inl rfl, c :: rest.take j, ?_⟩
        rw [List.take_succ_cons]
        exact Decoder.run_nonzero_digits c (rest.take j) (hall c (List.mem_cons_self _ _)) hne
          (fun x hx => hall x (List.mem_cons_of_mem _ (List.mem_of_mem_take hx)))
    obtain ⟨st, hst, num, hrun⟩ := hfinal
    unfold jsonUnmarshalCheckpoint
    rw [Decoder.run_append, Decoder.run_member_name]
    simp only [Option.bind]
    rw [hrun]
    simp only [Scanner.eof_in_member st hst, Bool.false_and, Bool.false_eq_true, if_false]

/-! ### The checkpoint store -/

theorem Save_ok_fs (fault : SaveFault) (fs : FS) (v : Nat)
    (hok : (CheckpointStore.Save fault fs v).2 = none) :
    (CheckpointStore.Save fault fs v).1 = ⟨.file (jsonMarshalCheckpoint v), .missing⟩ := by
  unfold CheckpointStore.Save at hok ⊢
  rcases fs with ⟨pr, tm⟩
  rcases fault with ⟨w, r⟩
  cases tm <;> cases w <;> simp [writeFile] at hok ⊢ <;>
    (split at hok <;> simp_all)

theorem Load_of_primary_file (data : String) (tm : Node) :
    CheckpointStore.Load ⟨.file data, tm⟩ = decodeCheckpoint data := by
  simp [CheckpointStore.Load, readFile]

theorem Save_primary_file (fault : SaveFault) (data : String) (tm : Node) (v : Nat) :
    ∃ data1 tm1, (CheckpointStore.Save fault ⟨.file data, tm⟩ v).1 = ⟨.file data1, tm1⟩ ∧
      ((CheckpointStore.Save fault ⟨.file data, tm⟩ v).2 = none → data1 = jsonMarshalCheckpoint v) ∧
      ((CheckpointStore.Save fault ⟨.file data, tm⟩ v).2 ≠ none → data1 = data) := by
  rcases fault with ⟨w, r⟩
  cases tm <;> cases w <;> cases r <;> simp [CheckpointStore.Save, writeFile]

theorem saveMany_primary_file (calls : List (SaveFault × Nat)) :
    ∀ (w : Nat) (tm : Node), w < 2 ^ 64 → (∀ c ∈ calls, c.2 < 2 ^ 64) →
      CheckpointStore.Load (saveMany ⟨.file (jsonMarshalCheckpoint w), tm⟩ calls).1
        = ((saveMany ⟨.file (jsonMarshalCheckpoint w), tm⟩ calls).2.getLastD w, none) := by
  induction calls with
  | nil =>
    intro w tm hw _
    simp [saveMany, Load_of_primary_file, decodeCheckpoint, jsonUnmarshal_jsonMarshal w hw]
  | cons c rest ih =>
    intro w tm hw hc
    obtain ⟨fault, v⟩ := c
    have hv : v < 2 ^ 64 := hc (fault, v) (List.mem_cons_self _ _)
    have hrest : ∀ c ∈ rest, c.2 < 2 ^ 64 := fun c h => hc c (List.mem_cons_of_mem _ h)
    obtain ⟨data1, tm1, hfs, hokd, herrd⟩ :=
      Save_primary_file fault (jsonMarshalCheckpoint w) tm v
    cases hres : CheckpointStore.Save fault ⟨.file (jsonMarshalCheckpoint w), tm⟩ v with
    | mk fs1 err =>
      rw [hres] at hfs hokd herrd
      simp only at hfs hokd herrd
      subst hfs
      cases err with
      | none =>
        have hd : data1 = jsonMarshalCheckpoint v := hokd rfl
        subst hd
        simp only [saveMany, hres]
        rw [ih v tm1 hv hrest]
        cases (saveMany ⟨.file (jsonMarshalCheckpoint v), tm1⟩ rest).2 <;> simp [List.getLastD]
      | some e =>
        have hd : data1 = jsonMarshalCheckpoint w := herrd (by simp)
        subst hd
        simp only [saveMany, hres]
        exact ih w tm1 hw hrest

theorem saveMany_values (calls : List (SaveFault × Nat)) :
    ∀ fs : FS, ∀ x ∈ (saveMany fs calls).2, ∃ c ∈ calls, c.2 = x := by
  induction calls with
  | nil => intro fs x hx; simp [saveMany] at hx
  | cons c rest ih =>
    intro fs x hx
    obtain ⟨fault, v⟩ := c
    simp only [saveMany] at hx
    cases hres : CheckpointStore.Save fault fs v with
    | mk fs1 err =>
      rw [hres] at hx
      cases err with
      | none =>
        simp only [List.mem_cons] at hx
        rcases hx with h | h
        · exact ⟨(fault, v), List.mem_cons_self _ _, h.symm⟩
        · obtain ⟨c, hc, hcx⟩ := ih fs1 x h
          exact ⟨c, List.mem_cons_of_mem _ hc, hcx⟩
      | some e =>
        obtain ⟨c, hc, hcx⟩ := ih fs1 x hx
        exact ⟨c, List.mem_cons_of_mem _ hc, hcx⟩

theorem getLastD_mem_or {α : Type} (xs : List α) (d : α) :
    xs.getLastD d = d ∨ xs.getLastD d ∈ xs := by
  induction xs generalizing d with
  | nil => left; rfl
  | cons x xs ih =>
    right
    rw [List.getLastD_cons]
    rcases ih x with h | h
    · rw [h]; exact List.mem_cons_self _ _
    · exact List.mem_cons_of_mem _ h

/-- C5 (counterexample). On a fresh store, `Save(22222)` and then
`Save(11111)` both succeed, and the following `Load` returns 11111, which is
below the 22222 saved successfully before it. -/
theorem Save_smaller_value_lowers_Load :
    (CheckpointStore.Save .ok .empty 22222).2 = none ∧
    (CheckpointStore.Save .ok (CheckpointStore.Save .ok .empty 22222).1 11111).2 = none ∧
    CheckpointStore.Load
        (CheckpointStore.Save .ok (CheckpointStore.Save .ok .empty 22222).1 11111).1
      = (11111, none) ∧
    ¬ (22222 ≤ (CheckpointStore.Load
        (CheckpointStore.Save .ok (CheckpointStore.Save .ok .empty 22222).1 11111).1).1) := by
  decide

/-- C5 (amended). After a successful `Save(v)` and any further `Save` calls
(each failing or succeeding), `Load` returns without error the argument of
the most recent successful `Save`, which is `v` if none succeeded after it;
hence it returns a value `≥ v` whenever every `Save` in between was given a
value `≥ v`. -/
theorem Load_returns_latest_successful_Save (fault : SaveFault) (fs : FS) (v : Nat)
    (calls : List (SaveFault × Nat)) (hv : v < 2 ^ 64)
    (hok : (CheckpointStore.Save fault fs v).2 = none)
    (hcalls : ∀ c ∈ calls, c.2 < 2 ^ 64) :
    CheckpointStore.Load (saveMany (CheckpointStore.Save fault fs v).1 calls).1
        = ((saveMany (CheckpointStore.Save fault fs v).1 calls).2.getLastD v, none) ∧
    ((∀ c ∈ calls, v ≤ c.2) →
      v ≤ (CheckpointStore.Load (saveMany (CheckpointStore.Save fault fs v).1 calls).1).1) := by
  have hfs := Save_ok_fs fault fs v hok
  have hload := saveMany_primary_file calls v .missing hv hcalls
  rw [hfs]
  refine ⟨hload, ?_⟩
  intro hge
  rw [hload]
  show v ≤ List.getLastD _ v
  rcases getLastD_mem_or (saveMany ⟨.file (jsonMarshalCheckpoint v), .missing⟩ calls).2 v
    with h | h
  · rw [h]
  · obtain ⟨c, hc, hcx⟩ := saveMany_values calls _ _ h
    rw [← hcx]
    exact hge c hc

theorem Load_returns_latest_successful_Save_witness :
    CheckpointStore.Load (saveMany (CheckpointStore.Save .ok .empty 11111).1
        [(⟨.atWrite 3, false⟩, 5), (.ok, 22222), (⟨.none, true⟩, 7)]).1
      = (22222, none) := by
  have h := (Load_returns_latest_successful_Save .ok .empty 11111
    [(⟨.atWrite 3, false⟩, 5), (.ok, 22222), (⟨.none, true⟩, 7)]
    (by decide) (by decide) (by decide)).1
  rw [h]
  decide

/-- C6. For every `v` below `2 ^ 64`, a successful `Save(v)` followed by
`Load()` returns `v` and no error; and a second successful `Save(v)` leaves
the store's files exactly as the first one left them. -/
theorem Load_after_Save (fault : SaveFault) (fs : FS) (v : Nat) (hv : v < 2 ^ 64)
    (hok : (CheckpointStore.Save fault fs v).2 = none) :
    CheckpointStore.Load (CheckpointStore.Save fault fs v).1 = (v, none) ∧
    ∀ fault2 : SaveFault,
      (CheckpointStore.Save fault2 (CheckpointStore.Save fault fs v).1 v).2 = none →
      (CheckpointStore.Save fault2 (CheckpointStore.Save fault fs v).1 v).1
        = (CheckpointStore.Save fault fs v).1 := by
  have hfs := Save_ok_fs fault fs v hok
  refine ⟨?_, ?_⟩
  · rw [hfs, Load_of_primary_file]
    simp [decodeCheckpoint, jsonUnmarshal_jsonMarshal v hv]
  · intro fault2 hok2
    rw [Save_ok_fs fault2 _ v hok2, hfs]

theorem Load_after_Save_witness :
    CheckpointStore.Load (CheckpointStore.Save .ok .empty 0).1 = (0, none) ∧
    CheckpointStore.Load (CheckpointStore.Save .ok ⟨.file "junk", .file "x"⟩
        18446744073709551615).1 = (18446744073709551615, none) :=
  ⟨(Load_after_Save .ok .empty 0 (by decide) (by decide)).1,
   (Load_after_Save .ok ⟨.file "junk", .file "x"⟩ 18446744073709551615
      (by decide) (by decide)).1⟩

/-! ### The sink -/

theorem foldl_publishOne_eq (env : SinkEnv) (l : List String) :
    ∀ s : SinkState, ∃ n,
      l.foldl (publishOne env) s = { s with published := s.published ++ l, logged := n } := by
  induction l with
  | nil => intro s; exact ⟨s.logged, by simp⟩
  | cons m ms ih =>
    intro s
    obtain ⟨n, hn⟩ := ih (publishOne env s m)
    exact ⟨n, by rw [List.foldl_cons, hn]; simp [publishOne]⟩

theorem sendEvents_eq (env : SinkEnv) (s : SinkState) :
    ∃ n, sendEvents env s
      = { s with batch := [], published := s.published ++ s.batch, logged := n } := by
  unfold sendEvents
  split
  · rename_i h
    have hb : s.batch = [] := List.length_eq_zero.mp h
    refine ⟨s.logged, ?_⟩
    cases s
    simp_all
  · obtain ⟨n, hn⟩ := foldl_publishOne_eq env s.batch s
    exact ⟨n, by rw [hn]⟩

theorem saveCheckpointIfNeeded_published (env : SinkEnv) (store : Bool) (s : SinkState) :
    (saveCheckpointIfNeeded env store s).published = s.published ∧
    (saveCheckpointIfNeeded env store s).batch = s.batch := by
  unfold saveCheckpointIfNeeded
  split
  · simp
  · simp
  · dsimp only
    split
    · split <;> simp
    · simp

theorem sendEvents_fields (env : SinkEnv) (s : SinkState) :
    (sendEvents env s).batch = [] ∧
    (sendEvents env s).published = s.published ++ s.batch ∧
    (sendEvents env s).lastSaved = s.lastSaved ∧
    (sendEvents env s).maxSeen = s.maxSeen ∧
    (sendEvents env s).pendingCheckpoint = s.pendingCheckpoint ∧
    (sendEvents env s).saveCalls = s.saveCalls ∧
    (sendEvents env s).fs = s.fs := by
  obtain ⟨n, hn⟩ := sendEvents_eq env s
  rw [hn]
  simp

theorem advanceMaxSeen_fields (s : SinkState) (n : Nat) :
    (advanceMaxSeen s n).batch = s.batch ∧
    (advanceMaxSeen s n).published = s.published ∧
    (advanceMaxSeen s n).lastSaved = s.lastSaved ∧
    (advanceMaxSeen s n).saveCalls = s.saveCalls ∧
    (advanceMaxSeen s n).fs = s.fs ∧
    (advanceMaxSeen s n).maxSeen = max s.maxSeen n ∧
    (advanceMaxSeen s n).pendingCheckpoint
      = if n > s.maxSeen ∧ n > s.lastSaved then some n else s.pendingCheckpoint := by
  unfold advanceMaxSeen
  by_cases h1 : n > s.maxSeen
  · by_cases h2 : n > s.lastSaved
    · simp [h1, h2]; omega
    · simp [h1, h2]; omega
  · simp [h1]; omega

theorem writeEvent_fields (env : SinkEnv) (cfg : SinkConfig) (s : SinkState) (ev : Event)
    (b : String) (hb : env.marshal ev = some b) :
    (writeEvent env cfg s ev).published ++ (writeEvent env cfg s ev).batch
      = s.published ++ s.batch ++ [b] ∧
    (writeEvent env cfg s ev).lastSaved = s.lastSaved ∧
    (writeEvent env cfg s ev).saveCalls = s.saveCalls ∧
    (writeEvent env cfg s ev).fs = s.fs ∧
    (writeEvent env cfg s ev).maxSeen = max s.maxSeen ev.BlockNumber ∧
    (writeEvent env cfg s ev).pendingCheckpoint
      = if ev.BlockNumber > s.maxSeen ∧ ev.BlockNumber > s.lastSaved then some ev.BlockNumber
        else s.pendingCheckpoint := by
  obtain ⟨a1, a2, a3, a4, a5, a6, a7⟩ :=
    advanceMaxSeen_fields { s with batch := s.batch ++ [b] } ev.BlockNumber
  unfold writeEvent
  rw [hb]
  dsimp only
  split
  · obtain ⟨e1, e2, e3, e4, e5, e6, e7⟩ :=
      sendEvents_fields env (advanceMaxSeen { s with batch := s.batch ++ [b] } ev.BlockNumber)
    rw [e1, e2, e3, e4, e5, e6, e7, a1, a2, a3, a4, a5, a6, a7]
    simp
  · rw [a1, a2, a3, a4, a5, a6, a7]
    simp

theorem writeEvent_marshal_error (env : SinkEnv) (cfg : SinkConfig) (s : SinkState) (ev : Event)
    (hb : env.marshal ev = none) :
    writeEvent env cfg s ev = { s with logged := s.logged + 1 } := by
  unfold writeEvent
  rw [hb]

theorem sinkLoop_published (env : SinkEnv) (cfg : SinkConfig) (store : Bool)
    (enc : Event → String) (hm : ∀ e, env.marshal e = some (enc e)) (msgs : List SinkMsg) :
    ∀ s : SinkState, (sinkLoop env cfg store s msgs).2 = true →
      (sinkLoop env cfg store s msgs).1.published
        = s.published ++ s.batch ++ (receivedEvents msgs).map enc ∧
      (sinkLoop env cfg store s msgs).1.batch = [] := by
  induction msgs with
  | nil => intro s h; simp [sinkLoop] at h
  | cons m rest ih =>
    intro s h
    cases m with
    | ctxDone =>
      obtain ⟨e1, e2, -⟩ := sendEvents_fields env s
      obtain ⟨p1, p2⟩ := saveCheckpointIfNeeded_published env store (sendEvents env s)
      simp [sinkLoop, receivedEvents, p1, p2, e1, e2]
    | chanClosed =>
      obtain ⟨e1, e2, -⟩ := sendEvents_fields env s
      obtain ⟨p1, p2⟩ := saveCheckpointIfNeeded_published env store (sendEvents env s)
      simp [sinkLoop, receivedEvents, p1, p2, e1, e2]
    | event ev =>
      simp only [sinkLoop] at h ⊢
      obtain ⟨r1, r2⟩ := ih _ h
      obtain ⟨w1, -⟩ := writeEvent_fields env cfg s ev (enc ev) (hm ev)
      rw [r1, w1, r2]
      simp [receivedEvents]
    | flushTick =>
      simp only [sinkLoop] at h ⊢
      obtain ⟨r1, r2⟩ := ih _ h
      obtain ⟨e1, e2, -⟩ := sendEvents_fields env s
      rw [r1, e1, e2, r2]
      simp [receivedEvents]
    | checkpointTick =>
      simp only [sinkLoop] at h ⊢
      obtain ⟨r1, r2⟩ := ih _ h
      obtain ⟨p1, p2⟩ := saveCheckpointIfNeeded_published env store s
      rw [r1, p1, p2, r2]
      simp [receivedEvents]

theorem sinkInit_published (store : Bool) (fs : FS) :
    (sinkInit store fs).published = [] ∧ (sinkInit store fs).batch = [] ∧
    (sinkInit store fs).saveCalls = [] ∧ (sinkInit store fs).pendingCheckpoint = none ∧
    (sinkInit store fs).lastSaved = (sinkInit store fs).maxSeen := by
  unfold sinkInit
  cases store
  · simp
  · simp only [if_true]
    split <;> simp

/-- C3. For every sequence of things the sink observes that makes it return
(cancellation or a closed events channel), every batch size and every pattern
of publisher and save failures, when every event serialises, the payloads
handed to the publisher are exactly the serialisations of the events received,
one call per event, in arrival order, and no payload is left in the batch. -/
theorem sinkProcessor_publishes_each_event_once (env : SinkEnv) (cfg : SinkConfig)
    (store : Bool) (fs : FS) (msgs : List SinkMsg) (enc : Event → String)
    (hm : ∀ e, env.marshal e = some (enc e))
    (hret : (sinkProcessor env cfg store fs msgs).2 = true) :
    (sinkProcessor env cfg store fs msgs).1.published = (receivedEvents msgs).map enc ∧
    (sinkProcessor env cfg store fs msgs).1.batch = [] := by
  obtain ⟨h1, h2⟩ := sinkLoop_published env cfg.withDefaults store enc hm msgs
    (sinkInit store fs) hret
  obtain ⟨i1, i2, -⟩ := sinkInit_published store fs
  refine ⟨?_, h2⟩
  unfold sinkProcessor
  rw [h1, i1, i2]
  simp

theorem sinkProcessor_publishes_each_event_once_witness :
    (sinkProcessor faultyEnv ⟨0, 2⟩ true FS.empty
        [.event (exampleEvent 7), .checkpointTick, .event (exampleEvent 3), .flushTick,
         .event (exampleEvent 9), .chanClosed, .event (exampleEvent 11)]).1.published
      = ["vitalik@7", "vitalik@3", "vitalik@9"] := by
  have h := (sinkProcessor_publishes_each_event_once faultyEnv ⟨0, 2⟩ true FS.empty
      [.event (exampleEvent 7), .checkpointTick, .event (exampleEvent 3), .flushTick,
       .event (exampleEvent 9), .chanClosed, .event (exampleEvent 11)]
      (fun ev => ev.UserID ++ "@" ++ String.mk (Nat.toDigits 10 ev.BlockNumber))
      (fun _ => rfl) (by decide)).1
  rw [h]
  decide

theorem SinkInv_sendEvents (env : SinkEnv) (L : Nat) (s : SinkState) (h : SinkInv L s) :
    SinkInv L (sendEvents env s) := by
  obtain ⟨-, -, e3, e4, e5, e6, -⟩ := sendEvents_fields env s
  exact ⟨by rw [e3]; exact h.loaded_le, by rw [e3, e4]; exact h.saved_le,
    by rw [e6, e4]; exact h.calls_bound, by rw [e6]; exact h.calls_sorted,
    by rw [e5, e4, e6]; exact h.pending_eq⟩

theorem SinkInv_writeEvent (env : SinkEnv) (cfg : SinkConfig) (L : Nat) (s : SinkState)
    (ev : Event) (h : SinkInv L s) : SinkInv L (writeEvent env cfg s ev) := by
  cases hb : env.marshal ev with
  | none =>
    rw [writeEvent_marshal_error env cfg s ev hb]
    exact ⟨h.loaded_le, h.saved_le, h.calls_bound, h.calls_sorted, h.pending_eq⟩
  | some b =>
    obtain ⟨-, w2, w3, -, w5, w6⟩ := writeEvent_fields env cfg s ev b hb
    have h1 := h.loaded_le
    have h2 := h.saved_le
    refine ⟨by rw [w2]; exact h1, by rw [w2, w5]; omega, ?_, by rw [w3]; exact h.calls_sorted, ?_⟩
    · rw [w3, w5]
      intro v hv
      have := h.calls_bound v hv
      omega
    · rw [w6, w5, w3]
      intro p hp
      by_cases hc : ev.BlockNumber > s.maxSeen ∧ ev.BlockNumber > s.lastSaved
      · rw [if_pos hc] at hp
        have hpe : ev.BlockNumber = p := Option.some.inj hp
        refine ⟨by omega, ?_⟩
        intro v hv
        have := h.calls_bound v hv
        omega
      · rw [if_neg hc] at hp
        obtain ⟨q1, q2⟩ := h.pending_eq p hp
        refine ⟨by omega, q2⟩

theorem SinkInv_saveCheckpointIfNeeded (env : SinkEnv) (store : Bool) (L : Nat)
    (s : SinkState) (h : SinkInv L s) : SinkInv L (saveCheckpointIfNeeded env store s) := by
  have h1 := h.loaded_le
  have h2 := h.saved_le
  unfold saveCheckpointIfNeeded
  split
  · exact h
  · exact h
  · rename_i confirmed hp
    obtain ⟨q1, q2⟩ := h.pending_eq confirmed hp
    dsimp only
    split
    · rename_i hgt
      have hcalls : ∀ v ∈ s.saveCalls ++ [confirmed], L < v ∧ v ≤ s.maxSeen := by
        intro v hv
        rcases List.mem_append.mp hv with hv1 | hv1
        · exact h.calls_bound v hv1
        · simp only [List.mem_singleton] at hv1
          omega
      have hsorted : (s.saveCalls ++ [confirmed]).Pairwise (fun a b => a < b) := by
        rw [List.pairwise_append]
        refine ⟨h.calls_sorted, List.pairwise_singleton _ _, ?_⟩
        intro a ha b hb
        simp only [List.mem_singleton] at hb
        subst hb
        exact q2 a ha
      split
      · exact ⟨h1, h2, hcalls, hsorted, by simp⟩
      · exact ⟨by simp only; omega, by simp only; omega, hcalls, hsorted, by simp⟩
    · exact ⟨h1, h2, h.calls_bound, h.calls_sorted, by simp⟩

theorem SinkInv_sinkLoop (env : SinkEnv) (cfg : SinkConfig) (store : Bool) (L : Nat)
    (msgs : List SinkMsg) :
    ∀ s : SinkState, SinkInv L s → SinkInv L (sinkLoop env cfg store s msgs).1 := by
  induction msgs with
  | nil => intro s h; exact h
  | cons m rest ih =>
    intro s h
    cases m with
    | ctxDone => exact SinkInv_saveCheckpointIfNeeded env store L _ (SinkInv_sendEvents env L s h)
    | chanClosed =>
      exact SinkInv_saveCheckpointIfNeeded env store L _ (SinkInv_sendEvents env L s h)
    | event ev => exact ih _ (SinkInv_writeEvent env cfg L s ev h)
    | flushTick => exact ih _ (SinkInv_sendEvents env L s h)
    | checkpointTick => exact ih _ (SinkInv_saveCheckpointIfNeeded env store L s h)

theorem Load_error_value (fs : FS) (h : (CheckpointStore.Load fs).2 ≠ none) :
    (CheckpointStore.Load fs).1 = 0 := by
  have hd : ∀ data, (decodeCheckpoint data).2 ≠ none → (decodeCheckpoint data).1 = 0 := by
    intro data
    unfold decodeCheckpoint
    split <;> simp
  unfold CheckpointStore.Load at h ⊢
  rcases fs with ⟨pr, tm⟩
  cases pr <;> cases tm <;> simp [readFile] at h ⊢ <;> exact hd _ h

theorem sinkInit_lastSaved (fs : FS) :
    (sinkInit true fs).lastSaved = (CheckpointStore.Load fs).1 := by
  unfold sinkInit
  simp only [if_true]
  cases hl : CheckpointStore.Load fs with
  | mk n err =>
    cases err with
    | none => rfl
    | some e =>
      have := Load_error_value fs (by rw [hl]; simp)
      rw [hl] at this
      simp only at this ⊢
      exact this.symm

theorem SinkInv_sinkInit (store : Bool) (fs : FS) :
    SinkInv (sinkInit store fs).lastSaved (sinkInit store fs) := by
  obtain ⟨-, -, i3, i4, i5⟩ := sinkInit_published store fs
  exact ⟨le_refl _, by rw [i5], by rw [i3]; simp, by rw [i3]; simp, by rw [i4]; simp⟩

theorem sinkLoop_no_store (env : SinkEnv) (cfg : SinkConfig) (msgs : List SinkMsg) :
    ∀ s : SinkState, s.saveCalls = [] → (sinkLoop env cfg false s msgs).1.saveCalls = [] := by
  have hsave : ∀ s : SinkState, saveCheckpointIfNeeded env false s = s := by
    intro s; simp [saveCheckpointIfNeeded]
  induction msgs with
  | nil => intro s h; exact h
  | cons m rest ih =>
    intro s h
    obtain ⟨-, -, -, -, -, e6, -⟩ := sendEvents_fields env s
    cases m with
    | ctxDone => simp only [sinkLoop, hsave]; rw [e6]; exact h
    | chanClosed => simp only [sinkLoop, hsave]; rw [e6]; exact h
    | event ev =>
      refine ih _ ?_
      cases hb : env.marshal ev with
      | none => rw [writeEvent_marshal_error env cfg s ev hb]; exact h
      | some b => rw [(writeEvent_fields env cfg s ev b hb).2.2.1]; exact h
    | flushTick => exact ih _ (by rw [e6]; exact h)
    | checkpointTick => simp only [sinkLoop, hsave]; exact ih _ h

/-- C4. Over any run of the sink (any events, any interleaving of ticks, any
pattern of publisher and save failures), the values passed to
`CheckpointStore.Save` are strictly increasing and each is greater than the
value loaded at start-up. -/
theorem sinkProcessor_saves_strictly_increasing (env : SinkEnv) (cfg : SinkConfig)
    (store : Bool) (fs : FS) (msgs : List SinkMsg) :
    (sinkProcessor env cfg store fs msgs).1.saveCalls.Pairwise (fun a b => a < b) ∧
    ∀ v ∈ (sinkProcessor env cfg store fs msgs).1.saveCalls,
      (CheckpointStore.Load fs).1 < v := by
  cases store with
  | false =>
    have h := sinkLoop_no_store env cfg.withDefaults msgs (sinkInit false fs)
      (sinkInit_published false fs).2.2.1
    unfold sinkProcessor
    rw [h]
    simp
  | true =>
    have h := SinkInv_sinkLoop env cfg.withDefaults true _ msgs _ (SinkInv_sinkInit true fs)
    rw [sinkInit_lastSaved] at h
    exact ⟨h.calls_sorted, fun v hv => (h.calls_bound v hv).1⟩

theorem sinkProcessor_saves_strictly_increasing_witness :
    (CheckpointStore.Load savedFS).1 < 12350 :=
  (sinkProcessor_saves_strictly_increasing faultyEnv ⟨0, 2⟩ true savedFS
    [.event (exampleEvent 12347), .checkpointTick, .event (exampleEvent 12346),
     .flushTick, .event (exampleEvent 12350), .chanClosed]).2 12350 (by decide)

theorem saveCheckpointIfNeeded_calls (env : SinkEnv) (store : Bool) (s : SinkState) :
    (∀ v ∈ (saveCheckpointIfNeeded env store s).saveCalls,
        v ∈ s.saveCalls ∨ s.pendingCheckpoint = some v) ∧
    (∀ p, (saveCheckpointIfNeeded env store s).pendingCheckpoint = some p →
        s.pendingCheckpoint = some p) := by
  unfold saveCheckpointIfNeeded
  split
  · exact ⟨fun v hv => Or.inl hv, fun p hp => hp⟩
  · exact ⟨fun v hv => Or.inl hv, fun p hp => hp⟩
  · rename_i confirmed hp
    dsimp only
    split
    · split <;>
        exact ⟨fun v hv => by
          rcases List.mem_append.mp hv with h | h
          · exact Or.inl h
          · simp only [List.mem_singleton] at h
            exact Or.inr (by rw [h, hp]), fun p hp => by simp at hp⟩
    · exact ⟨fun v hv => Or.inl hv, fun p hp => by simp at hp⟩

theorem FromSeen_sendEvents (env : SinkEnv) (seen : List Event) (s : SinkState)
    (h : FromSeen seen s) : FromSeen seen (sendEvents env s) := by
  obtain ⟨-, -, -, -, e5, e6, -⟩ := sendEvents_fields env s
  exact ⟨by rw [e5]; exact h.1, by rw [e6]; exact h.2⟩

theorem FromSeen_saveCheckpointIfNeeded (env : SinkEnv) (store : Bool) (seen : List Event)
    (s : SinkState) (h : FromSeen seen s) :
    FromSeen seen (saveCheckpointIfNeeded env store s) := by
  obtain ⟨c1, c2⟩ := saveCheckpointIfNeeded_calls env store s
  refine ⟨fun p hp => h.1 p (c2 p hp), fun v hv => ?_⟩
  rcases c1 v hv with hv1 | hv1
  · exact h.2 v hv1
  · exact h.1 v hv1

theorem FromSeen_mono (seen more : List Event) (s : SinkState) (h : FromSeen seen s) :
    FromSeen (seen ++ more) s := by
  refine ⟨fun p hp => ?_, fun v hv => ?_⟩
  · obtain ⟨ev, hev, he⟩ := h.1 p hp
    exact ⟨ev, List.mem_append_left _ hev, he⟩
  · obtain ⟨ev, hev, he⟩ := h.2 v hv
    exact ⟨ev, List.mem_append_left _ hev, he⟩

theorem FromSeen_writeEvent (env : SinkEnv) (cfg : SinkConfig) (seen : List Event)
    (s : SinkState) (ev : Event) (h : FromSeen seen s) :
    FromSeen (seen ++ [ev]) (writeEvent env cfg s ev) := by
  have hm := FromSeen_mono seen [ev] s h
  cases hb : env.marshal ev with
  | none =>
    rw [writeEvent_marshal_error env cfg s ev hb]
    exact hm
  | some b =>
    obtain ⟨-, -, w3, -, -, w6⟩ := writeEvent_fields env cfg s ev b hb
    refine ⟨?_, by rw [w3]; exact hm.2⟩
    rw [w6]
    intro p hp
    by_cases hc : ev.BlockNumber > s.maxSeen ∧ ev.BlockNumber > s.lastSaved
    · rw [if_pos hc] at hp
      exact ⟨ev, by simp, Option.some.inj hp⟩
    · rw [if_neg hc] at hp
      exact hm.1 p hp

theorem FromSeen_sinkLoop (env : SinkEnv) (cfg : SinkConfig) (store : Bool)
    (msgs : List SinkMsg) :
    ∀ (s : SinkState) (seen : List Event), FromSeen seen s →
      FromSeen (seen ++ receivedEvents msgs) (sinkLoop env cfg store s msgs).1 := by
  induction msgs with
  | nil => intro s seen h; simpa [sinkLoop, receivedEvents] using h
  | cons m rest ih =>
    intro s seen h
    cases m with
    | ctxDone =>
      simpa [sinkLoop, receivedEvents] using
        FromSeen_saveCheckpointIfNeeded env store seen _ (FromSeen_sendEvents env seen s h)
    | chanClosed =>
      simpa [sinkLoop, receivedEvents] using
        FromSeen_saveCheckpointIfNeeded env store seen _ (FromSeen_sendEvents env seen s h)
    | event ev =>
      have := ih _ _ (FromSeen_writeEvent env cfg seen s ev h)
      simpa [sinkLoop, receivedEvents] using this
    | flushTick =>
      simpa [sinkLoop, receivedEvents] using ih _ _ (FromSeen_sendEvents env seen s h)
    | checkpointTick =>
      simpa [sinkLoop, receivedEvents] using
        ih _ _ (FromSeen_saveCheckpointIfNeeded env store seen s h)

/-- C2 (counterexample). With nothing loaded (a fresh store) and the default
batch size, an event of block 5 followed by a checkpoint tick makes the sink
save 5 to the store while the publisher has not been called at all: the
event's payload is still waiting in the batch. -/
theorem checkpoint_saved_before_publish :
    CheckpointStore.Load FS.empty = (0, none) ∧
    (sinkProcessor exampleEnv ⟨0, 0⟩ true FS.empty
      [.event (exampleEvent 5), .checkpointTick]).1.published = [] ∧
    (sinkProcessor exampleEnv ⟨0, 0⟩ true FS.empty
      [.event (exampleEvent 5), .checkpointTick]).1.batch = ["vitalik@5"] ∧
    (sinkProcessor exampleEnv ⟨0, 0⟩ true FS.empty
      [.event (exampleEvent 5), .checkpointTick]).1.saveCalls = [5] ∧
    CheckpointStore.Load (sinkProcessor exampleEnv ⟨0, 0⟩ true FS.empty
      [.event (exampleEvent 5), .checkpointTick]).1.fs = (5, none) := by
  decide

/-- C2 (amended). At every point of a sink run (any events, any interleaving
of flush and checkpoint ticks, any failures), every value the sink has passed
to `CheckpointStore.Save` is the block number of an event the sink has
already received, so it is at most the largest block number received so far;
that event may still be waiting unpublished in the batch. -/
theorem sinkProcessor_saves_received_heights (env : SinkEnv) (cfg : SinkConfig)
    (store : Bool) (fs : FS) (msgs : List SinkMsg) :
    ∀ v ∈ (sinkProcessor env cfg store fs msgs).1.saveCalls,
      ∃ ev ∈ receivedEvents msgs, ev.BlockNumber = v := by
  obtain ⟨-, -, i3, i4, -⟩ := sinkInit_published store fs
  have h0 : FromSeen [] (sinkInit store fs) :=
    ⟨by rw [i4]; simp, by rw [i3]; simp⟩
  have h := FromSeen_sinkLoop env cfg.withDefaults store msgs _ _ h0
  simpa [sinkProcessor] using h.2

theorem sinkProcessor_saves_received_heights_witness :
    ∃ ev ∈ receivedEvents [.event (exampleEvent 5), .checkpointTick, .event (exampleEvent 3),
        .flushTick, .event (exampleEvent 9), .chanClosed],
      ev.BlockNumber = 9 :=
  sinkProcessor_saves_received_heights faultyEnv ⟨0, 2⟩ true FS.empty
    [.event (exampleEvent 5), .checkpointTick, .event (exampleEvent 3),
     .flushTick, .event (exampleEvent 9), .chanClosed] 9 (by decide)

/-- C7 (counterexample). The block numbered `0x5` without transactions,
passed through `processBlock` and the sink's event handling while `maxSeen`
is 0, produces no event and leaves `maxSeen` at 0 instead of 5. -/
theorem empty_block_does_not_advance_maxSeen :
    ParseHexUint64 asciiToLower emptyBlock.Number = .ok 5 ∧
    (sinkInit true FS.empty).maxSeen = 0 ∧
    (processBlock asciiToLower Ctx.background emptyBlock exampleIndex ⟨[], 0⟩).sent = [] ∧
    (pipelineBlock asciiToLower exampleEnv ⟨0, 0⟩ exampleIndex emptyBlock
      (sinkInit true FS.empty)).maxSeen = 0 := by
  decide

/-- C7 (amended). A block with no transactions produces zero events, whatever
its number, and passing it through the pipeline leaves the whole state of the
sink, `maxSeen` included, unchanged. -/
theorem empty_block_leaves_sink_unchanged (ToLower : String → String) (env : SinkEnv)
    (cfg : SinkConfig) (idx : AddressIndex) (ctx : Ctx) (b : Block) (s : SinkState)
    (h : b.Transactions = []) :
    (processBlock ToLower ctx b idx ⟨[], 0⟩).sent = [] ∧
    pipelineBlock ToLower env cfg idx b s = s := by
  simp [pipelineBlock, processBlock, h]

theorem empty_block_leaves_sink_unchanged_witness :
    (processBlock asciiToLower Ctx.background emptyBlock exampleIndex ⟨[], 0⟩).sent = [] ∧
    pipelineBlock asciiToLower exampleEnv ⟨0, 0⟩ exampleIndex emptyBlock
      (sinkInit true FS.empty) = sinkInit true FS.empty :=
  empty_block_leaves_sink_unchanged asciiToLower exampleEnv ⟨0, 0⟩ exampleIndex
    Ctx.background emptyBlock (sinkInit true FS.empty) rfl

/-! ### The head monitor -/

theorem HeadInv_push (S : Nat) (st : HeadState) (h : HeadInv S st) :
    HeadInv S { nextHeight := (st.nextHeight + 1) % 2 ^ 64,
                enqueued := st.enqueued ++ [st.nextHeight] } := by
  obtain ⟨h1, h2⟩ := h
  refine ⟨?_, ?_⟩
  · simp only [List.length_append, List.length_singleton]
    rw [h1]
    omega
  · simp only [List.length_append, List.length_singleton, List.range_succ, List.map_append,
      List.map_singleton]
    rw [← h2, h1]

theorem HeadInv_enqueueLoop (S head : Nat) (sel : Nat → SendOutcome) :
    ∀ (budget i : Nat) (st : HeadState), HeadInv S st →
      HeadInv S (enqueueLoop head sel budget i st).1 := by
  intro budget
  induction budget with
  | zero => intro i st h; exact h
  | succ b ih =>
    intro i st h
    unfold enqueueLoop
    split
    · split
      · exact h
      · exact ih _ _ (HeadInv_push S st h)
      · exact h
    · exact h

theorem HeadInv_headLoop (cfg : HeadMonitorConfig) (S : Nat) (msgs : List HeadMsg) :
    ∀ st : HeadState, HeadInv S st → HeadInv S (headLoop cfg st msgs).1 := by
  induction msgs with
  | nil => intro st h; exact h
  | cons m rest ih =>
    intro st h
    cases m with
    | ctxDone => exact h
    | timer head sel =>
      have ht : HeadInv S (headTick cfg head sel st).1 := by
        unfold headTick
        cases head with
        | none => exact h
        | some hd => exact HeadInv_enqueueLoop S hd sel _ _ st h
      unfold headLoop
      split
      · rename_i st1 heq
        rw [heq] at ht
        exact ht
      · rename_i st1 heq
        rw [heq] at ht
        exact ih st1 ht

theorem headMonitor_enqueued (cfg : HeadMonitorConfig) (msgs : List HeadMsg)
    (hS : cfg.StartFrom < 2 ^ 64) :
    (headMonitor cfg msgs).1.enqueued
      = (List.range (headMonitor cfg msgs).1.enqueued.length).map
          (fun k => (cfg.StartFrom + k) % 2 ^ 64) := by
  have h0 : HeadInv cfg.StartFrom ⟨cfg.StartFrom, []⟩ :=
    ⟨by simp only [List.length_nil, Nat.add_zero]; exact (Nat.mod_eq_of_lt hS).symm, by simp⟩
  exact (HeadInv_headLoop cfg cfg.StartFrom msgs _ h0).2

theorem range_map_mod_eq (S n : Nat) (h : S + n ≤ 2 ^ 64) :
    (List.range n).map (fun k => (S + k) % 2 ^ 64) = List.range' S n := by
  rw [List.range'_eq_map_range]
  apply List.map_congr_left
  intro k hk
  have := List.mem_range.mp hk
  exact Nat.mod_eq_of_lt (by omega)

/-- C9 (counterexample). Started at `2 ^ 64 - 1` with the probed head at
`2 ^ 64 - 1`, room in the queue and a cap of 2, `headMonitor` enqueues
`2 ^ 64 - 1` and then 0: the height after `startFrom` is not
`startFrom + 1`. -/
theorem headMonitor_wraps_around :
    (headMonitor ⟨1000000000, 18446744073709551615, 0, 2⟩
      [.timer (some 18446744073709551615) alwaysSent]).1.enqueued
        = [18446744073709551615, 0] ∧
    ¬ ((headMonitor ⟨1000000000, 18446744073709551615, 0, 2⟩
      [.timer (some 18446744073709551615) alwaysSent]).1.enqueued[1]?
        = some (18446744073709551615 + 1)) := by
  decide

/-- C9 (amended). Over any run of `headMonitor` (any probed heads and RPC
errors, any queue-full pattern, any cancellation), the `k`-th height it
enqueues is `(startFrom + k) mod 2 ^ 64`; as long as `startFrom + k` stays
below `2 ^ 64` the heights enqueued are `startFrom, startFrom + 1, ...` with
none repeated and none skipped. -/
theorem headMonitor_heights_consecutive (cfg : HeadMonitorConfig) (msgs : List HeadMsg)
    (hS : cfg.StartFrom < 2 ^ 64) :
    (headMonitor cfg msgs).1.enqueued
        = (List.range (headMonitor cfg msgs).1.enqueued.length).map
            (fun k => (cfg.StartFrom + k) % 2 ^ 64) ∧
    (cfg.StartFrom + (headMonitor cfg msgs).1.enqueued.length ≤ 2 ^ 64 →
      (headMonitor cfg msgs).1.enqueued
        = List.range' cfg.StartFrom (headMonitor cfg msgs).1.enqueued.length) := by
  have h := headMonitor_enqueued cfg msgs hS
  refine ⟨h, fun hle => ?_⟩
  rw [← range_map_mod_eq cfg.StartFrom _ hle]
  exact h

theorem headMonitor_heights_consecutive_witness :
    (headMonitor ⟨1000000000, 12345, 0, 2⟩
      [.timer (some 12350) alwaysSent, .timer none alwaysSent,
       .timer (some 12350) (fun i => if i = 1 then .full else .sent),
       .timer (some 12348) alwaysSent, .ctxDone]).1.enqueued
      = List.range' 12345 4 :=
  (headMonitor_heights_consecutive ⟨1000000000, 12345, 0, 2⟩
      [.timer (some 12350) alwaysSent, .timer none alwaysSent,
       .timer (some 12350) (fun i => if i = 1 then .full else .sent),
       .timer (some 12348) alwaysSent, .ctxDone] (by decide)).2 (by decide)

theorem parseUintLoop_lt (b : Nat) (cs : List Char) :
    ∀ n v, n < 2 ^ 64 → parseUintLoop b cs n = .ok v → v < 2 ^ 64 := by
  induction cs with
  | nil =>
    intro n v hn h
    simp only [parseUintLoop, Except.ok.injEq] at h
    omega
  | cons c cs ih =>
    intro n v hn h
    unfold parseUintLoop at h
    split at h
    · simp at h
    · split at h
      · simp at h
      · split at h
        · simp at h
        · dsimp only at h
          split at h
          · simp at h
          · exact ih _ v (Nat.mod_lt _ (by decide)) h

theorem ParseUint_lt (num : List Char) (b n : Nat) (h : ParseUint num b = .ok n) :
    n < 2 ^ 64 := by
  unfold ParseUint at h
  split at h
  · simp at h
  · exact parseUintLoop_lt b _ 0 _ (by decide) h

theorem Decoder.storeNumber_lt (d : Decoder) (h : d.Confirmed < 2 ^ 64) :
    d.storeNumber.Confirmed < 2 ^ 64 := by
  unfold Decoder.storeNumber
  split
  · split
    · rename_i n hn
      exact ParseUint_lt _ _ _ hn
    · exact h
  · exact h

theorem Decoder.observe_lt (d : Decoder) (c : Char) (s1 : Scanner)
    (h : d.Confirmed < 2 ^ 64) : (d.observe c s1).Confirmed < 2 ^ 64 := by
  unfold Decoder.observe
  dsimp only
  split
  · split
    · unfold Decoder.beginTop
      split <;> exact h
    · exact h
  · unfold Decoder.inKey
    split <;> first | exact h | (split <;> exact h)
  · unfold Decoder.inValue
    split
    · split
      · exact h
      · split
        · exact h
        · split
          · exact h
          · split <;> exact h
    · split
      · split
        · exact h
        · exact Decoder.storeNumber_lt d h
      · exact h
  · exact h

theorem Decoder.run_lt (cs : List Char) :
    ∀ d d1 : Decoder, d.Confirmed < 2 ^ 64 → d.run cs = some d1 → d1.Confirmed < 2 ^ 64 := by
  induction cs with
  | nil =>
    intro d d1 h hr
    simp only [Decoder.run, Option.some.injEq] at hr
    subst hr
    exact h
  | cons c cs ih =>
    intro d d1 h hr
    unfold Decoder.run at hr
    cases hn : d.next c with
    | none => rw [hn] at hr; simp at hr
    | some d2 =>
      rw [hn] at hr
      refine ih d2 d1 ?_ hr
      unfold Decoder.next at hn
      cases hs : d.scan.next c with
      | none => rw [hs] at hn; simp at hn
      | some s1 =>
        rw [hs] at hn
        simp only [Option.some.injEq] at hn
        subst hn
        exact Decoder.observe_lt d c s1 h

theorem jsonUnmarshalCheckpoint_lt (data : String) (v : Nat)
    (h : jsonUnmarshalCheckpoint data = some v) : v < 2 ^ 64 := by
  unfold jsonUnmarshalCheckpoint at h
  cases hr : Decoder.init.run data.data with
  | none => rw [hr] at h; simp at h
  | some d =>
    rw [hr] at h
    dsimp only at h
    split at h
    · simp only [Option.some.injEq] at h
      subst h
      exact Decoder.run_lt data.data Decoder.init d (by decide) hr
    · simp at h

theorem decodeCheckpoint_lt (data : String) : (decodeCheckpoint data).1 < 2 ^ 64 := by
  unfold decodeCheckpoint
  split
  · decide
  · rename_i v hv
    exact jsonUnmarshalCheckpoint_lt data v hv

theorem Load_lt (fs : FS) : (CheckpointStore.Load fs).1 < 2 ^ 64 := by
  unfold CheckpointStore.Load
  rcases fs with ⟨pr, tm⟩
  cases pr <;> cases tm <;> simp [readFile] <;> exact decodeCheckpoint_lt _

/-- C8 (counterexample). After `Save(12345)` and a restart, `Load` returns
12345, `Start` hands it to `headMonitor` as `StartFrom`, and with the head at
12345 the monitor enqueues the height 12345 itself, which is not greater than
the checkpoint. -/
theorem headMonitor_restart_emits_checkpoint :
    CheckpointStore.Load savedFS = (12345, none) ∧
    (headMonitor (startHeadConfig savedFS) [.timer (some 12345) alwaysSent]).1.enqueued
      = [12345] ∧
    ¬ (∀ h ∈ (headMonitor (startHeadConfig savedFS)
          [.timer (some 12345) alwaysSent]).1.enqueued, 12345 < h) := by
  decide

/-- C8 (amended). After a restart that loads checkpoint `v`, `headMonitor`
starts at `v`: the first height it enqueues is `v` itself, so block `v` is
fetched and its events are published again; and, as long as the heights do not
wrap around `2 ^ 64`, every height it enqueues is at least `v`. -/
theorem headMonitor_restart_from_checkpoint (fs : FS) (msgs : List HeadMsg) :
    (∀ h, (headMonitor (startHeadConfig fs) msgs).1.enqueued.head? = some h →
        h = (CheckpointStore.Load fs).1) ∧
    ((CheckpointStore.Load fs).1 + (headMonitor (startHeadConfig fs) msgs).1.enqueued.length
        ≤ 2 ^ 64 →
      ∀ h ∈ (headMonitor (startHeadConfig fs) msgs).1.enqueued,
        (CheckpointStore.Load fs).1 ≤ h) := by
  have hS : (startHeadConfig fs).StartFrom < 2 ^ 64 := Load_lt fs
  obtain ⟨h1, h2⟩ := headMonitor_heights_consecutive (startHeadConfig fs) msgs hS
  have hv : (startHeadConfig fs).StartFrom = (CheckpointStore.Load fs).1 := rfl
  rw [hv] at h1 h2
  refine ⟨?_, ?_⟩
  · intro h hh
    rw [h1] at hh
    cases hlen : (headMonitor (startHeadConfig fs) msgs).1.enqueued.length with
    | zero => rw [hlen] at hh; simp at hh
    | succ n =>
      rw [hlen, List.range_succ_eq_map] at hh
      simp only [List.map_cons, List.head?_cons, Option.some.injEq, Nat.add_zero] at hh
      rw [← hh]
      exact Nat.mod_eq_of_lt (Load_lt fs)
  · intro hle h hh
    rw [h2 hle] at hh
    exact (List.mem_range'_1.mp hh).1

theorem headMonitor_restart_from_checkpoint_witness :
    ∀ h ∈ (headMonitor (startHeadConfig savedFS)
        [.timer (some 12347) alwaysSent, .ctxDone]).1.enqueued,
      (CheckpointStore.Load savedFS).1 ≤ h :=
  (headMonitor_restart_from_checkpoint savedFS
      [.timer (some 12347) alwaysSent, .ctxDone]).2 (by decide)

/-! ### The back-off -/

theorem excessBits_small (n : Nat) (h : n < 2 ^ 53) : excessBits n = 0 := by
  have hr : List.range 12 = 0 :: List.range' 1 11 := by decide
  have hd : (fun s => decide (n < 2 ^ (53 + s))) 0 = true := by simpa using h
  have hf : List.find? (fun s => decide (n < 2 ^ (53 + s))) (0 :: List.range' 1 11) = some 0 :=
    List.find?_cons_of_pos _ hd
  unfold excessBits
  rw [hr, hf]
  rfl

theorem float64OfInt64_exact (x : Int) (h : x.natAbs < 2 ^ 53) : float64OfInt64 x = x := by
  unfold float64OfInt64 roundNat53
  rw [excessBits_small _ h]
  simp only [if_true]
  split <;> omega

set_option exponentiation.threshold 2048 in
/-- Where the back-off is exact: without jitter, for a base below `2 ^ 53` in
absolute value and an attempt whose product `base * 2 ^ attempt` fits an
`int64`, `backoffWithJitter` returns `min (base * 2 ^ attempt) max` on every
platform. -/
theorem backoffWithJitter_exact (ovf : F64 → Int) (randomScale : Int → Int)
    (cfg : BlockFetcherConfig) (attempt : Nat) (hj : cfg.Jitter ≤ 0)
    (hb : cfg.RetryBaseDelay.natAbs < 2 ^ 53) (ha : attempt < 1024)
    (hlo : -(2 ^ 63) ≤ cfg.RetryBaseDelay * 2 ^ attempt)
    (hhi : cfg.RetryBaseDelay * 2 ^ attempt < 2 ^ 63) :
    backoffWithJitter ovf randomScale cfg attempt
      = min (cfg.RetryBaseDelay * 2 ^ attempt) cfg.RetryMaxDelay := by
  have hfin : cfg.RetryBaseDelay.natAbs * 2 ^ attempt < 2 ^ 1024 := by
    have h1 : (cfg.RetryBaseDelay * 2 ^ attempt).natAbs ≤ 2 ^ 63 := by omega
    rw [Int.natAbs_mul, Int.natAbs_pow] at h1
    have h2 : (2 : Nat) ^ 63 < 2 ^ 1024 := Nat.pow_lt_pow_right (by decide) (by decide)
    simp only [Int.reduceAbs, Int.natAbs_ofNat] at h1
    omega
  unfold backoffWithJitter
  rw [float64OfInt64_exact _ hb]
  simp only [scaleByPow2, ha, if_true, hfin, int64OfFloat64, hlo, hhi, and_self, hj]
  rw [min_def]
  split <;> split <;> omega

set_option exponentiation.threshold 2048 in
set_option maxRecDepth 100000 in
theorem backoffWithJitter_test_values :
    backoffWithJitter amd64Overflow id ⟨8, 10000000000, 100000000, 1000000000, 0⟩ 0
      = 100000000 ∧
    backoffWithJitter amd64Overflow id ⟨8, 10000000000, 100000000, 1000000000, 0⟩ 1
      = 200000000 ∧
    backoffWithJitter amd64Overflow id ⟨8, 10000000000, 100000000, 1000000000, 0⟩ 2
      = 400000000 ∧
    backoffWithJitter amd64Overflow id ⟨8, 10000000000, 100000000, 200000000, 0⟩ 10
      = 200000000 := by
  decide

set_option exponentiation.threshold 2048 in
set_option maxRecDepth 100000 in
/-- C10 (the code at the failing inputs). With base 100 ms, cap 200 ms and no
jitter, attempt 37 makes `base * 2 ^ attempt` exceed the `int64` range; on
amd64 the conversion yields the smallest `int64`, the cap test
`base > RetryMaxDelay` is false and the function returns
`-9223372036854775808` ns instead of the cap 200 ms.  One attempt earlier the
cap still applies.  And on every platform a base of `2 ^ 53 + 1` ns is rounded
by `float64(...)`, so attempt 0 returns `2 ^ 53` instead of the base. -/
theorem backoffWithJitter_overflow :
    backoffWithJitter amd64Overflow id ⟨8, 10000000000, 100000000, 200000000, 0⟩ 36
      = 200000000 ∧
    backoffWithJitter amd64Overflow id ⟨8, 10000000000, 100000000, 200000000, 0⟩ 37
      = -9223372036854775808 ∧
    min ((100000000 : Int) * 2 ^ 37) 200000000 = 200000000 ∧
    (∀ ovf : F64 → Int,
      backoffWithJitter ovf id ⟨8, 10000000000, 9007199254740993, 4611686018427387904, 0⟩ 0
        = 9007199254740992) ∧
    min ((9007199254740993 : Int) * 2 ^ 0) 4611686018427387904 = 9007199254740993 := by
  refine ⟨by decide, by decide, by decide, fun ovf => rfl, by decide⟩

/-! ### The filter: matching sides, absent `to`, undecodable number -/

/-- C12. In a block with a decodable number `n`, a transaction whose
lower-cased `from` and lower-cased `to` both hit the index contributes exactly
two events, the one carrying the `from` address's userID immediately followed
by the one carrying the `to` address's userID, between the events of the
transactions before it and those of the transactions after it. -/
theorem processBlock_both_sides_match (ToLower : String → String) (idx : AddressIndex)
    (b : Block) (n : Nat) (hn : ParseHexUint64 ToLower b.Number = .ok n)
    (pre post : List Transaction) (t : Transaction) (a : String)
    (hb : b.Transactions = pre ++ t :: post) (hto : t.To = some a)
    (hf : (idx.Lookup (ToLower t.From)).2 = true)
    (ht : (idx.Lookup (ToLower a)).2 = true) :
    (processBlock ToLower Ctx.background b idx ⟨[], 0⟩).sent
      = pre.flatMap (sideEvents ToLower idx n) ++
        [{ UserID := (idx.Lookup (ToLower t.From)).1, From := t.From, To := ToLower a,
           AmountWei := t.Value, TxHash := t.Hash, BlockNumber := n },
         { UserID := (idx.Lookup (ToLower a)).1, From := t.From, To := ToLower a,
           AmountWei := t.Value, TxHash := t.Hash, BlockNumber := n }] ++
        post.flatMap (sideEvents ToLower idx n) := by
  have h := foldl_processTx_sent ToLower b idx n hn b.Transactions ⟨[], 0⟩
  have hside : sideEvents ToLower idx n t
      = [{ UserID := (idx.Lookup (ToLower t.From)).1, From := t.From, To := ToLower a,
           AmountWei := t.Value, TxHash := t.Hash, BlockNumber := n },
         { UserID := (idx.Lookup (ToLower a)).1, From := t.From, To := ToLower a,
           AmountWei := t.Value, TxHash := t.Hash, BlockNumber := n }] := by
    simp [sideEvents, hto, hf, ht]
  unfold processBlock
  rw [h, hb]
  simp [List.flatMap_append, hside]

theorem processBlock_both_sides_match_witness :
    (processBlock asciiToLower Ctx.background bothSidesBlock exampleIndex ⟨[], 0⟩).sent
      = [{ UserID := "binance", From := "0x742D35Cc6634C0532925a3b8D0C0C2C0c0C0c0C0",
           To := "0xd8da6bf26964af9d7eed9e03e53415d37aa96045", AmountWei := "0x2",
           TxHash := "0xtx2", BlockNumber := 12345 },
         { UserID := "vitalik", From := "0x742D35Cc6634C0532925a3b8D0C0C2C0c0C0c0C0",
           To := "0xd8da6bf26964af9d7eed9e03e53415d37aa96045", AmountWei := "0x2",
           TxHash := "0xtx2", BlockNumber := 12345 }] := by
  rw [processBlock_both_sides_match asciiToLower exampleIndex bothSidesBlock 12345 (by decide)
    [{ Hash := "0xtx1", From := "0x1111111111111111111111111111111111111111",
       To := none, Value := "0x1" }]
    [{ Hash := "0xtx3", From := "0x2222222222222222222222222222222222222222",
       To := some "0x3333333333333333333333333333333333333333", Value := "0x3" }]
    { Hash := "0xtx2", From := "0x742D35Cc6634C0532925a3b8D0C0C2C0c0C0c0C0",
      To := some "0xd8dA6BF26964aF9D7eEd9e03E53415D37aA96045", Value := "0x2" }
    "0xd8dA6BF26964aF9D7eEd9e03E53415D37aA96045" rfl rfl (by decide) (by decide)]
  decide

/-- C13 (counterexample). With an index that has the empty string as a key, a
transaction without `to` whose `from` matches makes `processBlock` send two
events: after the `from`-side event it looks the empty string up and sends a
second event carrying that key's userID. -/
theorem processBlock_absent_to_empty_key :
    (processBlock asciiToLower Ctx.background nilToBlock emptyKeyIndex ⟨[], 0⟩).sent
      = [{ UserID := "vitalik", From := "0xd8dA6BF26964aF9D7eEd9e03E53415D37aA96045",
           To := "", AmountWei := "0xde0b6b3a7640000", TxHash := "0xtx123",
           BlockNumber := 12345 },
         { UserID := "nobody", From := "0xd8dA6BF26964aF9D7eEd9e03E53415D37aA96045",
           To := "", AmountWei := "0xde0b6b3a7640000", TxHash := "0xtx123",
           BlockNumber := 12345 }] ∧
    (processBlock asciiToLower Ctx.background nilToBlock emptyKeyIndex ⟨[], 0⟩).sent.length
      ≠ 1 := by
  decide

/-- C13 (amended). In a block with a decodable number `n`, for every index
in which the empty string is not a key, a transaction whose `to` is absent
and whose lower-cased `from` hits the index contributes exactly one event, and
that event's `To` field is the empty string. -/
theorem processBlock_absent_to (ToLower : String → String) (idx : AddressIndex)
    (b : Block) (n : Nat) (hn : ParseHexUint64 ToLower b.Number = .ok n)
    (pre post : List Transaction) (t : Transaction)
    (hb : b.Transactions = pre ++ t :: post) (hto : t.To = none)
    (hf : (idx.Lookup (ToLower t.From)).2 = true)
    (hempty : (idx.Lookup "").2 = false) :
    (processBlock ToLower Ctx.background b idx ⟨[], 0⟩).sent
      = pre.flatMap (sideEvents ToLower idx n) ++
        [{ UserID := (idx.Lookup (ToLower t.From)).1, From := t.From, To := "",
           AmountWei := t.Value, TxHash := t.Hash, BlockNumber := n }] ++
        post.flatMap (sideEvents ToLower idx n) := by
  have h := foldl_processTx_sent ToLower b idx n hn b.Transactions ⟨[], 0⟩
  have hside : sideEvents ToLower idx n t
      = [{ UserID := (idx.Lookup (ToLower t.From)).1, From := t.From, To := "",
           AmountWei := t.Value, TxHash := t.Hash, BlockNumber := n }] := by
    simp [sideEvents, hto, hf, hempty]
  unfold processBlock
  rw [h, hb]
  simp [List.flatMap_append, hside]

theorem processBlock_absent_to_witness :
    (processBlock asciiToLower Ctx.background nilToBlock exampleIndex ⟨[], 0⟩).sent
      = [{ UserID := "vitalik", From := "0xd8dA6BF26964aF9D7eEd9e03E53415D37aA96045",
           To := "", AmountWei := "0xde0b6b3a7640000", TxHash := "0xtx123",
           BlockNumber := 12345 }] := by
  rw [processBlock_absent_to asciiToLower exampleIndex nilToBlock 12345 (by decide) [] []
    { Hash := "0xtx123", From := "0xd8dA6BF26964aF9D7eEd9e03E53415D37aA96045",
      To := none, Value := "0xde0b6b3a7640000" } rfl rfl (by decide) (by decide)]
  decide

theorem processTx_undecodable (ToLower : String → String) (ctx : Ctx) (b : Block)
    (idx : AddressIndex) (e : NumError) (he : ParseHexUint64 ToLower b.Number = .error e)
    (ch : EventsChan) (t : Transaction) : processTx ToLower ctx b idx ch t = ch := by
  simp [processTx, he]

/-- C14. For a block whose `number` is not decodable by `ParseHexUint64`,
whatever its transactions, the index and the context, `processBlock` sends
nothing: the events channel is exactly as it was. -/
theorem processBlock_undecodable_number (ToLower : String → String) (ctx : Ctx) (b : Block)
    (idx : AddressIndex) (e : NumError) (he : ParseHexUint64 ToLower b.Number = .error e)
    (ch : EventsChan) :
    processBlock ToLower ctx b idx ch = ch ∧
    (processBlock ToLower ctx b idx ⟨[], 0⟩).sent = [] := by
  have hfold : ∀ (txs : List Transaction) (c : EventsChan),
      txs.foldl (processTx ToLower ctx b idx) c = c := by
    intro txs
    induction txs with
    | nil => intro c; rfl
    | cons t ts ih =>
      intro c
      rw [List.foldl_cons, processTx_undecodable ToLower ctx b idx e he, ih]
  unfold processBlock
  exact ⟨hfold _ _, by rw [hfold]⟩

theorem processBlock_undecodable_number_witness :
    (processBlock asciiToLower Ctx.background invalidNumberBlock exampleIndex ⟨[], 0⟩).sent
      = [] :=
  (processBlock_undecodable_number asciiToLower Ctx.background invalidNumberBlock exampleIndex
    .syntaxErr (by decide) ⟨[], 0⟩).2

/-! ### The sink: flush, commit, out-of-order events -/

/-- C17. A flush hands every payload of the batch to the publisher exactly
once, in batch order, whatever errors the publisher returns on the way (an
error is only logged), and leaves the batch empty; nothing else of the sink's
state changes. -/
theorem sendEvents_publishes_whole_batch (env : SinkEnv) (s : SinkState) :
    (sendEvents env s).published = s.published ++ s.batch ∧
    (sendEvents env s).batch = [] ∧
    (sendEvents env s).lastSaved = s.lastSaved ∧
    (sendEvents env s).maxSeen = s.maxSeen ∧
    (sendEvents env s).pendingCheckpoint = s.pendingCheckpoint ∧
    (sendEvents env s).saveCalls = s.saveCalls := by
  obtain ⟨e1, e2, e3, e4, e5, e6, -⟩ := sendEvents_fields env s
  exact ⟨e2, e1, e3, e4, e5, e6⟩

theorem saveCheckpointIfNeeded_no_store (env : SinkEnv) (s : SinkState) :
    saveCheckpointIfNeeded env false s = s := by
  simp [saveCheckpointIfNeeded]

theorem saveCheckpointIfNeeded_none (env : SinkEnv) (s : SinkState)
    (h : s.pendingCheckpoint = none) : saveCheckpointIfNeeded env true s = s := by
  unfold saveCheckpointIfNeeded
  rw [h]

theorem saveCheckpointIfNeeded_not_above (env : SinkEnv) (s : SinkState) (p : Nat)
    (h : s.pendingCheckpoint = some p) (hle : ¬ p > s.lastSaved) :
    saveCheckpointIfNeeded env true s = { s with pendingCheckpoint := none } := by
  unfold saveCheckpointIfNeeded
  rw [h]
  simp only [hle, if_false]

theorem saveCheckpointIfNeeded_above (env : SinkEnv) (s : SinkState) (p : Nat)
    (h : s.pendingCheckpoint = some p) (hgt : p > s.lastSaved) :
    saveCheckpointIfNeeded env true s
      = { s with
          fs := (CheckpointStore.Save (env.saveFault s.saveCalls.length) s.fs p).1
          saveCalls := s.saveCalls ++ [p]
          lastSaved :=
            if (CheckpointStore.Save (env.saveFault s.saveCalls.length) s.fs p).2 = none
            then p else s.lastSaved
          logged :=
            if (CheckpointStore.Save (env.saveFault s.saveCalls.length) s.fs p).2 = none
            then s.logged else s.logged + 1
          pendingCheckpoint := none } := by
  unfold saveCheckpointIfNeeded
  rw [h]
  simp only [hgt, if_true]
  cases hres : CheckpointStore.Save (env.saveFault s.saveCalls.length) s.fs p with
  | mk fs1 err =>
    cases err <;> simp

/-- C16 (counterexample). Run without a store, as in the repository's sink
tests, the sink sets `pendingCheckpoint` to 12345 when the event arrives, and
the checkpoint commit that follows returns at its first guard: `Save` is not
called although `pendingCheckpoint` is set and above `lastSaved`, and
`pendingCheckpoint` is still set after the commit. -/
theorem commit_without_store_keeps_pending :
    (sinkProcessor exampleEnv ⟨0, 5⟩ false FS.empty
      [.event (exampleEvent 12345)]).1.pendingCheckpoint = some 12345 ∧
    (sinkProcessor exampleEnv ⟨0, 5⟩ false FS.empty
      [.event (exampleEvent 12345)]).1.lastSaved = 0 ∧
    (sinkProcessor exampleEnv ⟨0, 5⟩ false FS.empty
      [.event (exampleEvent 12345), .checkpointTick]).1.saveCalls = [] ∧
    (sinkProcessor exampleEnv ⟨0, 5⟩ false FS.empty
      [.event (exampleEvent 12345), .checkpointTick]).1.pendingCheckpoint = some 12345 := by
  decide

/-- C16 (amended). With a store, a checkpoint commit calls
`CheckpointStore.Save(p)` exactly when `pendingCheckpoint` is set to `p` and
`p > lastSaved`; `lastSaved` becomes `p` when that `Save` succeeds and is
unchanged when it fails or is not called; `pendingCheckpoint` is unset after
the commit in every case; `maxSeen`, the batch and the published payloads are
unchanged.  Without a store the commit changes nothing, `pendingCheckpoint`
included. -/
theorem saveCheckpointIfNeeded_commit (env : SinkEnv) (s : SinkState) :
    saveCheckpointIfNeeded env false s = s ∧
    (saveCheckpointIfNeeded env true s).pendingCheckpoint = none ∧
    (saveCheckpointIfNeeded env true s).maxSeen = s.maxSeen ∧
    (saveCheckpointIfNeeded env true s).batch = s.batch ∧
    (saveCheckpointIfNeeded env true s).published = s.published ∧
    (∀ p, s.pendingCheckpoint = some p → p > s.lastSaved →
      (saveCheckpointIfNeeded env true s).saveCalls = s.saveCalls ++ [p] ∧
      (saveCheckpointIfNeeded env true s).fs
        = (CheckpointStore.Save (env.saveFault s.saveCalls.length) s.fs p).1 ∧
      ((CheckpointStore.Save (env.saveFault s.saveCalls.length) s.fs p).2 = none →
        (saveCheckpointIfNeeded env true s).lastSaved = p) ∧
      ((CheckpointStore.Save (env.saveFault s.saveCalls.length) s.fs p).2 ≠ none →
        (saveCheckpointIfNeeded env true s).lastSaved = s.lastSaved)) ∧
    ((s.pendingCheckpoint = none ∨ ∃ p, s.pendingCheckpoint = some p ∧ ¬ p > s.lastSaved) →
      (saveCheckpointIfNeeded env true s).saveCalls = s.saveCalls ∧
      (saveCheckpointIfNeeded env true s).fs = s.fs ∧
      (saveCheckpointIfNeeded env true s).lastSaved = s.lastSaved) := by
  refine ⟨saveCheckpointIfNeeded_no_store env s, ?_⟩
  cases hp : s.pendingCheckpoint with
  | none =>
    rw [saveCheckpointIfNeeded_none env s hp]
    refine ⟨hp, rfl, rfl, rfl, ?_, fun _ => ⟨rfl, rfl, rfl⟩⟩
    intro p h
    simp at h
  | some q =>
    by_cases hgt : q > s.lastSaved
    · rw [saveCheckpointIfNeeded_above env s q hp hgt]
      refine ⟨rfl, rfl, rfl, rfl, ?_, ?_⟩
      · intro p h hpgt
        have hqp : q = p := Option.some.inj h
        subst hqp
        refine ⟨rfl, rfl, fun hok => ?_, fun herr => ?_⟩
        · simp only [hok, if_true]
        · simp only [herr, if_false]
      · intro h
        rcases h with h | ⟨p, h1, h2⟩
        · simp at h
        · have hqp : q = p := Option.some.inj h1
          subst hqp
          exact absurd hgt h2
    · rw [saveCheckpointIfNeeded_not_above env s q hp hgt]
      refine ⟨rfl, rfl, rfl, rfl, ?_, fun _ => ⟨rfl, rfl, rfl⟩⟩
      intro p h hpgt
      have hqp : q = p := Option.some.inj h
      subst hqp
      exact absurd hpgt hgt

theorem saveCheckpointIfNeeded_commit_witness :
    (saveCheckpointIfNeeded faultyEnv true
      (sinkProcessor faultyEnv ⟨0, 5⟩ true FS.empty
        [.event (exampleEvent 12345)]).1).pendingCheckpoint = none :=
  (saveCheckpointIfNeeded_commit faultyEnv
    (sinkProcessor faultyEnv ⟨0, 5⟩ true FS.empty [.event (exampleEvent 12345)]).1).2.1

theorem Save_ok_of_good (fs : FS) (v : Nat) (hp : fs.primary ≠ .dir) (ht : fs.tmp ≠ .dir) :
    CheckpointStore.Save .ok fs v = (⟨.file (jsonMarshalCheckpoint v), .missing⟩, none) := by
  rcases fs with ⟨pr, tm⟩
  cases pr <;> cases tm <;> simp_all [CheckpointStore.Save, SaveFault.ok, writeFile]

theorem SinkSynced_sendEvents (env : SinkEnv) (s : SinkState) (h : SinkSynced s) :
    SinkSynced (sendEvents env s) := by
  obtain ⟨-, -, e3, e4, e5, -, e7⟩ := sendEvents_fields env s
  exact ⟨by rw [e7]; exact h.primary_ok, by rw [e7]; exact h.tmp_ok,
    by rw [e3, e4]; exact h.saved_le, by rw [e3, e4, e5]; exact h.caught_up,
    by rw [e4, e5]; exact h.pending_eq⟩

theorem SinkSynced_writeEvent (env : SinkEnv) (cfg : SinkConfig) (s : SinkState) (ev : Event)
    (h : SinkSynced s) : SinkSynced (writeEvent env cfg s ev) := by
  cases hb : env.marshal ev with
  | none =>
    rw [writeEvent_marshal_error env cfg s ev hb]
    exact ⟨h.primary_ok, h.tmp_ok, h.saved_le, h.caught_up, h.pending_eq⟩
  | some b =>
    obtain ⟨-, w2, -, w4, w5, w6⟩ := writeEvent_fields env cfg s ev b hb
    have h1 := h.saved_le
    refine ⟨by rw [w4]; exact h.primary_ok, by rw [w4]; exact h.tmp_ok,
      by rw [w2, w5]; omega, ?_, ?_⟩
    · rw [w6, w2, w5]
      intro hnone
      by_cases hc : ev.BlockNumber > s.maxSeen ∧ ev.BlockNumber > s.lastSaved
      · rw [if_pos hc] at hnone
        simp at hnone
      · rw [if_neg hc] at hnone
        have := h.caught_up hnone
        omega
    · rw [w6, w5]
      intro p hp
      by_cases hc : ev.BlockNumber > s.maxSeen ∧ ev.BlockNumber > s.lastSaved
      · rw [if_pos hc] at hp
        have hpe : ev.BlockNumber = p := Option.some.inj hp
        omega
      · rw [if_neg hc] at hp
        have := h.pending_eq p hp
        omega

theorem SinkSynced_saveCheckpointIfNeeded (env : SinkEnv) (hf : ∀ k, env.saveFault k = .ok)
    (s : SinkState) (h : SinkSynced s) :
    SinkSynced (saveCheckpointIfNeeded env true s) ∧
    (saveCheckpointIfNeeded env true s).pendingCheckpoint = none ∧
    (saveCheckpointIfNeeded env true s).maxSeen = s.maxSeen := by
  have h1 := h.saved_le
  cases hp : s.pendingCheckpoint with
  | none =>
    rw [saveCheckpointIfNeeded_none env s hp]
    exact ⟨h, hp, rfl⟩
  | some q =>
    have hq := h.pending_eq q hp
    by_cases hgt : q > s.lastSaved
    · rw [saveCheckpointIfNeeded_above env s q hp hgt, hf,
        Save_ok_of_good s.fs q h.primary_ok h.tmp_ok]
      refine ⟨⟨by simp, by simp, ?_, ?_, by simp⟩, rfl, rfl⟩
      · simp only [if_true]; omega
      · intro _; simp only [if_true]; exact hq
    · rw [saveCheckpointIfNeeded_not_above env s q hp hgt]
      refine ⟨⟨h.primary_ok, h.tmp_ok, h1, ?_, by simp⟩, rfl, rfl⟩
      intro _
      show s.lastSaved = s.maxSeen
      omega

theorem receivedEvents_append_tick (msgs : List SinkMsg) :
    receivedEvents (msgs ++ [.checkpointTick]) = receivedEvents msgs := by
  induction msgs with
  | nil => rfl
  | cons m rest ih => cases m <;> simp [receivedEvents, ih]

theorem sinkLoop_synced (env : SinkEnv) (cfg : SinkConfig)
    (hm : ∀ e, (env.marshal e).isSome = true) (hf : ∀ k, env.saveFault k = .ok)
    (msgs : List SinkMsg) :
    ∀ s : SinkState, SinkSynced s →
      SinkSynced (sinkLoop env cfg true s (msgs ++ [.checkpointTick])).1 ∧
      (sinkLoop env cfg true s (msgs ++ [.checkpointTick])).1.pendingCheckpoint = none ∧
      (sinkLoop env cfg true s (msgs ++ [.checkpointTick])).1.maxSeen
        = maxBlock s.maxSeen (receivedEvents msgs) := by
  induction msgs with
  | nil =>
    intro s h
    obtain ⟨a, b, c⟩ := SinkSynced_saveCheckpointIfNeeded env hf s h
    exact ⟨a, b, by simpa [sinkLoop, receivedEvents, maxBlock] using c⟩
  | cons m rest ih =>
    intro s h
    cases m with
    | ctxDone =>
      obtain ⟨a, b, c⟩ :=
        SinkSynced_saveCheckpointIfNeeded env hf _ (SinkSynced_sendEvents env s h)
      refine ⟨a, b, ?_⟩
      simp only [List.cons_append, sinkLoop, receivedEvents, maxBlock, List.foldl_nil]
      rw [c, (sendEvents_fields env s).2.2.2.1]
    | chanClosed =>
      obtain ⟨a, b, c⟩ :=
        SinkSynced_saveCheckpointIfNeeded env hf _ (SinkSynced_sendEvents env s h)
      refine ⟨a, b, ?_⟩
      simp only [List.cons_append, sinkLoop, receivedEvents, maxBlock, List.foldl_nil]
      rw [c, (sendEvents_fields env s).2.2.2.1]
    | event ev =>
      have e : sinkLoop env cfg true s (SinkMsg.event ev :: rest ++ [.checkpointTick])
          = sinkLoop env cfg true (writeEvent env cfg s ev) (rest ++ [.checkpointTick]) := rfl
      obtain ⟨a, b, c⟩ := ih _ (SinkSynced_writeEvent env cfg s ev h)
      obtain ⟨pl, hpl⟩ := Option.isSome_iff_exists.mp (hm ev)
      rw [e]
      refine ⟨a, b, ?_⟩
      rw [c, (writeEvent_fields env cfg s ev pl hpl).2.2.2.2.1]
      rfl
    | flushTick =>
      have e : sinkLoop env cfg true s (SinkMsg.flushTick :: rest ++ [.checkpointTick])
          = sinkLoop env cfg true (sendEvents env s) (rest ++ [.checkpointTick]) := rfl
      obtain ⟨a, b, c⟩ := ih _ (SinkSynced_sendEvents env s h)
      rw [e]
      refine ⟨a, b, ?_⟩
      rw [c, (sendEvents_fields env s).2.2.2.1]
      rfl
    | checkpointTick =>
      have e : sinkLoop env cfg true s (SinkMsg.checkpointTick :: rest ++ [.checkpointTick])
          = sinkLoop env cfg true (saveCheckpointIfNeeded env true s)
              (rest ++ [.checkpointTick]) := rfl
      obtain ⟨a1, -, c1⟩ := SinkSynced_saveCheckpointIfNeeded env hf s h
      obtain ⟨a, b, c⟩ := ih _ a1
      rw [e]
      refine ⟨a, b, ?_⟩
      rw [c, c1]
      rfl

/-- C15. For a sink with a store whose saves all succeed and on which every
event serialises, whatever value `c` was loaded at start-up, whatever the
order of the events' block numbers and however flush and checkpoint ticks are
interleaved, after the whole sequence followed by a checkpoint commit both
`maxSeen` and `lastSaved` equal the maximum of `c` and the block numbers of
the events received, and no checkpoint is pending. -/
theorem sinkProcessor_checkpoint_reaches_maximum (env : SinkEnv) (cfg : SinkConfig) (fs : FS)
    (msgs : List SinkMsg) (hm : ∀ e, (env.marshal e).isSome = true)
    (hf : ∀ k, env.saveFault k = .ok) (hp : fs.primary ≠ .dir) (ht : fs.tmp ≠ .dir) :
    (sinkProcessor env cfg true fs (msgs ++ [.checkpointTick])).1.maxSeen
      = maxBlock (CheckpointStore.Load fs).1 (receivedEvents msgs) ∧
    (sinkProcessor env cfg true fs (msgs ++ [.checkpointTick])).1.lastSaved
      = maxBlock (CheckpointStore.Load fs).1 (receivedEvents msgs) ∧
    (sinkProcessor env cfg true fs (msgs ++ [.checkpointTick])).1.pendingCheckpoint = none := by
  obtain ⟨i1, i2, i3, i4, i5⟩ := sinkInit_published true fs
  have hfs : (sinkInit true fs).fs = fs := by
    unfold sinkInit
    simp only [if_true]
    split <;> rfl
  have h0 : SinkSynced (sinkInit true fs) :=
    ⟨by rw [hfs]; exact hp, by rw [hfs]; exact ht, by rw [i5], fun _ => i5,
      fun p hpp => by rw [i4] at hpp; simp at hpp⟩
  obtain ⟨a, b, c⟩ := sinkLoop_synced env cfg.withDefaults hm hf msgs _ h0
  rw [← i5, sinkInit_lastSaved] at c
  unfold sinkProcessor
  exact ⟨c, by rw [a.caught_up b, c], b⟩

theorem sinkProcessor_checkpoint_reaches_maximum_witness :
    (sinkProcessor exampleEnv ⟨0, 2⟩ true savedFS
        ([.event (exampleEvent 12350), .checkpointTick, .event (exampleEvent 12347),
          .flushTick, .event (exampleEvent 12349)] ++ [.checkpointTick])).1.lastSaved
      = 12350 := by
  rw [(sinkProcessor_checkpoint_reaches_maximum exampleEnv ⟨0, 2⟩ savedFS
    [.event (exampleEvent 12350), .checkpointTick, .event (exampleEvent 12347),
     .flushTick, .event (exampleEvent 12349)]
    (fun _ => rfl) (fun _ => rfl) (by decide) (by decide)).2.1]
  decide

/-! ### The checkpoint store: failed saves and the cases of `Load` -/

theorem writeFile_ok_node (fault : WriteFault) (node : Node) (data : String) (tmp1 : Node)
    (h : writeFile fault node data = (tmp1, false)) : tmp1 = .file data := by
  cases node <;> cases fault <;> simp [writeFile] at h <;> exact h.symm

theorem take_min_length {α : Type} (k : Nat) (l : List α) :
    l.take (min k l.length) = l.take k := by
  rcases Nat.le_total k l.length with h | h
  · rw [Nat.min_eq_left h]
  · rw [Nat.min_eq_right h, List.take_length, List.take_of_length_le h]

theorem writeFileSteps_last (fault : WriteFault) (node : Node) (data : String) :
    ∀ t, (writeFileSteps fault node data).getLast? = some t →
      t = (writeFile fault node data).1 := by
  intro t ht
  have hfull : (⟨List.take data.data.length data.data⟩ : String) = data := by
    rw [List.take_length]
  cases node <;> cases fault <;>
    simp only [writeFileSteps, writeFile, List.range_succ, List.map_append, List.map_singleton,
      List.getLast?_append, List.getLast?_singleton, List.getLast?_nil, Option.or_some,
      Option.some.injEq, take_min_length, hfull, reduceCtorEq] at ht ⊢ <;>
    exact ht.symm

theorem getLast?_cons_append_singleton {α : Type} (a x : α) (l : List α) :
    (a :: (l ++ [x])).getLast? = some x := by
  rw [← List.cons_append, List.getLast?_append]
  rfl

theorem writeFileSteps_nil (fault : WriteFault) (node : Node) (data : String)
    (h : writeFileSteps fault node data = []) : (writeFile fault node data).1 = node := by
  cases node <;> cases fault <;>
    simp [writeFileSteps, writeFile, List.range_succ] at h ⊢

theorem SaveSteps_write_last (fault : WriteFault) (fs : FS) (data : String) :
    (fs :: (writeFileSteps fault fs.tmp data).map (fun t => ({ fs with tmp := t } : FS))).getLast?
      = some { fs with tmp := (writeFile fault fs.tmp data).1 } := by
  rw [List.getLast?_cons, List.getLast?_map]
  cases hl : (writeFileSteps fault fs.tmp data).getLast? with
  | none =>
    have hnil : writeFileSteps fault fs.tmp data = [] := by
      cases hs : writeFileSteps fault fs.tmp data with
      | nil => rfl
      | cons t ts =>
        rw [hs] at hl
        have := List.getLast?_isSome.mpr (List.cons_ne_nil t ts)
        rw [hl] at this
        simp at this
    rw [writeFileSteps_nil fault fs.tmp data hnil]
    rfl
  | some t =>
    rw [writeFileSteps_last fault fs.tmp data t hl]
    rfl

theorem mem_writeFileSteps_tmp (fault : SaveFault) (fs : FS) (data : String) :
    ∀ st ∈ (writeFileSteps fault.write fs.tmp data).map (fun t => ({ fs with tmp := t } : FS)),
      st.primary = fs.primary := by
  intro st hst
  obtain ⟨t, -, rfl⟩ := List.mem_map.mp hst
  rfl

/-- C18. For every store state, every fault and every `v`: if `Save(v)`
returns an error the primary file is what it was before the call; and in
every state the call passes through, from the first byte written to the
temporary sibling up to the rename, the primary path holds either what it
held before the call or the complete new content, never a part of it.  The
last of these states is the one `Save` returns in. -/
theorem Save_primary_never_torn (fault : SaveFault) (fs : FS) (v : Nat) :
    ((CheckpointStore.Save fault fs v).2 ≠ none →
      (CheckpointStore.Save fault fs v).1.primary = fs.primary) ∧
    (∀ st ∈ CheckpointStore.SaveSteps fault fs v,
      st.primary = fs.primary ∨ st.primary = .file (jsonMarshalCheckpoint v)) ∧
    (CheckpointStore.SaveSteps fault fs v).getLast? = some (CheckpointStore.Save fault fs v).1 := by
  have hmem := mem_writeFileSteps_tmp fault fs (jsonMarshalCheckpoint v)
  cases hw : writeFile fault.write fs.tmp (jsonMarshalCheckpoint v) with
  | mk tmp1 failed =>
    cases failed with
    | true =>
      have hS : CheckpointStore.Save fault fs v = ({ fs with tmp := tmp1 }, some .write) := by
        simp only [CheckpointStore.Save, hw]
      have hT : CheckpointStore.SaveSteps fault fs v
          = fs :: (writeFileSteps fault.write fs.tmp (jsonMarshalCheckpoint v)).map
              (fun t => ({ fs with tmp := t } : FS)) := by
        simp only [CheckpointStore.SaveSteps, hw]
      have hlast := SaveSteps_write_last fault.write fs (jsonMarshalCheckpoint v)
      rw [hw] at hlast
      rw [hS, hT]
      refine ⟨fun _ => rfl, ?_, hlast⟩
      intro st hst
      rcases List.mem_cons.mp hst with h | h
      · exact Or.inl (by rw [h])
      · exact Or.inl (hmem st h)
    | false =>
      have htmp := writeFile_ok_node _ _ _ _ hw
      by_cases hr : (fault.rename || decide (fs.primary = Node.dir)) = true
      · have hS : CheckpointStore.Save fault fs v
            = ({ fs with tmp := tmp1 }, some .rename) := by
          simp only [CheckpointStore.Save, hw, hr, if_true]
        have hT : CheckpointStore.SaveSteps fault fs v
            = fs :: (writeFileSteps fault.write fs.tmp (jsonMarshalCheckpoint v)).map
                (fun t => ({ fs with tmp := t } : FS)) ++ [{ fs with tmp := tmp1 }] := by
          simp only [CheckpointStore.SaveSteps, hw, hr, if_true]
        rw [hS, hT]
        refine ⟨fun _ => rfl, ?_, getLast?_cons_append_singleton _ _ _⟩
        intro st hst
        rcases List.mem_append.mp hst with h | h
        · rcases List.mem_cons.mp h with h1 | h1
          · exact Or.inl (by rw [h1])
          · exact Or.inl (hmem st h1)
        · simp only [List.mem_singleton] at h
          exact Or.inl (by rw [h])
      · have hS : CheckpointStore.Save fault fs v
            = ({ primary := tmp1, tmp := .missing }, none) := by
          simp only [CheckpointStore.Save, hw, hr]
          rfl
        have hT : CheckpointStore.SaveSteps fault fs v
            = fs :: (writeFileSteps fault.write fs.tmp (jsonMarshalCheckpoint v)).map
                (fun t => ({ fs with tmp := t } : FS))
              ++ [{ primary := tmp1, tmp := .missing }] := by
          simp only [CheckpointStore.SaveSteps, hw, hr]
          rfl
        rw [hS, hT]
        refine ⟨fun h => absurd rfl h, ?_, getLast?_cons_append_singleton _ _ _⟩
        intro st hst
        rcases List.mem_append.mp hst with h | h
        · rcases List.mem_cons.mp h with h1 | h1
          · exact Or.inl (by rw [h1])
          · exact Or.inl (hmem st h1)
        · simp only [List.mem_singleton] at h
          exact Or.inr (by rw [h, htmp])

theorem Save_primary_never_torn_witness :
    (CheckpointStore.Save ⟨.atWrite 5, false⟩ savedFS 99).1.primary = savedFS.primary :=
  (Save_primary_never_torn ⟨.atWrite 5, false⟩ savedFS 99).1 (by decide)

/-- C19. The cases of `Load`.  When the primary path does not exist the
result is `(0, nil)` whatever the temporary sibling holds.  When the primary
is a readable file the result is that of decoding the primary alone, whatever
the sibling holds.  When the primary exists but cannot be read, a readable
sibling is decoded exactly as a primary with the same bytes would be, and an
unreadable sibling gives value 0 with the read error.  Decoding a file gives
either value 0 with a decode error or a value below `2^64` with no error: the
document `Save` writes for `v` gives `(v, nil)`, and every proper prefix of
that document, as a torn write leaves it, gives `(0, error)`. -/
theorem Load_cases (primary tmp : Node) :
    (primary = .missing → CheckpointStore.Load ⟨primary, tmp⟩ = (0, none)) ∧
    (∀ data, primary = .file data →
      CheckpointStore.Load ⟨primary, tmp⟩ = CheckpointStore.Load ⟨.file data, .missing⟩) ∧
    (primary = .dir →
      (∀ data, tmp = .file data →
        CheckpointStore.Load ⟨primary, tmp⟩ = CheckpointStore.Load ⟨.file data, .missing⟩) ∧
      (tmp = .missing → CheckpointStore.Load ⟨primary, tmp⟩ = (0, some .notExist)) ∧
      (tmp = .dir → CheckpointStore.Load ⟨primary, tmp⟩ = (0, some .read))) ∧
    (∀ data, CheckpointStore.Load ⟨.file data, .missing⟩ = (0, some .decode) ∨
      ∃ v, v < 2 ^ 64 ∧ CheckpointStore.Load ⟨.file data, .missing⟩ = (v, none)) ∧
    (∀ v, v < 2 ^ 64 →
      CheckpointStore.Load ⟨.file (jsonMarshalCheckpoint v), .missing⟩ = (v, none)) ∧
    (∀ v k, k < (jsonMarshalCheckpoint v).data.length →
      CheckpointStore.Load ⟨.file (String.mk ((jsonMarshalCheckpoint v).data.take k)), .missing⟩
        = (0, some .decode)) := by
  refine ⟨?_, ?_, ?_, ?_, ?_, ?_⟩
  · intro h
    subst h
    rfl
  · intro data h
    subst h
    rfl
  · intro h
    subst h
    refine ⟨fun data ht => ?_, fun ht => ?_, fun ht => ?_⟩ <;> (subst ht; rfl)
  · intro data
    rw [Load_of_primary_file]
    unfold decodeCheckpoint
    cases hd : jsonUnmarshalCheckpoint data with
    | none => exact Or.inl rfl
    | some v => exact Or.inr ⟨v, jsonUnmarshalCheckpoint_lt data v hd, rfl⟩
  · intro v hv
    rw [Load_of_primary_file]
    simp only [decodeCheckpoint, jsonUnmarshal_jsonMarshal v hv]
  · intro v k hk
    rw [Load_of_primary_file]
    simp only [decodeCheckpoint, jsonUnmarshal_truncated v k hk]

theorem Load_cases_witness :
    CheckpointStore.Load ⟨.missing, .file "\x7b\"confirmed\":67890\x7d"⟩ = (0, none) ∧
    CheckpointStore.Load
      ⟨.file "\x7b\"confirmed\":12345\x7d", .file "\x7b\"confirmed\":67890\x7d"⟩
        = (12345, none) ∧
    CheckpointStore.Load ⟨.dir, .file "\x7b\"confirmed\":67890\x7d"⟩ = (67890, none) ∧
    CheckpointStore.Load ⟨.dir, .missing⟩ = (0, some .notExist) ∧
    CheckpointStore.Load ⟨.dir, .dir⟩ = (0, some .read) ∧
    CheckpointStore.Load ⟨.file "\x7b\"confirmed\":123", .file "\x7b\"confirmed\":67890\x7d"⟩
        = (0, some .decode) ∧
    CheckpointStore.Load ⟨.file "invalid json", .missing⟩ = (0, some .decode) := by
  have e1 : jsonMarshalCheckpoint 12345 = "\x7b\"confirmed\":12345\x7d" := by decide
  have e2 : jsonMarshalCheckpoint 67890 = "\x7b\"confirmed\":67890\x7d" := by decide
  have e3 : String.mk ((jsonMarshalCheckpoint 12345).data.take 16) = "\x7b\"confirmed\":123" := by
    decide
  refine ⟨(Load_cases .missing _).1 rfl, ?_, ?_, ((Load_cases .dir .missing).2.2.1 rfl).2.1 rfl,
    ((Load_cases .dir .dir).2.2.1 rfl).2.2 rfl, ?_, by decide⟩
  · rw [(Load_cases (.file "\x7b\"confirmed\":12345\x7d") _).2.1 _ rfl, ← e1]
    exact (Load_cases .missing .missing).2.2.2.2.1 12345 (by norm_num)
  · rw [((Load_cases .dir (.file "\x7b\"confirmed\":67890\x7d")).2.2.1 rfl).1 _ rfl, ← e2]
    exact (Load_cases .missing .missing).2.2.2.2.1 67890 (by norm_num)
  · rw [(Load_cases (.file "\x7b\"confirmed\":123") _).2.1 _ rfl, ← e3]
    exact (Load_cases .missing .missing).2.2.2.2.2 12345 16 (by decide)

/-- The documents `encoding/json` decodes into a `Checkpoint` and those it
refuses, beyond the one `Save` writes: the key is matched without regard
to case, unknown members and nested values are skipped, `null` leaves the
field alone, the last of several members wins; a number that is no `uint64`,
a value of another type, a top-level value that is no object, and text that
is not JSON are errors. -/
theorem jsonUnmarshalCheckpoint_documents :
    jsonUnmarshalCheckpoint "\x7b\"Confirmed\":5\x7d" = some 5 ∧
    jsonUnmarshalCheckpoint "\x7b\"confirmed\":5,\"extra\":[1,\x7b\"a\":null\x7d,\"x\\u0041\"]\x7d"
      = some 5 ∧
    jsonUnmarshalCheckpoint " \x7b \"other\" : true , \"CONFIRMED\" : 5 \x7d \n" = some 5 ∧
    jsonUnmarshalCheckpoint "null" = some 0 ∧
    jsonUnmarshalCheckpoint "\x7b\x7d" = some 0 ∧
    jsonUnmarshalCheckpoint "\x7b\"confirmed\":null\x7d" = some 0 ∧
    jsonUnmarshalCheckpoint "\x7b\"other\":1\x7d" = some 0 ∧
    jsonUnmarshalCheckpoint "\x7b\"confirmed\":5,\"confirmed\":6\x7d" = some 6 ∧
    jsonUnmarshalCheckpoint "\x7b\"\\u0063onfirmed\":7\x7d" = some 7 ∧
    jsonUnmarshalCheckpoint "\x7b\"a\":\x7b\"confirmed\":7\x7d\x7d" = some 0 ∧
    jsonUnmarshalCheckpoint "\x7b\"confirmed\":18446744073709551615\x7d"
      = some 18446744073709551615 ∧
    jsonUnmarshalCheckpoint "\x7b\"confirmed\":18446744073709551616\x7d" = none ∧
    jsonUnmarshalCheckpoint "\x7b\"confirmed\":-1\x7d" = none ∧
    jsonUnmarshalCheckpoint "\x7b\"confirmed\":5.0\x7d" = none ∧
    jsonUnmarshalCheckpoint "\x7b\"confirmed\":1e2\x7d" = none ∧
    jsonUnmarshalCheckpoint "\x7b\"confirmed\":05\x7d" = none ∧
    jsonUnmarshalCheckpoint "\x7b\"confirmed\":\"5\"\x7d" = none ∧
    jsonUnmarshalCheckpoint "\x7b\"confirmed\":5,\"confirmed\":true\x7d" = none ∧
    jsonUnmarshalCheckpoint "\x7b\"confirmed\":5,\x7d" = none ∧
    jsonUnmarshalCheckpoint "\x7b\"confirmed\":5\x7dx" = none ∧
    jsonUnmarshalCheckpoint "[5]" = none ∧
    jsonUnmarshalCheckpoint "5" = none ∧
    jsonUnmarshalCheckpoint "" = none ∧
    jsonUnmarshalCheckpoint "invalid json" = none := by
  decide

/-! ### The address file -/

theorem loadRecords_accepted (ToLower : String → String) (recs : List addrRecord) :
    ∀ (i : Nat) (data : AddrMap), (∀ r ∈ recs, addressAccepted ToLower r) →
      ∃ m, loadRecords ToLower recs i data = .ok m := by
  induction recs with
  | nil => intro i data _; exact ⟨data, rfl⟩
  | cons r rest ih =>
    intro i data h
    have hr : addressAccepted ToLower r := h r (List.mem_cons_self _ _)
    have hne : ToLower (TrimSpace r.Address) ≠ "" := by
      intro he
      have h42 := hr.1
      rw [he] at h42
      revert h42
      decide
    have hok : ¬ ((ToLower (TrimSpace r.Address)).utf8ByteSize ≠ 42 ∨
        ¬ (['0', 'x'].isPrefixOf (ToLower (TrimSpace r.Address)).data = true)) := by
      intro hc
      rcases hc with hc | hc
      · exact hc hr.1
      · exact hc hr.2
    simp only [loadRecords, hne, hok, if_false]
    exact ih _ _ (fun x hx => h x (List.mem_cons_of_mem _ hx))

theorem loadRecords_first_rejected (ToLower : String → String) (r : addrRecord)
    (post : List addrRecord) (hr : ¬ addressAccepted ToLower r) (pre : List addrRecord) :
    ∀ (i : Nat) (data : AddrMap), (∀ x ∈ pre, addressAccepted ToLower x) →
      loadRecords ToLower (pre ++ r :: post) i data
        = .error (if ToLower (TrimSpace r.Address) = "" then .emptyAddress (i + pre.length)
                  else .invalidAddress (i + pre.length) r.Address) := by
  induction pre with
  | nil =>
    intro i data _
    by_cases he : ToLower (TrimSpace r.Address) = ""
    · simp [loadRecords, he]
    · have hbad : (ToLower (TrimSpace r.Address)).utf8ByteSize ≠ 42 ∨
          ¬ (['0', 'x'].isPrefixOf (ToLower (TrimSpace r.Address)).data = true) := by
        by_cases h42 : (ToLower (TrimSpace r.Address)).utf8ByteSize = 42
        · right
          intro hp
          exact hr ⟨h42, hp⟩
        · left
          exact h42
      simp only [List.nil_append, loadRecords, he, hbad, if_false, if_true, List.length_nil,
        Nat.add_zero]
  | cons x pre ih =>
    intro i data h
    have hx : addressAccepted ToLower x := h x (List.mem_cons_self _ _)
    have hne : ToLower (TrimSpace x.Address) ≠ "" := by
      intro he
      have h42 := hx.1
      rw [he] at h42
      revert h42
      decide
    have hok : ¬ ((ToLower (TrimSpace x.Address)).utf8ByteSize ≠ 42 ∨
        ¬ (['0', 'x'].isPrefixOf (ToLower (TrimSpace x.Address)).data = true)) := by
      intro hc
      rcases hc with hc | hc
      · exact hc hx.1
      · exact hc hx.2
    have e : loadRecords ToLower (x :: (pre ++ r :: post)) i data
        = loadRecords ToLower (pre ++ r :: post) (i + 1)
            (fun k => if k = ToLower (TrimSpace x.Address) then some x.UserID else data k) := by
      simp only [loadRecords, hne, hok, if_false]
    rw [List.cons_append, e, ih (i + 1) _ (fun y hy => h y (List.mem_cons_of_mem _ hy))]
    simp only [List.length_cons]
    have : i + 1 + pre.length = i + (pre.length + 1) := by omega
    rw [this]

theorem loadRecords_ok_accepted (ToLower : String → String) (recs : List addrRecord) :
    ∀ (i : Nat) (data m : AddrMap), loadRecords ToLower recs i data = .ok m →
      ∀ r ∈ recs, addressAccepted ToLower r := by
  induction recs with
  | nil => intro i data m _ r hr; simp at hr
  | cons x rest ih =>
    intro i data m h r hr
    unfold loadRecords at h
    dsimp only at h
    split at h
    · simp at h
    · split at h
      · simp at h
      · rename_i hbad
        rcases List.mem_cons.mp hr with hx | hx
        · subst hx
          constructor
          · by_contra h42
            exact hbad (Or.inl h42)
          · by_contra hp
            exact hbad (Or.inr hp)
        · exact ih _ _ m h r hx

/-- C20 (counterexample). A record whose address is `0x` followed by twenty
two-byte letters is 22 characters long, yet the load succeeds, because the
address is 42 bytes long; and a record whose address is `0x` followed by forty
such letters is 42 characters long and begins with `0x`, yet the load fails
with an invalid-address error at index 0. -/
theorem address_length_counts_bytes :
    (asciiToLower (TrimSpace shortWideAddress)).length = 22 ∧
    loadError (NewMemoryAddressIndexFromJSON asciiToLower
      (.records [⟨"user1", shortWideAddress⟩])) = none ∧
    (asciiToLower (TrimSpace longWideAddress)).length = 42 ∧
    ['0', 'x'].isPrefixOf (asciiToLower (TrimSpace longWideAddress)).data = true ∧
    loadError (NewMemoryAddressIndexFromJSON asciiToLower
      (.records [⟨"user1", longWideAddress⟩])) = some (.invalidAddress 0 longWideAddress) := by
  decide

/-- C20 (amended). Given the decoded records of the address file,
`NewMemoryAddressIndexFromJSON` succeeds iff every record's address, after
trimming surrounding white space and lower-casing, is 42 bytes long and begins
with `0x`; otherwise it returns no index and the error of the first offending
record, carrying that record's position: the empty-address error when the
trimmed address is empty, the invalid-address error otherwise. -/
theorem NewMemoryAddressIndexFromJSON_validation (ToLower : String → String)
    (recs : List addrRecord) :
    ((∃ m, NewMemoryAddressIndexFromJSON ToLower (.records recs) = .ok m) ↔
      ∀ r ∈ recs, addressAccepted ToLower r) ∧
    (∀ (pre post : List addrRecord) (r : addrRecord), recs = pre ++ r :: post →
      (∀ x ∈ pre, addressAccepted ToLower x) → ¬ addressAccepted ToLower r →
      NewMemoryAddressIndexFromJSON ToLower (.records recs)
        = .error (if ToLower (TrimSpace r.Address) = "" then .emptyAddress pre.length
                  else .invalidAddress pre.length r.Address)) := by
  refine ⟨⟨?_, ?_⟩, ?_⟩
  · rintro ⟨m, hm⟩
    unfold NewMemoryAddressIndexFromJSON at hm
    dsimp only at hm
    cases hl : loadRecords ToLower recs 0 (fun _ => none) with
    | error e => rw [hl] at hm; simp at hm
    | ok data => exact loadRecords_ok_accepted ToLower recs 0 _ data hl
  · intro h
    obtain ⟨data, hd⟩ := loadRecords_accepted ToLower recs 0 (fun _ => none) h
    exact ⟨⟨data⟩, by simp only [NewMemoryAddressIndexFromJSON, hd]⟩
  · intro pre post r hrecs hpre hr
    have := loadRecords_first_rejected ToLower r post hr pre 0 (fun _ => none) hpre
    simp only [Nat.zero_add] at this
    simp only [NewMemoryAddressIndexFromJSON, hrecs, this]

theorem NewMemoryAddressIndexFromJSON_validation_witness :
    loadError (NewMemoryAddressIndexFromJSON asciiToLower
      (.records [⟨"user1", "  0x1234567890123456789012345678901234567890 "⟩,
                 ⟨"user2", " \t"⟩, ⟨"user3", "0x123"⟩])) = some (.emptyAddress 1) := by
  rw [(NewMemoryAddressIndexFromJSON_validation asciiToLower
      [⟨"user1", "  0x1234567890123456789012345678901234567890 "⟩,
       ⟨"user2", " \t"⟩, ⟨"user3", "0x123"⟩]).2
    [⟨"user1", "  0x1234567890123456789012345678901234567890 "⟩] [⟨"user3", "0x123"⟩]
    ⟨"user2", " \t"⟩ rfl (by decide) (by decide)]
  decide

/-! ### The retry loop -/

theorem fetchLoop_run (ToLower : String → String) (delay : Nat → Int)
    (rpc : Nat → RpcResponse) (h : Nat) (o : FetchOutcome) (j : Nat) :
    ∀ (fuel attempt calls obs : Nat) (sleeps : List Int),
      (∀ i, i < j → classify ToLower h (rpc (calls + i)) = .retry) →
      classify ToLower h (rpc (calls + j)) = .stop o → j < fuel →
      fetchLoop ToLower delay rpc Ctx.background h fuel attempt calls obs sleeps
        = ⟨some o, calls + j + 1, sleeps ++ (List.range' attempt j).map delay⟩ := by
  induction j with
  | zero =>
    intro fuel attempt calls obs sleeps _ hstop hfuel
    obtain ⟨f, rfl⟩ : ∃ f, fuel = f + 1 := ⟨fuel - 1, by omega⟩
    simp only [Nat.add_zero] at hstop
    unfold fetchLoop
    cases hr : rpc calls with
    | err =>
      rw [hr] at hstop
      simp only [classify, Verdict.stop.injEq] at hstop
      simp [← hstop]
    | block blk =>
      rw [hr] at hstop
      cases blk with
      | none =>
        simp only [classify, Verdict.stop.injEq] at hstop
        simp [← hstop, Ctx.background]
      | some b =>
        simp only [classify] at hstop
        cases hp : ParseHexUint64 ToLower b.Number with
        | error e =>
          rw [hp] at hstop
          simp only [Verdict.stop.injEq] at hstop
          simp [← hstop, Ctx.background, hp]
        | ok n =>
          rw [hp] at hstop
          by_cases hn : n = h
          · simp only [hn, if_true, Verdict.stop.injEq] at hstop
            simp [← hstop, Ctx.background, hp, hn]
          · simp [hn] at hstop
  | succ j ih =>
    intro fuel attempt calls obs sleeps hretry hstop hfuel
    obtain ⟨f, rfl⟩ : ∃ f, fuel = f + 1 := ⟨fuel - 1, by omega⟩
    have h0 := hretry 0 (by omega)
    simp only [Nat.add_zero] at h0
    unfold fetchLoop
    cases hr : rpc calls with
    | err => rw [hr] at h0; simp [classify] at h0
    | block blk =>
      rw [hr] at h0
      cases blk with
      | none => simp [classify] at h0
      | some b =>
        simp only [classify] at h0
        cases hp : ParseHexUint64 ToLower b.Number with
        | error e => rw [hp] at h0; simp at h0
        | ok n =>
          rw [hp] at h0
          by_cases hn : n = h
          · simp [hn] at h0
          · have hrec := ih f (attempt + 1) (calls + 1) (obs + 2) (sleeps ++ [delay attempt])
              (fun i hi => by
                have := hretry (i + 1) (by omega)
                rwa [show calls + 1 + i = calls + (i + 1) by omega])
              (by rwa [show calls + 1 + j = calls + (j + 1) by omega])
              (by omega)
            simp only [Ctx.background, hp, hn, if_false, Bool.false_eq_true]
            rw [hrec]
            simp only [List.range'_succ, List.map_cons, List.append_assoc, List.singleton_append,
              FetchRun.mk.injEq, true_and, and_true]
            omega

theorem fetchLoop_retrying (ToLower : String → String) (delay : Nat → Int)
    (rpc : Nat → RpcResponse) (h : Nat) (fuel : Nat) :
    ∀ (attempt calls obs : Nat) (sleeps : List Int),
      (∀ i, i < fuel → classify ToLower h (rpc (calls + i)) = .retry) →
      fetchLoop ToLower delay rpc Ctx.background h fuel attempt calls obs sleeps
        = ⟨none, calls + fuel, sleeps ++ (List.range' attempt fuel).map delay⟩ := by
  induction fuel with
  | zero => intro attempt calls obs sleeps _; simp [fetchLoop]
  | succ f ih =>
    intro attempt calls obs sleeps hretry
    have h0 := hretry 0 (by omega)
    simp only [Nat.add_zero] at h0
    unfold fetchLoop
    cases hr : rpc calls with
    | err => rw [hr] at h0; simp [classify] at h0
    | block blk =>
      rw [hr] at h0
      cases blk with
      | none => simp [classify] at h0
      | some b =>
        simp only [classify] at h0
        cases hp : ParseHexUint64 ToLower b.Number with
        | error e => rw [hp] at h0; simp at h0
        | ok n =>
          rw [hp] at h0
          by_cases hn : n = h
          · simp [hn] at h0
          · have hrec := ih (attempt + 1) (calls + 1) (obs + 2) (sleeps ++ [delay attempt])
              (fun i hi => by
                have := hretry (i + 1) (by omega)
                rwa [show calls + 1 + i = calls + (i + 1) by omega])
            simp only [Ctx.background, hp, hn, if_false, Bool.false_eq_true]
            rw [hrec]
            simp only [List.range'_succ, List.map_cons, List.append_assoc, List.singleton_append,
              FetchRun.mk.injEq, true_and, and_true]
            omega

/-- C11. With no cancellation, for requested height `h` and any sequence of
RPC responses: if the first `k` responses are blocks whose number decodes to
something other than `h` and response `k` is an RPC error, a block with an
undecodable number or a block whose number decodes to `h`, then
`fetchWithRetry` ends at response `k` after exactly `k + 1` RPC calls, with
the error or with that block, having slept `backoff(0), ..., backoff(k - 1)`
in that order; a block is returned only if its number decodes to `h`; and
while every response so far has a different number the function is still in
its loop, one call and one sleep per response. -/
theorem fetchWithRetry_run (ToLower : String → String) (ovf : F64 → Int)
    (rand : Nat → Int → Int) (cfg : BlockFetcherConfig) (rpc : Nat → RpcResponse) (h : Nat) :
    (∀ (k fuel : Nat) (o : FetchOutcome),
      (∀ i, i < k → classify ToLower h (rpc i) = .retry) →
      classify ToLower h (rpc k) = .stop o → k < fuel →
      fetchWithRetry ToLower ovf rand cfg rpc Ctx.background h fuel
          = ⟨some o, k + 1,
              (List.range k).map (fun a => backoffWithJitter ovf (rand a) cfg a)⟩ ∧
      (∀ b, o = .block b → ParseHexUint64 ToLower b.Number = .ok h) ∧
      (rpc k = .err → o = .error .rpc) ∧
      (∀ b e, rpc k = .block (some b) → ParseHexUint64 ToLower b.Number = .error e →
        o = .error (.parse e))) ∧
    (∀ fuel : Nat, (∀ i, i < fuel → classify ToLower h (rpc i) = .retry) →
      fetchWithRetry ToLower ovf rand cfg rpc Ctx.background h fuel
          = ⟨none, fuel, (List.range fuel).map (fun a => backoffWithJitter ovf (rand a) cfg a)⟩) := by
  refine ⟨?_, ?_⟩
  · intro k fuel o hretry hstop hfuel
    have hrun := fetchLoop_run ToLower (fun a => backoffWithJitter ovf (rand a) cfg a) rpc h o k
      fuel 0 0 0 [] (fun i hi => by simpa using hretry i hi) (by simpa using hstop) hfuel
    refine ⟨?_, ?_, ?_, ?_⟩
    · unfold fetchWithRetry
      rw [hrun, List.range_eq_range']
      simp
    · intro b hb
      subst hb
      cases hr : rpc k with
      | err => rw [hr] at hstop; simp [classify] at hstop
      | block blk =>
        rw [hr] at hstop
        cases blk with
        | none => simp [classify] at hstop
        | some b1 =>
          simp only [classify] at hstop
          cases hp : ParseHexUint64 ToLower b1.Number with
          | error e => rw [hp] at hstop; simp at hstop
          | ok n =>
            rw [hp] at hstop
            by_cases hn : n = h
            · simp only [hn, if_true, Verdict.stop.injEq, FetchOutcome.block.injEq] at hstop
              rw [← hstop, hp, hn]
            · simp [hn] at hstop
    · intro hr
      rw [hr] at hstop
      simp only [classify, Verdict.stop.injEq] at hstop
      exact hstop.symm
    · intro b e hr hp
      rw [hr] at hstop
      simp only [classify, hp, Verdict.stop.injEq] at hstop
      exact hstop.symm
  · intro fuel hretry
    have hrun := fetchLoop_retrying ToLower (fun a => backoffWithJitter ovf (rand a) cfg a) rpc h
      fuel 0 0 0 [] (fun i hi => by simpa using hretry i hi)
    unfold fetchWithRetry
    rw [hrun, List.range_eq_range']
    simp

set_option exponentiation.threshold 2048 in
set_option maxRecDepth 100000 in
theorem fetchWithRetry_run_witness :
    fetchWithRetry asciiToLower amd64Overflow (fun _ d => d)
        ⟨8, 10000000000, 100000000, 1000000000, 0⟩ catchingUpRpc Ctx.background 12345 10
      = ⟨some (.block exampleBlock), 3, [100000000, 200000000]⟩ := by
  rw [((fetchWithRetry_run asciiToLower amd64Overflow (fun _ d => d)
      ⟨8, 10000000000, 100000000, 1000000000, 0⟩ catchingUpRpc 12345).1 2 10
      (.block exampleBlock) (by decide) (by decide) (by decide)).1]
  decide

/-! ### Keys of a loaded index -/

theorem loadRecords_keys (ToLower : String → String) (recs : List addrRecord) :
    ∀ (i : Nat) (data m : AddrMap),
      (∀ k, data k ≠ none → k.utf8ByteSize = 42 ∧ ['0', 'x'].isPrefixOf k.data = true) →
      loadRecords ToLower recs i data = .ok m →
      ∀ k, m k ≠ none → k.utf8ByteSize = 42 ∧ ['0', 'x'].isPrefixOf k.data = true := by
  induction recs with
  | nil =>
    intro i data m hdata h
    simp only [loadRecords, Except.ok.injEq] at h
    subst h
    exact hdata
  | cons x rest ih =>
    intro i data m hdata h
    unfold loadRecords at h
    dsimp only at h
    split at h
    · simp at h
    · split at h
      · simp at h
      · rename_i hbad
        refine ih _ _ m ?_ h
        intro k hk
        by_cases hka : k = ToLower (TrimSpace x.Address)
        · subst hka
          constructor
          · by_contra h42
            exact hbad (Or.inl h42)
          · by_contra hp
            exact hbad (Or.inr hp)
        · simp only [hka, if_false] at hk
          exact hdata k hk

/-- An index built by `NewMemoryAddressIndexFromJSON` never has the empty
string as a key, so looking up an absent `to` misses. -/
theorem NewMemoryAddressIndexFromJSON_no_empty_key (ToLower : String → String)
    (file : AddressFile) (m : MemoryAddressIndex)
    (h : NewMemoryAddressIndexFromJSON ToLower file = .ok m) (hlow : ToLower "" = "") :
    ((m.toIndex ToLower).Lookup "").2 = false := by
  cases file with
  | openError => simp [NewMemoryAddressIndexFromJSON] at h
  | decodeError => simp [NewMemoryAddressIndexFromJSON] at h
  | records recs =>
    unfold NewMemoryAddressIndexFromJSON at h
    dsimp only at h
    cases hl : loadRecords ToLower recs 0 (fun _ => none) with
    | error e => rw [hl] at h; simp at h
    | ok data =>
      rw [hl] at h
      simp only [Except.ok.injEq] at h
      subst h
      have hk := loadRecords_keys ToLower recs 0 (fun _ => none) data (by simp) hl ""
      have hnone : data "" = none := by
        by_contra hne
        have := (hk hne).1
        revert this
        decide
      simp [MemoryAddressIndex.toIndex, MemoryAddressIndex.Lookup, hlow, hnone]

/-! ### `ParseHexUint64`: the round trip and the accepted strings -/

theorem digitVal_of_isHexDigit (c : Char) (h : isHexDigit c = true) :
    digitVal c = some (hexDigitValue c) ∧ hexDigitValue c < 16 := by
  simp only [isHexDigit, List.mem_cons, List.mem_singleton, decide_eq_true_eq, List.not_mem_nil, or_false] at h
  rcases h with h | h | h | h | h | h | h | h | h | h | h | h | h | h | h | h | h | h | h | h | h | h <;>
    subst h <;> decide

theorem isHexDigit_of_digitVal (c : Char) (d : Nat) (h : digitVal c = some d) (hd : d < 16) :
    isHexDigit c = true := by
  have hc : c = Char.ofNat c.toNat := (Char.ofNat_toNat c).symm
  unfold digitVal at h
  simp only at h
  have hr : (48 ≤ c.toNat ∧ c.toNat ≤ 57) ∨ (97 ≤ c.toNat ∧ c.toNat ≤ 102) ∨
      (65 ≤ c.toNat ∧ c.toNat ≤ 70) := by
    split_ifs at h with h1 h2 h3
    · exact Or.inl h1
    · simp only [Option.some.injEq] at h
      exact Or.inr (Or.inl ⟨h2.1, by omega⟩)
    · simp only [Option.some.injEq] at h
      exact Or.inr (Or.inr ⟨h3.1, by omega⟩)
  generalize c.toNat = v at hc hr
  subst hc
  rcases hr with ⟨h1, h2⟩ | ⟨h1, h2⟩ | ⟨h1, h2⟩ <;> interval_cases v <;> decide

theorem hexValueFrom_ge (cs : List Char) : ∀ n : Nat, n ≤ hexValueFrom n cs := by
  induction cs with
  | nil => intro n; exact Nat.le_refl n
  | cons c cs ih =>
    intro n
    have h := ih (n * 16 + hexDigitValue c)
    have e : hexValueFrom n (c :: cs) = hexValueFrom (n * 16 + hexDigitValue c) cs := rfl
    rw [e]
    omega

theorem parseUintLoop_hex_iff (cs : List Char) : ∀ (n v : Nat), n < 2 ^ 64 →
    (parseUintLoop 16 cs n = .ok v ↔
      (∀ c ∈ cs, isHexDigit c = true) ∧ hexValueFrom n cs = v ∧ v < 2 ^ 64) := by
  induction cs with
  | nil =>
    intro n v hn
    simp only [parseUintLoop, Except.ok.injEq, List.not_mem_nil, false_imp_iff, imp_true_iff,
      true_and, hexValueFrom, List.foldl_nil]
    constructor
    · intro h; subst h; exact ⟨rfl, hn⟩
    · intro h; exact h.1
  | cons c cs ih =>
    intro n v hn
    have e : hexValueFrom n (c :: cs) = hexValueFrom (n * 16 + hexDigitValue c) cs := rfl
    rw [e]
    by_cases hc : isHexDigit c = true
    · obtain ⟨hd, hlt⟩ := digitVal_of_isHexDigit c hc
      by_cases hbig : n ≥ (2 ^ 64 - 1) / 16 + 1
      · have hge := hexValueFrom_ge cs (n * 16 + hexDigitValue c)
        have : ¬ (hexValueFrom (n * 16 + hexDigitValue c) cs = v ∧ v < 2 ^ 64) := by
          intro ⟨h1, h2⟩
          norm_num at hbig
          omega
        simp only [parseUintLoop, hd, hbig, if_true, this, and_false, iff_false]
        split_ifs <;> simp
      · norm_num at hbig
        have hm : (n * 16) % 2 ^ 64 = n * 16 := Nat.mod_eq_of_lt (by omega)
        have hn1 : (n * 16 + hexDigitValue c) % 2 ^ 64 = n * 16 + hexDigitValue c :=
          Nat.mod_eq_of_lt (by omega)
        have hstep : parseUintLoop 16 (c :: cs) n
            = parseUintLoop 16 cs (n * 16 + hexDigitValue c) := by
          simp only [parseUintLoop, hd, hm, hn1]
          rw [if_neg (by omega), if_neg (by norm_num; omega), if_neg (by omega)]
        rw [hstep, ih _ v (by omega)]
        constructor
        · rintro ⟨h1, h2⟩
          refine ⟨?_, h2⟩
          intro x hx
          rcases List.mem_cons.1 hx with rfl | hx
          · exact hc
          · exact h1 x hx
        · rintro ⟨h1, h2⟩
          exact ⟨fun x hx => h1 x (List.mem_cons_of_mem _ hx), h2⟩
    · have hrej : ∀ e, parseUintLoop 16 (c :: cs) n ≠ .ok e := by
        intro e he
        cases hd : digitVal c with
        | none => simp [parseUintLoop, hd] at he
        | some d =>
          by_cases hd16 : d < 16
          · exact hc (isHexDigit_of_digitVal c d hd hd16)
          · simp only [parseUintLoop, hd] at he
            rw [if_pos (by omega)] at he
            cases he
      constructor
      · intro h; exact absurd h (hrej v)
      · rintro ⟨h1, _⟩
        exact absurd (h1 c (List.mem_cons_self _ _)) hc

theorem ParseUint_hex_iff (cs : List Char) (v : Nat) :
    ParseUint cs 16 = .ok v ↔
      cs ≠ [] ∧ (∀ c ∈ cs, isHexDigit c = true) ∧ hexValue cs = v ∧ v < 2 ^ 64 := by
  unfold ParseUint
  by_cases h : cs = []
  · simp [h]
  · rw [if_neg h, parseUintLoop_hex_iff cs 0 v (by norm_num)]
    simp [h, hexValue]


theorem toDigits_all (b : Nat) (hb : 2 ≤ b) (P : Char → Prop)
    (hP : ∀ d, d < b → P (Nat.digitChar d)) : ∀ v, ∀ c ∈ Nat.toDigits b v, P c := by
  intro v
  induction v using Nat.strong_induction_on with
  | _ v ih =>
    have hpos : 0 < b := by omega
    by_cases hq : v / b = 0
    · rw [toDigits_small b v hq]
      intro c hc
      simp only [List.mem_singleton] at hc
      subst hc
      exact hP _ (Nat.mod_lt _ hpos)
    · rw [toDigits_step b hb v hq]
      intro c hc
      have hv : 0 < v := by
        rcases Nat.eq_zero_or_pos v with h0 | h0
        · subst h0; simp at hq
        · exact h0
      rcases List.mem_append.mp hc with h | h
      · exact ih (v / b) (Nat.div_lt_self hv hb) c h
      · simp only [List.mem_singleton] at h
        subst h
        exact hP _ (Nat.mod_lt _ hpos)

theorem hexBlockParam_ascii (n : Nat) : ∀ c ∈ (hexBlockParam n).data, c.toNat < 128 := by
  intro c hc
  simp only [hexBlockParam, List.mem_cons] at hc
  rcases hc with rfl | rfl | hc
  · decide
  · decide
  · exact toDigits_all 16 (by omega) (fun c => c.toNat < 128)
      (fun d hd => by interval_cases d <;> decide) n c hc

theorem asciiToLower_hexBlockParam (n : Nat) :
    asciiToLower (hexBlockParam n) = hexBlockParam n := by
  have h : ∀ c ∈ Nat.toDigits 16 n, c.toLower = c :=
    toDigits_all 16 (by omega) (fun c => c.toLower = c)
      (fun d hd => by interval_cases d <;> decide) n
  have hm : (Nat.toDigits 16 n).map Char.toLower = Nat.toDigits 16 n := by
    conv_rhs => rw [← List.map_id (Nat.toDigits 16 n)]
    exact List.map_congr_left (fun c hc => by simpa using h c hc)
  simp only [asciiToLower, hexBlockParam, List.map_cons, hm]
  rfl

/-- C24: for every `n < 2^64`, `ParseHexUint64` applied to the parameter
`GetBlockByNumber` sends for `n` (`0x` followed by the lower-case base-16
digits of `n`) returns `n` with no error.  `strings.ToLower` enters through
its behaviour on ASCII strings only. -/
theorem ParseHexUint64_hexBlockParam (ToLower : String → String)
    (hascii : ∀ s : String, (∀ c ∈ s.data, c.toNat < 128) → ToLower s = asciiToLower s)
    (n : Nat) (hn : n < 2 ^ 64) :
    ParseHexUint64 ToLower (hexBlockParam n) = .ok n := by
  unfold ParseHexUint64
  rw [hascii _ (hexBlockParam_ascii n), asciiToLower_hexBlockParam]
  have e : trimPrefixChars (hexBlockParam n).data ['0', 'x'] = Nat.toDigits 16 n := by
    simp [trimPrefixChars, hexBlockParam]
  rw [e]
  exact ParseUint_toDigits 16 (by omega) (by omega) n hn

/-- Witness for C24 at `n = 0x1a2b` and at the largest height `2^64 - 1`. -/
theorem ParseHexUint64_hexBlockParam_witness :
    hexBlockParam 6699 = "0x1a2b" ∧ hexBlockParam (2 ^ 64 - 1) = "0xffffffffffffffff" ∧
      ParseHexUint64 asciiToLower (hexBlockParam 6699) = .ok 6699 ∧
      ParseHexUint64 asciiToLower (hexBlockParam (2 ^ 64 - 1)) = .ok (2 ^ 64 - 1) :=
  ⟨by decide, by decide,
    ParseHexUint64_hexBlockParam asciiToLower (fun _ _ => rfl) 6699 (by norm_num),
    ParseHexUint64_hexBlockParam asciiToLower (fun _ _ => rfl) (2 ^ 64 - 1) (by norm_num)⟩

/-- C25: `ParseHexUint64 s` succeeds with `v` iff `s`, lower-cased and with
one leading `0x` removed, is a non-empty string of hexadecimal digits whose
value is `v < 2^64`; the empty string, a bare `0x`, a sign, surrounding
whitespace, a non-hexadecimal character and values from `2^64` on are
rejected. -/
theorem ParseHexUint64_succeeds_iff (ToLower : String → String) (s : String) (v : Nat) :
    (ParseHexUint64 ToLower s = .ok v ↔
      trimPrefixChars (ToLower s).data ['0', 'x'] ≠ [] ∧
      (∀ c ∈ trimPrefixChars (ToLower s).data ['0', 'x'], isHexDigit c = true) ∧
      hexValue (trimPrefixChars (ToLower s).data ['0', 'x']) = v ∧ v < 2 ^ 64) ∧
    ParseHexUint64 asciiToLower "" = .error .syntaxErr ∧
    ParseHexUint64 asciiToLower "0x" = .error .syntaxErr ∧
    ParseHexUint64 asciiToLower "-0x123" = .error .syntaxErr ∧
    ParseHexUint64 asciiToLower "+1" = .error .syntaxErr ∧
    ParseHexUint64 asciiToLower " 0x1a2b " = .error .syntaxErr ∧
    ParseHexUint64 asciiToLower "0x123g" = .error .syntaxErr ∧
    ParseHexUint64 asciiToLower "0x10000000000000000" = .error .rangeErr ∧
    ParseHexUint64 asciiToLower "0xffffffffffffffffffff" = .error .rangeErr := by
  refine ⟨ParseUint_hex_iff _ v, ?_⟩
  decide

/-! ### The index after a successful load -/

theorem loadRecords_lookup (ToLower : String → String) (recs : List addrRecord) :
    ∀ (i : Nat) (data m : AddrMap), loadRecords ToLower recs i data = .ok m →
      ∀ k, m k = recs.foldl
        (fun acc r => if k = ToLower (TrimSpace r.Address) then some r.UserID else acc)
        (data k) := by
  induction recs with
  | nil =>
    intro i data m h k
    simp only [loadRecords, Except.ok.injEq] at h
    subst h
    rfl
  | cons x rest ih =>
    intro i data m h k
    unfold loadRecords at h
    dsimp only at h
    split at h
    · simp at h
    · split at h
      · simp at h
      · rw [ih _ _ m h k]
        rfl

theorem foldl_last_match (ToLower : String → String) (k : String) (post : List addrRecord)
    (hpost : ∀ q ∈ post, ToLower (TrimSpace q.Address) ≠ k) :
    ∀ acc : Option String, post.foldl
      (fun acc r => if k = ToLower (TrimSpace r.Address) then some r.UserID else acc) acc
      = acc := by
  induction post with
  | nil => intro acc; rfl
  | cons q rest ih =>
    intro acc
    have hq : ¬ k = ToLower (TrimSpace q.Address) :=
      fun e => hpost q (List.mem_cons_self _ _) e.symm
    simp only [List.foldl_cons, hq, if_false]
    exact ih (fun r hr => hpost r (List.mem_cons_of_mem _ hr)) acc

theorem NewMemoryAddressIndexFromJSON_data (ToLower : String → String)
    (recs : List addrRecord) (m : MemoryAddressIndex)
    (h : NewMemoryAddressIndexFromJSON ToLower (.records recs) = .ok m) :
    loadRecords ToLower recs 0 (fun _ => none) = .ok m.data := by
  unfold NewMemoryAddressIndexFromJSON at h
  dsimp only at h
  cases hl : loadRecords ToLower recs 0 (fun _ => none) with
  | error e => rw [hl] at h; simp at h
  | ok data =>
    rw [hl] at h
    simp only [Except.ok.injEq] at h
    subst h
    rfl

/-- C21 (counterexample). Two records give the same address, once in lower
and once in upper case, to different users.  The load succeeds, and looking
up the first record's address returns the second record's user, not the
first's. -/
theorem duplicate_address_last_record_wins :
    lookupAfterLoad asciiToLower
        [⟨"alice", lowerCaseAddress⟩, ⟨"bob", mixedCaseAddress⟩] (TrimSpace lowerCaseAddress)
      = some ("bob", true) := by
  decide

theorem exists_last_match {α : Type} (p : α → Prop) (l : List α) :
    (∃ x ∈ l, p x) → ∃ pre q post, l = pre ++ q :: post ∧ p q ∧ ∀ x ∈ post, ¬ p x := by
  induction l with
  | nil => rintro ⟨x, hx, -⟩; cases hx
  | cons a l ih =>
    intro hex
    by_cases hl : ∃ x ∈ l, p x
    · obtain ⟨pre, q, post, e, hq, hpost⟩ := ih hl
      exact ⟨a :: pre, q, post, by rw [e]; rfl, hq, hpost⟩
    · obtain ⟨x, hx, hpx⟩ := hex
      rcases List.mem_cons.1 hx with rfl | hx
      · exact ⟨[], x, l, rfl, hpx, fun y hy hpy => hl ⟨y, hy, hpy⟩⟩
      · exact absurd ⟨x, hx, hpx⟩ hl

/-- C21 (amended). After a successful load, for every record `r` that no
later record repeats (none after it has the same trimmed, lower-cased
address), `Lookup (trim r.Address)` returns `(r.UserID, true)`; when several
records share a normalized address, the lookup of each of them returns the
user of the last of them, and every record has such a last record; and
`Lookup` of an address whose lower-case form is the normalized address of no
record returns `("", false)`. -/
theorem NewMemoryAddressIndexFromJSON_lookup (ToLower : String → String)
    (recs : List addrRecord) (m : MemoryAddressIndex)
    (h : NewMemoryAddressIndexFromJSON ToLower (.records recs) = .ok m) :
    (∀ (pre post : List addrRecord) (r : addrRecord), recs = pre ++ r :: post →
      (∀ q ∈ post, ToLower (TrimSpace q.Address) ≠ ToLower (TrimSpace r.Address)) →
      m.Lookup ToLower (TrimSpace r.Address) = (r.UserID, true)) ∧
    (∀ (pre post : List addrRecord) (q : addrRecord), recs = pre ++ q :: post →
      (∀ x ∈ post, ToLower (TrimSpace x.Address) ≠ ToLower (TrimSpace q.Address)) →
      ∀ r ∈ recs, ToLower (TrimSpace r.Address) = ToLower (TrimSpace q.Address) →
        m.Lookup ToLower (TrimSpace r.Address) = (q.UserID, true)) ∧
    (∀ r ∈ recs, ∃ (pre post : List addrRecord) (q : addrRecord), recs = pre ++ q :: post ∧
      ToLower (TrimSpace q.Address) = ToLower (TrimSpace r.Address) ∧
      (∀ x ∈ post, ToLower (TrimSpace x.Address) ≠ ToLower (TrimSpace r.Address)) ∧
      m.Lookup ToLower (TrimSpace r.Address) = (q.UserID, true)) ∧
    (∀ addr : String, (∀ r ∈ recs, ToLower (TrimSpace r.Address) ≠ ToLower addr) →
      m.Lookup ToLower addr = ("", false)) := by
  have hd := loadRecords_lookup ToLower recs 0 _ _ (NewMemoryAddressIndexFromJSON_data ToLower recs m h)
  have hlast : ∀ (pre post : List addrRecord) (q : addrRecord), recs = pre ++ q :: post →
      (∀ x ∈ post, ToLower (TrimSpace x.Address) ≠ ToLower (TrimSpace q.Address)) →
      m.data (ToLower (TrimSpace q.Address)) = some q.UserID := by
    intro pre post q hrecs hpost
    have hk := hd (ToLower (TrimSpace q.Address))
    rw [hrecs, List.foldl_append, List.foldl_cons, if_pos rfl,
      foldl_last_match ToLower _ post hpost] at hk
    exact hk
  refine ⟨?_, ?_, ?_, ?_⟩
  · intro pre post r hrecs hpost
    simp only [MemoryAddressIndex.Lookup, hlast pre post r hrecs hpost]
  · intro pre post q hrecs hpost r _ hrq
    simp only [MemoryAddressIndex.Lookup, hrq, hlast pre post q hrecs hpost]
  · intro r hr
    obtain ⟨pre, q, post, e, hq, hpost⟩ := exists_last_match
      (fun x : addrRecord => ToLower (TrimSpace x.Address) = ToLower (TrimSpace r.Address))
      recs ⟨r, hr, rfl⟩
    refine ⟨pre, post, q, e, hq, hpost, ?_⟩
    have hpost2 : ∀ x ∈ post, ToLower (TrimSpace x.Address) ≠ ToLower (TrimSpace q.Address) := by
      intro x hx
      rw [hq]
      exact hpost x hx
    simp only [MemoryAddressIndex.Lookup, ← hq, hlast pre post q e hpost2]
  · intro addr hnone
    have hk := hd (ToLower addr)
    rw [foldl_last_match ToLower _ recs hnone] at hk
    simp only [MemoryAddressIndex.Lookup, hk]

theorem NewMemoryAddressIndexFromJSON_lookup_witness :
    lookupAfterLoad asciiToLower
        [⟨"alice", "  0xAbCdEf0123456789aBcDeF0123456789AbCdEf01 "⟩,
         ⟨"bob", "0x1234567890123456789012345678901234567890"⟩]
        (TrimSpace "  0xAbCdEf0123456789aBcDeF0123456789AbCdEf01 ")
      = some ("alice", true) ∧
    lookupAfterLoad asciiToLower
        [⟨"alice", lowerCaseAddress⟩, ⟨"bob", mixedCaseAddress⟩] (TrimSpace lowerCaseAddress)
      = some ("bob", true) := by
  constructor
  · unfold lookupAfterLoad
    cases h : NewMemoryAddressIndexFromJSON asciiToLower (.records
        [⟨"alice", "  0xAbCdEf0123456789aBcDeF0123456789AbCdEf01 "⟩,
         ⟨"bob", "0x1234567890123456789012345678901234567890"⟩]) with
    | error e =>
      have hne : loadError (NewMemoryAddressIndexFromJSON asciiToLower (.records
        [⟨"alice", "  0xAbCdEf0123456789aBcDeF0123456789AbCdEf01 "⟩,
         ⟨"bob", "0x1234567890123456789012345678901234567890"⟩])) = none := by decide
      rw [h] at hne
      simp [loadError] at hne
    | ok m =>
      simp only [Option.some.injEq]
      exact (NewMemoryAddressIndexFromJSON_lookup asciiToLower _ m h).1 []
        [⟨"bob", "0x1234567890123456789012345678901234567890"⟩]
        ⟨"alice", "  0xAbCdEf0123456789aBcDeF0123456789AbCdEf01 "⟩ rfl (by decide)
  · unfold lookupAfterLoad
    cases h : NewMemoryAddressIndexFromJSON asciiToLower (.records
        [⟨"alice", lowerCaseAddress⟩, ⟨"bob", mixedCaseAddress⟩]) with
    | error e =>
      have hne : loadError (NewMemoryAddressIndexFromJSON asciiToLower (.records
        [⟨"alice", lowerCaseAddress⟩, ⟨"bob", mixedCaseAddress⟩])) = none := by decide
      rw [h] at hne
      simp [loadError] at hne
    | ok m =>
      simp only [Option.some.injEq]
      exact (NewMemoryAddressIndexFromJSON_lookup asciiToLower _ m h).2.1
        [⟨"alice", lowerCaseAddress⟩] [] ⟨"bob", mixedCaseAddress⟩ rfl (by decide)
        ⟨"alice", lowerCaseAddress⟩ (by decide) (by decide)

/-- C22 (counterexample). A record whose address is `0x` followed by forty
times `z` loads, and the map then holds that string as a key, although it is
no Address: no character after the prefix is a hexadecimal digit. -/
theorem non_hex_key_stored :
    storedAfterLoad asciiToLower [⟨"user1", nonHexAddress⟩] nonHexAddress = some "user1" ∧
    isAddress nonHexAddress = false := by
  decide

/-- C22 (amended). Every key of an index built by
`NewMemoryAddressIndexFromJSON` is 42 bytes long, begins with `0x`, and is
the trimmed, lower-cased address of a record of the input; the characters
after the prefix are not examined. -/
theorem NewMemoryAddressIndexFromJSON_keys (ToLower : String → String)
    (recs : List addrRecord) (m : MemoryAddressIndex)
    (h : NewMemoryAddressIndexFromJSON ToLower (.records recs) = .ok m) :
    ∀ k, m.data k ≠ none →
      k.utf8ByteSize = 42 ∧ ['0', 'x'].isPrefixOf k.data = true ∧
      ∃ r ∈ recs, k = ToLower (TrimSpace r.Address) := by
  intro k hk
  have hl := NewMemoryAddressIndexFromJSON_data ToLower recs m h
  obtain ⟨h42, hpre⟩ := loadRecords_keys ToLower recs 0 _ _ (fun k hk => absurd rfl hk) hl k hk
  refine ⟨h42, hpre, ?_⟩
  by_contra hno
  have hnone : ∀ r ∈ recs, ToLower (TrimSpace r.Address) ≠ k :=
    fun r hr e => hno ⟨r, hr, e.symm⟩
  have := loadRecords_lookup ToLower recs 0 _ _ hl k
  rw [foldl_last_match ToLower k recs hnone] at this
  exact hk this

theorem NewMemoryAddressIndexFromJSON_keys_witness :
    storedAfterLoad asciiToLower [⟨"alice", mixedCaseAddress⟩] lowerCaseAddress ≠ none ∧
    lowerCaseAddress.utf8ByteSize = 42 ∧ ['0', 'x'].isPrefixOf lowerCaseAddress.data = true ∧
    ∃ r ∈ [(⟨"alice", mixedCaseAddress⟩ : addrRecord)],
      lowerCaseAddress = asciiToLower (TrimSpace r.Address) := by
  have hs : storedAfterLoad asciiToLower [⟨"alice", mixedCaseAddress⟩] lowerCaseAddress ≠ none := by
    decide
  refine ⟨hs, ?_⟩
  unfold storedAfterLoad at hs
  cases h : NewMemoryAddressIndexFromJSON asciiToLower
      (.records [⟨"alice", mixedCaseAddress⟩]) with
  | error e => rw [h] at hs; exact absurd rfl hs
  | ok m =>
    rw [h] at hs
    exact NewMemoryAddressIndexFromJSON_keys asciiToLower _ m h lowerCaseAddress hs

/-! ### Case-insensitive lookup -/

theorem toLower_toUpper_ascii (c : Char) (hc : c.toNat < 128) :
    c.toUpper.toLower = c.toLower ∧ c.toLower.toLower = c.toLower ∧
      c.toUpper.toNat < 128 ∧ c.toLower.toNat < 128 := by
  have e : c = Char.ofNat c.toNat := (Char.ofNat_toNat c).symm
  generalize c.toNat = v at e hc
  subst e
  interval_cases v <;> decide

theorem asciiToLower_asciiToUpper (a : String) (ha : ∀ c ∈ a.data, c.toNat < 128) :
    asciiToLower (asciiToUpper a) = asciiToLower a ∧
    asciiToLower (asciiToLower a) = asciiToLower a ∧
    (∀ c ∈ (asciiToUpper a).data, c.toNat < 128) ∧
    (∀ c ∈ (asciiToLower a).data, c.toNat < 128) := by
  refine ⟨?_, ?_, ?_, ?_⟩
  · simp only [asciiToLower, asciiToUpper, List.map_map]
    exact congrArg String.mk
      (List.map_congr_left (fun c hc => (toLower_toUpper_ascii c (ha c hc)).1))
  · simp only [asciiToLower, List.map_map]
    exact congrArg String.mk
      (List.map_congr_left (fun c hc => (toLower_toUpper_ascii c (ha c hc)).2.1))
  · intro c hc
    simp only [asciiToUpper, List.mem_map] at hc
    obtain ⟨d, hd, rfl⟩ := hc
    exact (toLower_toUpper_ascii d (ha d hd)).2.2.1
  · intro c hc
    simp only [asciiToLower, List.mem_map] at hc
    obtain ⟨d, hd, rfl⟩ := hc
    exact (toLower_toUpper_ascii d (ha d hd)).2.2.2

/-- C23 (counterexample). The index loaded from one record with the address
`0xi00…0`, and the address `a` that has a dotless i (U+0131) in place of the
`i`: the upper case of `a` is `0XI00…0`, whose lower case is the key, so
`Lookup (upper a)` finds the user, while `Lookup a` and `Lookup (lower a)` do
not. -/
theorem lookup_upper_differs :
    latinToUpper dotlessAddress = "0XI000000000000000000000000000000000000000" ∧
    lookupAfterLoad asciiToLower [⟨"user1", dottedAddress⟩] (latinToUpper dotlessAddress)
      = some ("user1", true) ∧
    lookupAfterLoad asciiToLower [⟨"user1", dottedAddress⟩] dotlessAddress
      = some ("", false) ∧
    lookupAfterLoad asciiToLower [⟨"user1", dottedAddress⟩] (asciiToLower dotlessAddress)
      = some ("", false) := by
  decide

/-- C23 (amended). For every index and every address `a` of ASCII
characters, `Lookup (upper a)`, `Lookup (lower a)` and `Lookup a` return the
same pair.  `strings.ToLower` and `strings.ToUpper` enter through their
behaviour on ASCII strings only. -/
theorem Lookup_case_insensitive (ToLower ToUpper : String → String)
    (hlower : ∀ s : String, (∀ c ∈ s.data, c.toNat < 128) → ToLower s = asciiToLower s)
    (hupper : ∀ s : String, (∀ c ∈ s.data, c.toNat < 128) → ToUpper s = asciiToUpper s)
    (m : MemoryAddressIndex) (a : String) (ha : ∀ c ∈ a.data, c.toNat < 128) :
    m.Lookup ToLower (ToUpper a) = m.Lookup ToLower a ∧
    m.Lookup ToLower (ToLower a) = m.Lookup ToLower a := by
  obtain ⟨h1, h2, h3, h4⟩ := asciiToLower_asciiToUpper a ha
  have e1 : ToLower (ToUpper a) = ToLower a := by
    rw [hupper a ha, hlower _ h3, hlower a ha, h1]
  have e2 : ToLower (ToLower a) = ToLower a := by
    rw [hlower a ha, hlower _ h4, h2]
  simp only [MemoryAddressIndex.Lookup, e1, e2, and_self]

theorem Lookup_case_insensitive_witness :
    MemoryAddressIndex.Lookup asciiToLower
        ⟨fun k => if k = lowerCaseAddress then some "user1" else none⟩
        (asciiToUpper mixedCaseAddress) = ("user1", true) ∧
    MemoryAddressIndex.Lookup asciiToLower
        ⟨fun k => if k = lowerCaseAddress then some "user1" else none⟩
        (asciiToLower mixedCaseAddress) = ("user1", true) ∧
    MemoryAddressIndex.Lookup asciiToLower
        ⟨fun k => if k = lowerCaseAddress then some "user1" else none⟩
        mixedCaseAddress = ("user1", true) := by
  have h := Lookup_case_insensitive asciiToLower asciiToUpper (fun _ _ => rfl) (fun _ _ => rfl)
    ⟨fun k => if k = lowerCaseAddress then some "user1" else none⟩ mixedCaseAddress
    (by decide)
  have h0 : MemoryAddressIndex.Lookup asciiToLower
      ⟨fun k => if k = lowerCaseAddress then some "user1" else none⟩
      mixedCaseAddress = ("user1", true) := by decide
  exact ⟨h.1.trans h0, h.2.trans h0, h0⟩

/-! ### One tick of the head monitor -/

theorem enqueueLoop_tick (H : Nat) (hH : H < 2 ^ 64 - 1) (sel : Nat → SendOutcome) :
    ∀ (budget i g x : Nat) (out : List Nat),
      (∀ j, i ≤ j → j < i + g → sel j = .sent) → sel (i + g) = .full →
      enqueueLoop H sel budget i ⟨x, out⟩
        = (⟨x + min (H + 1 - x) (min budget g),
            out ++ List.range' x (min (H + 1 - x) (min budget g))⟩, false) := by
  intro budget
  induction budget with
  | zero =>
    intro i g x out _ _
    simp [enqueueLoop]
  | succ b ih =>
    intro i g x out hsent hfull
    unfold enqueueLoop
    by_cases hx : x ≤ H
    · rw [if_pos hx]
      cases g with
      | zero =>
        have hf : sel i = .full := by simpa using hfull
        simp [hf]
      | succ g1 =>
        have hs : sel i = .sent := hsent i (Nat.le_refl i) (by omega)
        have hmod : (x + 1) % 2 ^ 64 = x + 1 := Nat.mod_eq_of_lt (by omega)
        have hrec := ih (i + 1) g1 (x + 1) (out ++ [x])
          (fun j h1 h2 => hsent j (by omega) (by omega))
          (by rw [show i + 1 + g1 = i + (g1 + 1) by omega]; exact hfull)
        have hm : min (H + 1 - x) (min (b + 1) (g1 + 1))
            = min (H + 1 - (x + 1)) (min b g1) + 1 := by omega
        simp only [hs, hmod, hrec, hm, List.range'_succ, List.append_assoc,
          List.singleton_append]
        rw [show x + 1 + min (H + 1 - (x + 1)) (min b g1)
          = x + (min (H + 1 - (x + 1)) (min b g1) + 1) by omega]
    · rw [if_neg hx]
      have hm : min (H + 1 - x) (min (b + 1) g) = 0 := by omega
      simp [hm]

/-- C26 (counterexample). With next height `2^64 - 1`, probed head
`2^64 - 1`, cap 2 and five free slots, one tick enqueues `2^64 - 1` and then
0 and leaves `nextHeight = 1`, where `m = min(H - x + 1, c, f) = 1` asks for
the single height `2^64 - 1`. -/
theorem headTick_wraps_at_largest_head :
    headTick ⟨1000000000, 0, 0, 2⟩ (some 18446744073709551615) (freeSlots 5)
        ⟨18446744073709551615, []⟩
      = (⟨1, [18446744073709551615, 0]⟩, false) ∧
    min (18446744073709551615 + 1 - 18446744073709551615) (min 2 5) = 1 := by
  decide

/-- C26 (amended). One tick with next pending height `x`, probed head
`H < 2^64 - 1`, cap `c` (`MaxEnqueuePerTick`, counted as 0 when negative) and
`f` free slots in the heights queue enqueues exactly `x, x+1, …, x+m-1` with
`m = min(H + 1 - x, c, f)` (so `m = 0` when `x > H`), sets `nextHeight` to
`x + m`, and ends with `headMonitor` still running; a tick whose probe
returned an error enqueues nothing and leaves `nextHeight` unchanged. -/
theorem headTick_enqueues (cfg : HeadMonitorConfig) (H x f : Nat) (out : List Nat)
    (hH : H < 2 ^ 64 - 1) :
    headTick cfg (some H) (freeSlots f) ⟨x, out⟩
      = (⟨x + min (H + 1 - x) (min cfg.MaxEnqueuePerTick.toNat f),
          out ++ List.range' x (min (H + 1 - x) (min cfg.MaxEnqueuePerTick.toNat f))⟩,
         false) ∧
    (∀ sel, headTick cfg none sel ⟨x, out⟩ = (⟨x, out⟩, false)) := by
  constructor
  · unfold headTick
    exact enqueueLoop_tick H hH (freeSlots f) _ 0 f x out
      (fun j _ h2 => by simp only [freeSlots]; rw [if_pos (by omega)])
      (by simp [freeSlots])
  · intro sel
    rfl

theorem headTick_enqueues_witness :
    headTick ⟨1000000000, 0, 0, 64⟩ (some 110) (freeSlots 3) ⟨100, [98, 99]⟩
      = (⟨103, [98, 99, 100, 101, 102]⟩, false) := by
  have h := (headTick_enqueues ⟨1000000000, 0, 0, 64⟩ 110 100 3 [98, 99] (by norm_num)).1
  rw [h]
  decide

/-! ### The sink: what holds in every reachable state -/

theorem withDefaults_BatchSize_pos (cfg : SinkConfig) : 0 < cfg.withDefaults.BatchSize := by
  unfold SinkConfig.withDefaults
  dsimp only
  split
  · norm_num
  · omega

theorem SinkGuardInv_sinkInit (B : Int) (hB : 0 < B) (store : Bool) (fs : FS) :
    SinkGuardInv B (sinkInit store fs) := by
  unfold sinkInit
  cases store with
  | false => exact ⟨Nat.le_refl _, fun p hp => by simp at hp, by simpa using hB⟩
  | true =>
    simp only [if_true]
    split
    · exact ⟨Nat.le_refl _, fun p hp => by simp at hp, by simpa using hB⟩
    · exact ⟨Nat.le_refl _, fun p hp => by simp at hp, by simpa using hB⟩

theorem SinkGuardInv_flush (B : Int) (hB : 0 < B) (env : SinkEnv) (s : SinkState)
    (h1 : s.lastSaved ≤ s.maxSeen)
    (h2 : ∀ p, s.pendingCheckpoint = some p → p = s.maxSeen ∧ s.lastSaved < p) :
    SinkGuardInv B (sendEvents env s) := by
  obtain ⟨e1, _, e3, e4, e5, _, _⟩ := sendEvents_fields env s
  refine ⟨?_, ?_, ?_⟩
  · rw [e3, e4]; exact h1
  · intro p hp
    rw [e5] at hp
    rw [e3, e4]
    exact h2 p hp
  · rw [e1]; simpa using hB

theorem SinkGuardInv_sendEvents (B : Int) (hB : 0 < B) (env : SinkEnv) (s : SinkState)
    (h : SinkGuardInv B s) : SinkGuardInv B (sendEvents env s) :=
  SinkGuardInv_flush B hB env s h.saved_le h.pending_gt

theorem SinkGuardInv_advanceMaxSeen (s : SinkState) (n : Nat)
    (h1 : s.lastSaved ≤ s.maxSeen)
    (h2 : ∀ p, s.pendingCheckpoint = some p → p = s.maxSeen ∧ s.lastSaved < p) :
    (advanceMaxSeen s n).lastSaved ≤ (advanceMaxSeen s n).maxSeen ∧
    (∀ p, (advanceMaxSeen s n).pendingCheckpoint = some p →
      p = (advanceMaxSeen s n).maxSeen ∧ (advanceMaxSeen s n).lastSaved < p) := by
  obtain ⟨_, _, a3, _, _, a6, a7⟩ := advanceMaxSeen_fields s n
  rw [a3, a6, a7]
  constructor
  · omega
  · intro p hp
    by_cases hn : n > s.maxSeen ∧ n > s.lastSaved
    · rw [if_pos hn] at hp
      simp only [Option.some.injEq] at hp
      omega
    · rw [if_neg hn] at hp
      obtain ⟨q1, q2⟩ := h2 p hp
      omega

theorem SinkGuardInv_writeEvent (env : SinkEnv) (cfg : SinkConfig) (hB : 0 < cfg.BatchSize)
    (s : SinkState) (ev : Event) (h : SinkGuardInv cfg.BatchSize s) :
    SinkGuardInv cfg.BatchSize (writeEvent env cfg s ev) := by
  unfold writeEvent
  cases hm : env.marshal ev with
  | none => exact ⟨h.saved_le, h.pending_gt, h.batch_lt⟩
  | some b =>
    dsimp only
    obtain ⟨i1, i2⟩ := SinkGuardInv_advanceMaxSeen { s with batch := s.batch ++ [b] }
      ev.BlockNumber h.saved_le h.pending_gt
    split
    · exact SinkGuardInv_flush cfg.BatchSize hB env _ i1 i2
    · rename_i hlt
      exact ⟨i1, i2, by omega⟩

theorem SinkGuardInv_saveCheckpointIfNeeded (B : Int) (env : SinkEnv) (store : Bool)
    (s : SinkState) (h : SinkGuardInv B s) :
    SinkGuardInv B (saveCheckpointIfNeeded env store s) := by
  cases store with
  | false => rw [saveCheckpointIfNeeded_no_store]; exact h
  | true =>
    cases hp : s.pendingCheckpoint with
    | none => rw [saveCheckpointIfNeeded_none env s hp]; exact h
    | some p =>
      obtain ⟨q1, q2⟩ := h.pending_gt p hp
      rw [saveCheckpointIfNeeded_above env s p hp q2]
      refine ⟨?_, ?_, h.batch_lt⟩
      · dsimp only
        split
        · omega
        · exact h.saved_le
      · intro r hr
        simp at hr

theorem SinkGuardInv_sinkLoop (env : SinkEnv) (cfg : SinkConfig) (hB : 0 < cfg.BatchSize)
    (store : Bool) (msgs : List SinkMsg) :
    ∀ s : SinkState, SinkGuardInv cfg.BatchSize s →
      SinkGuardInv cfg.BatchSize (sinkLoop env cfg store s msgs).1 := by
  induction msgs with
  | nil => intro s h; exact h
  | cons m rest ih =>
    intro s h
    cases m with
    | ctxDone =>
      exact SinkGuardInv_saveCheckpointIfNeeded _ env store _
        (SinkGuardInv_sendEvents _ hB env s h)
    | chanClosed =>
      exact SinkGuardInv_saveCheckpointIfNeeded _ env store _
        (SinkGuardInv_sendEvents _ hB env s h)
    | event ev => exact ih _ (SinkGuardInv_writeEvent env cfg hB s ev h)
    | flushTick => exact ih _ (SinkGuardInv_sendEvents _ hB env s h)
    | checkpointTick => exact ih _ (SinkGuardInv_saveCheckpointIfNeeded _ env store s h)

/-- C30: in every state the sink reaches (after any sequence of events,
ticks, closing and cancellation, with or without a store, whatever the
publisher and the store do), `lastSaved ≤ maxSeen`; a pending checkpoint, if
set, equals `maxSeen` and is strictly above `lastSaved`; and the batch holds
fewer than `batchSize` payloads.  Consequently the test `maxSeen > lastSaved`
made for an event above `maxSeen`, and the test `confirmed > lastSaved` made
in the commit for a pending checkpoint `confirmed`, are true whenever they
are evaluated. -/
theorem sinkProcessor_guards_hold (env : SinkEnv) (cfg : SinkConfig) (store : Bool) (fs : FS)
    (msgs : List SinkMsg) :
    (sinkProcessor env cfg store fs msgs).1.lastSaved
      ≤ (sinkProcessor env cfg store fs msgs).1.maxSeen ∧
    (∀ p, (sinkProcessor env cfg store fs msgs).1.pendingCheckpoint = some p →
      p = (sinkProcessor env cfg store fs msgs).1.maxSeen ∧
      (sinkProcessor env cfg store fs msgs).1.lastSaved < p) ∧
    ((sinkProcessor env cfg store fs msgs).1.batch.length : Int) < cfg.withDefaults.BatchSize ∧
    (∀ ev : Event, ev.BlockNumber > (sinkProcessor env cfg store fs msgs).1.maxSeen →
      ev.BlockNumber > (sinkProcessor env cfg store fs msgs).1.lastSaved) ∧
    (∀ confirmed, (sendEvents env (sinkProcessor env cfg store fs msgs).1).pendingCheckpoint
        = some confirmed →
      confirmed > (sendEvents env (sinkProcessor env cfg store fs msgs).1).lastSaved) := by
  have hB := withDefaults_BatchSize_pos cfg
  have h : SinkGuardInv cfg.withDefaults.BatchSize (sinkProcessor env cfg store fs msgs).1 :=
    SinkGuardInv_sinkLoop env cfg.withDefaults hB store msgs _
      (SinkGuardInv_sinkInit _ hB store fs)
  have h2 := SinkGuardInv_sendEvents _ hB env _ h
  refine ⟨h.saved_le, h.pending_gt, h.batch_lt, ?_, ?_⟩
  · intro ev hev
    have := h.saved_le
    omega
  · intro c hc
    exact (h2.pending_gt c hc).2

/-! ### The payload of an event -/

theorem sinkLoop_payloads (env : SinkEnv) (cfg : SinkConfig) (store : Bool)
    (enc : Event → String) (hm : ∀ e, env.marshal e = some (enc e)) (msgs : List SinkMsg) :
    ∀ s : SinkState,
      (sinkLoop env cfg store s msgs).1.published ++ (sinkLoop env cfg store s msgs).1.batch
        = s.published ++ s.batch ++ (receivedEvents msgs).map enc := by
  induction msgs with
  | nil => intro s; simp [sinkLoop, receivedEvents]
  | cons m rest ih =>
    intro s
    cases m with
    | ctxDone =>
      obtain ⟨e1, e2, -⟩ := sendEvents_fields env s
      obtain ⟨p1, p2⟩ := saveCheckpointIfNeeded_published env store (sendEvents env s)
      simp only [sinkLoop, receivedEvents, p1, p2, e1, e2, List.map_nil, List.append_nil]
    | chanClosed =>
      obtain ⟨e1, e2, -⟩ := sendEvents_fields env s
      obtain ⟨p1, p2⟩ := saveCheckpointIfNeeded_published env store (sendEvents env s)
      simp only [sinkLoop, receivedEvents, p1, p2, e1, e2, List.map_nil, List.append_nil]
    | event ev =>
      obtain ⟨w1, -⟩ := writeEvent_fields env cfg s ev (enc ev) (hm ev)
      simp only [sinkLoop, receivedEvents, List.map_cons]
      rw [ih, w1]
      simp
    | flushTick =>
      obtain ⟨e1, e2, -⟩ := sendEvents_fields env s
      simp only [sinkLoop, receivedEvents]
      rw [ih, e1, e2]
      simp
    | checkpointTick =>
      obtain ⟨p1, p2⟩ := saveCheckpointIfNeeded_published env store s
      simp only [sinkLoop, receivedEvents]
      rw [ih, p1, p2]

set_option maxRecDepth 100000 in
/-- C28: the bytes `json.Marshal` gives for an event are the compact JSON
object with exactly the six members `userId`, `from`, `to`, `amountWei`,
`hash`, `blockNumber`, the first five carrying the strings `UserID`, `From`,
`To`, `AmountWei`, `TxHash` and the last the decimal height; and in every run
of the sink the payloads handed to the publisher, followed by those still in
the batch, are these objects for the events received, in arrival order. -/
theorem sink_payload_is_event_object (quote : String → String)
    (publishFails : Nat → String → Bool) (saveFault : Nat → SaveFault) (cfg : SinkConfig)
    (store : Bool) (fs : FS) (msgs : List SinkMsg) :
    (∀ ev : Event, jsonMarshalEvent quote ev = renderObject quote (eventMembers ev) ∧
      (eventMembers ev).map Prod.fst
        = ["userId", "from", "to", "amountWei", "hash", "blockNumber"]) ∧
    (sinkProcessor (jsonEnv quote publishFails saveFault) cfg store fs msgs).1.published ++
      (sinkProcessor (jsonEnv quote publishFails saveFault) cfg store fs msgs).1.batch
        = (receivedEvents msgs).map (fun ev => renderObject quote (eventMembers ev)) ∧
    jsonMarshalEvent plainQuote (exampleEvent 12345)
      = "\x7b\"userId\":\"vitalik\",\"from\":\"0x1234567890123456789012345678901234567890\"," ++
        "\"to\":\"0xd8da6bf26964af9d7eed9e03e53415d37aa96045\"," ++
        "\"amountWei\":\"0xde0b6b3a7640000\",\"hash\":\"0xtx123\",\"blockNumber\":12345\x7d" := by
  have hobj : ∀ ev : Event, jsonMarshalEvent quote ev = renderObject quote (eventMembers ev) := by
    intro ev
    simp only [jsonMarshalEvent, renderObject, eventMembers, JsonScalar.render,
      String.intercalate, String.intercalate.go, List.map_cons, List.map_nil]
    apply String.ext
    simp only [String.data_append, List.append_assoc]
    rfl
  refine ⟨fun ev => ⟨hobj ev, rfl⟩, ?_, by decide⟩
  have h := sinkLoop_payloads (jsonEnv quote publishFails saveFault) cfg.withDefaults store
    (fun ev => renderObject quote (eventMembers ev))
    (fun e => by simp only [jsonEnv, hobj]) msgs (sinkInit store fs)
  obtain ⟨i1, i2, -⟩ := sinkInit_published store fs
  unfold sinkProcessor
  rw [h, i1, i2]
  simp

/-! ### Shutdown on signals -/

/-- C29 (the code after one signal). After exactly one signal `Start` has
cancelled the context and is blocked on the second receive from `sigCh`: it
has not waited for the stages and has not returned.  For no number of
signals does `Start` reach `wg.Wait()` or return; from two signals on the
process exits with status 1. -/
theorem Start_never_waits_nor_returns :
    Start 1 = (⟨0, true, false⟩, .blockedOnSignal) ∧
    Start 0 = (⟨0, false, false⟩, .blockedOnSignal) ∧
    (∀ n, (Start n).2 ≠ .returned ∧ (Start n).1.waited = false) ∧
    (∀ n, (Start (n + 2)).2 = .exited 1 ∧ (Start (n + 2)).1.cancelled = true) := by
  refine ⟨by decide, by decide, ?_, ?_⟩
  · intro n
    rcases n with _ | _ | n
    · decide
    · decide
    · simp [Start, StartStmts, runStart]
  · intro n
    simp [Start, StartStmts, runStart]

/-! ### The jitter -/

theorem Float64Rounding_exactArith : Float64Rounding exactArith :=
  ⟨fun _ _ h => h, fun _ => rfl, fun _ _ => rfl⟩

theorem Float64Rounding_nat (fl : ℚ → ℚ) (R : Float64Rounding fl) :
    fl 0 = 0 ∧ fl 1 = 1 ∧ fl 2 = 2 ∧ fl 3 = 3 := by
  have h0 := R.exact_int 0 (by norm_num)
  have h1 := R.exact_int 1 (by norm_num)
  have h2 := R.exact_int 2 (by norm_num)
  have h3 := R.exact_int 3 (by norm_num)
  norm_num at h0 h1 h2 h3
  exact ⟨h0, h1, h2, h3⟩

theorem jitterFactor_bounds (fl : ℚ → ℚ) (R : Float64Rounding fl) (r jitter : ℚ)
    (hj0 : 0 < jitter) (hj1 : jitter ≤ 1) (hr0 : 0 ≤ r) (hr1 : r ≤ 1) :
    0 ≤ fl (1 - jitter) ∧ fl (1 - jitter) ≤ jitterFactor fl r jitter ∧
    jitterFactor fl r jitter ≤ jitterFactor fl 1 jitter ∧ jitterFactor fl 1 jitter ≤ 3 := by
  obtain ⟨f0, f1, f2, f3⟩ := Float64Rounding_nat fl R
  have a1 : 0 ≤ fl (1 - jitter) := by
    have := R.mono 0 (1 - jitter) (by linarith)
    rwa [f0] at this
  have a2 : fl (1 - jitter) ≤ 1 := by
    have := R.mono (1 - jitter) 1 (by linarith)
    rwa [f1] at this
  have a3 : 1 ≤ fl (1 + jitter) := by
    have := R.mono 1 (1 + jitter) (by linarith)
    rwa [f1] at this
  have a4 : fl (1 + jitter) ≤ 2 := by
    have := R.mono (1 + jitter) 2 (by linarith)
    rwa [f2] at this
  have d0 : 0 ≤ fl (fl (1 + jitter) - fl (1 - jitter)) := by
    have := R.mono 0 (fl (1 + jitter) - fl (1 - jitter)) (by linarith)
    rwa [f0] at this
  have d2 : fl (fl (1 + jitter) - fl (1 - jitter)) ≤ 2 := by
    have := R.mono (fl (1 + jitter) - fl (1 - jitter)) 2 (by linarith)
    rwa [f2] at this
  have p0 : 0 ≤ fl (r * fl (fl (1 + jitter) - fl (1 - jitter))) := by
    have := R.mono 0 (r * fl (fl (1 + jitter) - fl (1 - jitter))) (mul_nonneg hr0 d0)
    rwa [f0] at this
  have p1 : fl (r * fl (fl (1 + jitter) - fl (1 - jitter)))
      ≤ fl (fl (1 + jitter) - fl (1 - jitter)) := by
    have := R.mono (r * fl (fl (1 + jitter) - fl (1 - jitter)))
      (fl (fl (1 + jitter) - fl (1 - jitter))) (by nlinarith)
    rwa [R.idem] at this
  have e1 : jitterFactor fl 1 jitter
      = fl (fl (1 - jitter) + fl (fl (1 + jitter) - fl (1 - jitter))) := by
    simp only [jitterFactor, one_mul, R.idem]
  refine ⟨a1, ?_, ?_, ?_⟩
  · have := R.mono (fl (1 - jitter))
      (fl (1 - jitter) + fl (r * fl (fl (1 + jitter) - fl (1 - jitter)))) (by linarith)
    rwa [R.idem] at this
  · rw [e1]
    exact R.mono _ _ (by linarith)
  · rw [e1]
    have := R.mono (fl (1 - jitter) + fl (fl (1 + jitter) - fl (1 - jitter))) 3 (by linarith)
    rwa [f3] at this

theorem scaleByFactor_bounds (fl : ℚ → ℚ) (R : Float64Rounding fl) (ovf : F64 → Int)
    (r jitter : ℚ) (base : Int)
    (hj0 : 0 < jitter) (hj1 : jitter ≤ 1) (hr0 : 0 ≤ r) (hr1 : r ≤ 1)
    (hb0 : 0 ≤ base) (hb1 : base ≤ 2 ^ 51) :
    ⌊(base : ℚ) * fl (1 - jitter)⌋ ≤ scaleByFactor fl ovf r jitter base ∧
    scaleByFactor fl ovf r jitter base ≤ ⌈(base : ℚ) * jitterFactor fl 1 jitter⌉ := by
  obtain ⟨a1, a2, a3, a4⟩ := jitterFactor_bounds fl R r jitter hj0 hj1 hr0 hr1
  have hbq0 : (0 : ℚ) ≤ (base : ℚ) := by exact_mod_cast hb0
  have hbq1 : (base : ℚ) ≤ 2 ^ 51 := by exact_mod_cast hb1
  have hfb : float64OfInt64 base = base := float64OfInt64_exact base (by omega)
  -- the lower and upper integer bounds are float64 values
  have hL0 : 0 ≤ ⌊(base : ℚ) * fl (1 - jitter)⌋ := Int.floor_nonneg.mpr (mul_nonneg hbq0 a1)
  have hy3 : (base : ℚ) * jitterFactor fl 1 jitter ≤ 3 * 2 ^ 51 := by nlinarith
  have hU1 : ⌈(base : ℚ) * jitterFactor fl 1 jitter⌉ ≤ 3 * 2 ^ 51 := by
    apply Int.ceil_le.mpr
    push_cast
    linarith
  have hLU : (⌊(base : ℚ) * fl (1 - jitter)⌋ : ℚ) ≤ (base : ℚ) * jitterFactor fl r jitter :=
    le_trans (Int.floor_le _) (mul_le_mul_of_nonneg_left a2 hbq0)
  have hUy : (base : ℚ) * jitterFactor fl r jitter
      ≤ (⌈(base : ℚ) * jitterFactor fl 1 jitter⌉ : ℚ) :=
    le_trans (mul_le_mul_of_nonneg_left a3 hbq0) (Int.le_ceil _)
  have hLle : ⌊(base : ℚ) * fl (1 - jitter)⌋ ≤ ⌈(base : ℚ) * jitterFactor fl 1 jitter⌉ := by
    exact_mod_cast le_trans hLU hUy
  have hxL : (⌊(base : ℚ) * fl (1 - jitter)⌋ : ℚ)
      ≤ fl ((base : ℚ) * jitterFactor fl r jitter) := by
    have := R.mono _ _ hLU
    rwa [R.exact_int _ (by omega)] at this
  have hxU : fl ((base : ℚ) * jitterFactor fl r jitter)
      ≤ (⌈(base : ℚ) * jitterFactor fl 1 jitter⌉ : ℚ) := by
    have := R.mono _ _ hUy
    rwa [R.exact_int _ (by omega)] at this
  have hx0 : 0 ≤ fl ((base : ℚ) * jitterFactor fl r jitter) :=
    le_trans (by exact_mod_cast hL0) hxL
  have hfl1 : ⌊(base : ℚ) * fl (1 - jitter)⌋ ≤ ⌊fl ((base : ℚ) * jitterFactor fl r jitter)⌋ :=
    Int.le_floor.mpr hxL
  have hfl2 : ⌊fl ((base : ℚ) * jitterFactor fl r jitter)⌋
      ≤ ⌈(base : ℚ) * jitterFactor fl 1 jitter⌉ := by
    have : (⌊fl ((base : ℚ) * jitterFactor fl r jitter)⌋ : ℚ)
        ≤ (⌈(base : ℚ) * jitterFactor fl 1 jitter⌉ : ℚ) := le_trans (Int.floor_le _) hxU
    exact_mod_cast this
  have hval : scaleByFactor fl ovf r jitter base
      = ⌊fl ((base : ℚ) * jitterFactor fl r jitter)⌋ := by
    simp only [scaleByFactor, durationOfFloat, hfb, hx0, if_true]
    rw [if_pos (by constructor <;> omega)]
  rw [hval]
  exact ⟨hfl1, hfl2⟩

set_option exponentiation.threshold 2048 in
theorem backoffWithJitter_capped (ovf : F64 → Int) (randomScale : Int → Int)
    (cfg : BlockFetcherConfig) (attempt : Nat)
    (hb : cfg.RetryBaseDelay.natAbs < 2 ^ 53) (ha : attempt < 1024)
    (hlo : -(2 ^ 63) ≤ cfg.RetryBaseDelay * 2 ^ attempt)
    (hhi : cfg.RetryBaseDelay * 2 ^ attempt < 2 ^ 63) :
    backoffWithJitter ovf randomScale cfg attempt
      = if cfg.Jitter ≤ 0 then min (cfg.RetryBaseDelay * 2 ^ attempt) cfg.RetryMaxDelay
        else randomScale (min (cfg.RetryBaseDelay * 2 ^ attempt) cfg.RetryMaxDelay) := by
  have hfin : cfg.RetryBaseDelay.natAbs * 2 ^ attempt < 2 ^ 1024 := by
    have h1 : (cfg.RetryBaseDelay * 2 ^ attempt).natAbs ≤ 2 ^ 63 := by omega
    rw [Int.natAbs_mul, Int.natAbs_pow] at h1
    have h2 : (2 : Nat) ^ 63 < 2 ^ 1024 := Nat.pow_lt_pow_right (by decide) (by decide)
    simp only [Int.reduceAbs, Int.natAbs_ofNat] at h1
    omega
  have hm : (if cfg.RetryBaseDelay * 2 ^ attempt > cfg.RetryMaxDelay then cfg.RetryMaxDelay
      else cfg.RetryBaseDelay * 2 ^ attempt)
      = min (cfg.RetryBaseDelay * 2 ^ attempt) cfg.RetryMaxDelay := by
    rw [min_def]
    split <;> split <;> omega
  unfold backoffWithJitter
  rw [float64OfInt64_exact _ hb]
  simp only [scaleByPow2, ha, if_true, hfin, int64OfFloat64, hlo, hhi, and_self, hm]

/-- C27 (counterexample). With base 3 ns, jitter 0.5 and `rand.Float64()`
returning 0.125, every value of the computation is a `float64` (the factor is
0.625 and the product 1.875), and the conversion to `time.Duration` discards
the fraction: `withJitter` returns 1 ns, below `base * (1 - jitter)` = 1.5 ns.
The same holds for `backoffWithJitter` with base 3 ns, cap 1000 ns and
attempt 0, where `m = 3`. -/
theorem jitter_result_below_lower_bound :
    withJitter exactArith amd64Overflow (1 / 8) 3 (1 / 2) = 1 ∧
    ((1 : Int) : ℚ) < 3 * (1 - 1 / 2) ∧
    backoffWithJitter amd64Overflow (scaleByFactor exactArith amd64Overflow (1 / 8) (1 / 2))
      ⟨8, 10000000000, 3, 1000, 1 / 2⟩ 0 = 1 := by
  have hf : float64OfInt64 3 = 3 := float64OfInt64_exact 3 (by decide)
  have hs : scaleByFactor exactArith amd64Overflow (1 / 8) (1 / 2) 3 = 1 := by
    have hx : exactArith (((3 : Int) : ℚ) * jitterFactor exactArith (1 / 8) (1 / 2)) = 15 / 8 := by
      norm_num [jitterFactor, exactArith]
    have hfloor : ⌊(15 / 8 : ℚ)⌋ = 1 := by
      rw [Int.floor_eq_iff]
      norm_num
    simp only [scaleByFactor, durationOfFloat, hf, hx, hfloor]
    norm_num
  refine ⟨?_, by norm_num, ?_⟩
  · unfold withJitter
    rw [if_neg (by norm_num), hs]
  · rw [backoffWithJitter_capped _ _ _ _ (by decide) (by decide) (by decide) (by decide)]
    rw [if_neg (by norm_num)]
    exact hs

/-- C27 (amended). For a `float64` rounding that is monotone, and a random
value in `[0, 1]`: `withJitter` returns `base` when `jitter ≤ 0` and 0 when
`base = 0`; for `jitter` in `(0, 1]` and `0 ≤ base ≤ 2^51` its result is a
whole number of nanoseconds between `⌊base * fmin⌋` and `⌈base * fhi⌉`, where
`fmin` is the `float64` value of `1 - jitter` and `fhi` the factor computed
for the random value 1; `backoffWithJitter` obeys the same bounds with
`m = min (base * 2^attempt) max` in place of `base`, as long as the back-off
before the jitter is exact (`|base| < 2^53`, `base * 2^attempt < 2^63`) and
`0 ≤ m ≤ 2^51`; and `fmin = 1 - jitter`, `fhi = 1 + jitter` when `1 - jitter`,
`1 + jitter` and `2 * jitter` are `float64` values. -/
theorem jitter_bounds (fl : ℚ → ℚ) (R : Float64Rounding fl) (ovf : F64 → Int) (r : ℚ)
    (hr0 : 0 ≤ r) (hr1 : r ≤ 1) :
    (∀ (base : Int) (jitter : ℚ), jitter ≤ 0 → withJitter fl ovf r base jitter = base) ∧
    (∀ jitter : ℚ, withJitter fl ovf r 0 jitter = 0) ∧
    (∀ (base : Int) (jitter : ℚ), 0 < jitter → jitter ≤ 1 → 0 ≤ base → base ≤ 2 ^ 51 →
      ⌊(base : ℚ) * fl (1 - jitter)⌋ ≤ withJitter fl ovf r base jitter ∧
      withJitter fl ovf r base jitter ≤ ⌈(base : ℚ) * jitterFactor fl 1 jitter⌉) ∧
    (∀ (cfg : BlockFetcherConfig) (attempt : Nat), 0 < cfg.Jitter → cfg.Jitter ≤ 1 →
      attempt < 1024 → 0 ≤ cfg.RetryBaseDelay → cfg.RetryBaseDelay < 2 ^ 53 →
      cfg.RetryBaseDelay * 2 ^ attempt < 2 ^ 63 →
      0 ≤ cfg.RetryMaxDelay → min (cfg.RetryBaseDelay * 2 ^ attempt) cfg.RetryMaxDelay ≤ 2 ^ 51 →
      ⌊((min (cfg.RetryBaseDelay * 2 ^ attempt) cfg.RetryMaxDelay : Int) : ℚ)
          * fl (1 - cfg.Jitter)⌋
        ≤ backoffWithJitter ovf (scaleByFactor fl ovf r cfg.Jitter) cfg attempt ∧
      backoffWithJitter ovf (scaleByFactor fl ovf r cfg.Jitter) cfg attempt
        ≤ ⌈((min (cfg.RetryBaseDelay * 2 ^ attempt) cfg.RetryMaxDelay : Int) : ℚ)
            * jitterFactor fl 1 cfg.Jitter⌉) ∧
    (∀ jitter : ℚ, fl (1 - jitter) = 1 - jitter → fl (1 + jitter) = 1 + jitter →
      fl (2 * jitter) = 2 * jitter → jitterFactor fl 1 jitter = 1 + jitter) := by
  obtain ⟨f0, -, -, -⟩ := Float64Rounding_nat fl R
  refine ⟨?_, ?_, ?_, ?_, ?_⟩
  · intro base jitter hj
    simp only [withJitter, hj, if_true]
  · intro jitter
    unfold withJitter
    split
    · rfl
    · have hz : float64OfInt64 0 = 0 := float64OfInt64_exact 0 (by decide)
      simp only [scaleByFactor, durationOfFloat, hz, Int.cast_zero, zero_mul, f0, le_refl,
        if_true, Int.floor_zero]
      norm_num
  · intro base jitter hj0 hj1 hb0 hb1
    unfold withJitter
    rw [if_neg (not_le.mpr hj0)]
    exact scaleByFactor_bounds fl R ovf r jitter base hj0 hj1 hr0 hr1 hb0 hb1
  · intro cfg attempt hj0 hj1 ha hb0 hb1 hhi hmax hm
    have hpos : 0 ≤ cfg.RetryBaseDelay * 2 ^ attempt := mul_nonneg hb0 (by positivity)
    rw [backoffWithJitter_capped ovf _ cfg attempt (by omega) ha (by omega) hhi,
      if_neg (not_le.mpr hj0)]
    exact scaleByFactor_bounds fl R ovf r cfg.Jitter _ hj0 hj1 hr0 hr1 (le_min hpos hmax) hm
  · intro jitter h1 h2 h3
    have e : 1 + jitter - (1 - jitter) = 2 * jitter := by ring
    have e2 : 1 - jitter + 2 * jitter = 1 + jitter := by ring
    simp only [jitterFactor, h1, h2, e, h3, one_mul, e2]

theorem jitter_bounds_witness :
    90000000 ≤ withJitter exactArith amd64Overflow (1 / 2) 100000000 (1 / 10) ∧
    withJitter exactArith amd64Overflow (1 / 2) 100000000 (1 / 10) ≤ 110000000 := by
  have h := (jitter_bounds exactArith Float64Rounding_exactArith amd64Overflow (1 / 2)
    (by norm_num) (by norm_num)).2.2.1 100000000 (1 / 10) (by norm_num) (by norm_num)
    (by norm_num) (by norm_num)
  have e1 : ⌊((100000000 : Int) : ℚ) * exactArith (1 - 1 / 10)⌋ = 90000000 := by
    rw [Int.floor_eq_iff]
    norm_num [exactArith]
  have e2 : ⌈((100000000 : Int) : ℚ) * jitterFactor exactArith 1 (1 / 10)⌉ = 110000000 := by
    rw [Int.ceil_eq_iff]
    norm_num [exactArith, jitterFactor]
  rw [e1, e2] at h
  exact h

end DeCrypto
